import Mathlib

/-!
# WebVTT subtitle decoder (`modules/codec/webvtt/subsvtt.c`)

A shallow embedding of the decoder core and the properties proved about it.

Conventions of the embedding.

* A C `char` is a `Char`; a byte buffer is a `List Char`.  The plain `char` is
  signed, as on x86: where a `char` enters integer arithmetic, a byte below
  0x80 stands for its code and a byte from 0x80 on for its code minus 256.
* A pointer into a NUL-terminated buffer is the list of the characters from the
  pointed position to the end of the buffer, terminator included (`c_str`).
  The empty list is the pointer one past the terminator: it may be formed but
  not read.  `p + 1` is the tail of `p`; the difference of two pointers into
  the same buffer is the difference of their lengths.
* Undefined behaviour is not given a meaning: an execution that reads outside
  its buffer or uses a pointer that is neither null nor live stops with a
  `Fault`.  Loops whose termination depends on the data carry a fuel counter,
  and `Fault.fuel` stands for a loop that does not terminate.
* A DOM node pointer is an index into the node store of its cue; the store
  grows by one cell at each `webvtt_domnode_New`.
* Allocation never fails.  `assert` is compiled out (the release build), so
  the statement that follows an assertion is the one that decides.
* `unsigned` is 32 bits wide, `size_t` 64 bits wide.  `mtime_t` is a signed
  integer of 64 bits, and an addition that leaves its range is a `Fault`.
* `float` and `double` are the IEEE 754 formats binary32 and binary64.  A value
  is held as the rational it denotes, and each operation is rounded to nearest,
  ties to even, in the type C gives it (`ieee_round`).  Overflow to infinity is
  not modelled: the numbers the decoder computes are far below it.
-/

namespace SubsVtt

/-! ## Faults and C strings -/

/-- Reasons for which an execution has no defined result. -/
inductive Fault
  | out_of_bounds
  | bad_pointer
  | fuel
  | overflow
deriving DecidableEq, Repr

deriving instance DecidableEq for Except

/-- Result of a C operation: a value, or a fault. -/
abbrev Run (α : Type) : Type := Except Fault α

/-- The terminating character of a C string. -/
def NUL : Char := Char.ofNat 0

/-- The buffer holding the string `s`: its characters and the terminator. -/
def c_str (s : List Char) : List Char := s ++ [NUL]

/-- Read of `*p`. -/
def deref : List Char → Run Char
  | [] => .error .out_of_bounds
  | c :: _ => .ok c

/-- Pointer `p + k`; at most one past the end of the buffer. -/
def ptr_add (p : List Char) (k : Nat) : Run (List Char) :=
  if k ≤ p.length then .ok (p.drop k) else .error .out_of_bounds

/-- Pointer difference `p - q` of two pointers into one buffer. -/
def ptr_diff (p q : List Char) : Int := (q.length : Int) - (p.length : Int)

/-- Conversion of a pointer difference to `size_t`: a difference that is not
negative keeps its value, a negative one wraps around. -/
def to_size_t (d : Int) : Nat := if 0 ≤ d then d.toNat else (d + (2 : Int) ^ 64).toNat

/-- C `strchr`: pointer to the first `c` at or after `p`, null at the terminator. -/
def strchr : List Char → Char → Run (Option (List Char))
  | [], _ => .error .out_of_bounds
  | x :: xs, c =>
    if x = c then .ok (some (x :: xs))
    else if x = NUL then .ok none
    else strchr xs c

/-- C `strndup`: copy of at most `n` characters of the string at `p`. -/
def strndup : List Char → Nat → Run (List Char)
  | _, 0 => .ok []
  | [], _ + 1 => .error .out_of_bounds
  | x :: xs, n + 1 =>
    if x = NUL then .ok []
    else match strndup xs n with
      | .ok r => .ok (x :: r)
      | .error e => .error e

/-- C `strdup`: copy of the string at `p`. -/
def strdup : List Char → Run (List Char)
  | [] => .error .out_of_bounds
  | x :: xs =>
    if x = NUL then .ok []
    else match strdup xs with
      | .ok r => .ok (x :: r)
      | .error e => .error e

/-- C `strlen`. -/
def strlen : List Char → Run Nat
  | [] => .error .out_of_bounds
  | x :: xs =>
    if x = NUL then .ok 0
    else match strlen xs with
      | .ok r => .ok (r + 1)
      | .error e => .error e

/-- C `isblank` in the C locale. -/
def isblank (c : Char) : Bool := c = ' ' || c = '\t'

/-- C `ispunct` in the C locale. -/
def ispunct (c : Char) : Bool :=
  let n := c.toNat
  (33 ≤ n && n ≤ 47) || (58 ≤ n && n ≤ 64) || (91 ≤ n && n ≤ 96) || (123 ≤ n && n ≤ 126)

/-! ## Data model -/

/-- Type of the C `float` fields: a `float` is held as the rational it denotes. -/
abbrev vtt_float : Type := Rat

/-- Loop of `bit_length`, with a bound on the number of rounds. -/
def bit_length_loop : Nat → Nat → Nat
  | 0, _ => 0
  | fuel + 1, n => if n = 0 then 0 else bit_length_loop fuel (n / 2) + 1

/-- Number of binary digits of `n`: the least `k` with `n < 2 ^ k`. -/
def bit_length (n : Nat) : Nat := bit_length_loop n n

/-- Rounding of the ratio `n / d` to a binary format of `p` significant digits
whose normal numbers start at `2 ^ emin`, to nearest, ties to even.  The result
`(m, s)` stands for `m * 2 ^ s`: `s` is the exponent of the last digit kept,
which does not go below `emin - (p - 1)` (gradual underflow), and `m` is
`n / d / 2 ^ s` rounded to an integer. -/
def round_nat (p : Nat) (emin : Int) (n d : Nat) : Nat × Int :=
  let e0 : Int := (bit_length n : Int) - (bit_length d : Int)
  let e : Int := if d * 2 ^ e0.toNat ≤ n * 2 ^ (-e0).toNat then e0 else e0 - 1
  let s : Int := max e emin - ((p : Int) - 1)
  let N := n * 2 ^ (-s).toNat
  let D := d * 2 ^ s.toNat
  let m := N / D
  let r := N % D
  (if 2 * r > D ∨ (2 * r = D ∧ m % 2 = 1) then m + 1 else m, s)

/-- Rounding of a rational to the binary format of `p` significant digits whose
normal numbers start at `2 ^ emin`: the magnitude is rounded by `round_nat`,
the sign is kept. -/
def ieee_round (p : Nat) (emin : Int) (q : Rat) : Rat :=
  let r := round_nat p emin q.num.natAbs q.den
  (if q.num < 0 then -1 else 1) * (r.1 : Rat) * (2 : Rat) ^ r.2

/-- Result of an operation of type `float`, and conversion of a `double` to
`float`: rounding to IEEE 754 binary32. -/
def to_float (q : Rat) : vtt_float := ieee_round 24 (-126) q

/-- Result of an operation of type `double`, and value of a decimal constant
such as `5.33`: rounding to IEEE 754 binary64. -/
def to_double (q : Rat) : Rat := ieee_round 53 (-1022) q

/-- Alignment values, `enum webvtt_align_e`. -/
inductive webvtt_align_e
  | WEBVTT_ALIGN_AUTO
  | WEBVTT_ALIGN_LEFT
  | WEBVTT_ALIGN_CENTER
  | WEBVTT_ALIGN_RIGHT
  | WEBVTT_ALIGN_START
  | WEBVTT_ALIGN_END
deriving DecidableEq, Repr

open webvtt_align_e

/-- Settings of one cue, `webvtt_cue_settings_t`. -/
structure webvtt_cue_settings_t where
  psz_region : Option (List Char)
  vertical : webvtt_align_e
  b_snap_to_lines : Bool
  line : vtt_float
  linealign : webvtt_align_e
  position : vtt_float
  positionalign : webvtt_align_e
  size : vtt_float
  align : webvtt_align_e
deriving DecidableEq

/-- One DOM node, `webvtt_domnode_t`; the three links are node-store indices. -/
structure webvtt_domnode_t where
  psz_tag : Option (List Char)
  psz_attrs : Option (List Char)
  psz_text : Option (List Char)
  p_parent : Option Nat
  p_next : Option Nat
  p_child : Option Nat
deriving DecidableEq, Repr

/-- One cue, `webvtt_dom_cue_t`, together with the node store it owns. -/
structure webvtt_dom_cue_t where
  psz_id : Option (List Char)
  i_start : Int
  i_stop : Int
  settings : webvtt_cue_settings_t
  nodes : List webvtt_domnode_t
  p_nodes : Option Nat
  i_lines : Nat
deriving DecidableEq

/-- Value of one `webvtt_dom_cue_t *` slot: null, a live cue, or a non-null
pointer that does not point to a live cue (freed, or moved off its object). -/
inductive cue_ptr
  | null
  | live (c : webvtt_dom_cue_t)
  | invalid
deriving DecidableEq

/-- Number of cue slots of a region, `WEBVTT_REGION_LINES_COUNT`. -/
def WEBVTT_REGION_LINES_COUNT : Nat := 18

/-- One region, `webvtt_region_t`; `p_next` is carried by the list of named
regions of the decoder. -/
structure webvtt_region_t where
  psz_id : Option (List Char)
  f_width : vtt_float
  i_lines_max_scroll : Nat
  anchor_x : vtt_float
  anchor_y : vtt_float
  viewport_anchor_x : vtt_float
  viewport_anchor_y : vtt_float
  b_scroll_up : Bool
  p_cues : List cue_ptr
deriving DecidableEq

/-- Decoder state, `decoder_sys_t`: the embedded default region and the chain
of named regions that hangs from its `p_next`. -/
structure decoder_sys_t where
  regions : webvtt_region_t
  named : List webvtt_region_t
deriving DecidableEq

/-- Range of the C `unsigned` type. -/
def UINT_RANGE : Nat := 2 ^ 32

/-! ## Cue settings and cue objects -/

/-- Source `webvtt_cue_settings_Init`. -/
def webvtt_cue_settings_Init : webvtt_cue_settings_t :=
  { psz_region := none
    vertical := WEBVTT_ALIGN_AUTO
    b_snap_to_lines := true
    line := -1
    linealign := WEBVTT_ALIGN_START
    position := -1
    positionalign := WEBVTT_ALIGN_AUTO
    size := 1
    align := WEBVTT_ALIGN_CENTER }

/-- Source `webvtt_dom_cue_New`. -/
def webvtt_dom_cue_New (i_start i_end : Int) : webvtt_dom_cue_t :=
  { psz_id := none
    i_start := i_start
    i_stop := i_end
    settings := webvtt_cue_settings_Init
    nodes := []
    p_nodes := none
    i_lines := 0 }

/-! ## Cue DOM builder -/

/-- Source `webvtt_domnode_New`: the fresh, zeroed cell with its parent link. -/
def webvtt_domnode_New (p_parent : Option Nat) : webvtt_domnode_t :=
  { psz_tag := none, psz_attrs := none, psz_text := none,
    p_parent := p_parent, p_next := none, p_child := none }

/-- Loop of `webvtt_domnode_getParentByTag`. -/
def getParentByTag_loop (nodes : List webvtt_domnode_t) (psz_tag : Option (List Char)) :
    Nat → Option Nat → Run (Option Nat)
  | 0, _ => .error .fuel
  | _ + 1, none => .ok none
  | fuel + 1, some p =>
    match nodes[p]? with
    | none => .error .bad_pointer
    | some node =>
      if node.psz_tag.isSome && psz_tag.isSome && node.psz_tag = psz_tag then .ok (some p)
      else getParentByTag_loop nodes psz_tag fuel node.p_parent

/-- Source `webvtt_domnode_getParentByTag`. -/
def webvtt_domnode_getParentByTag (nodes : List webvtt_domnode_t) (p_parent : Option Nat)
    (psz_tag : Option (List Char)) : Run (Option Nat) :=
  getParentByTag_loop nodes psz_tag (nodes.length + 1) p_parent

/-- Source `IsEndTag`: `psz[1] == '/'`. -/
def IsEndTag : List Char → Run Bool
  | _ :: c :: _ => .ok (c == '/')
  | _ => .error .out_of_bounds

/-- Source `FindNextTag`: the pointers to the first and last characters of the
next tag, or null. -/
def FindNextTag (psz : List Char) : Run (Option (List Char × List Char)) :=
  match strchr psz '<' with
  | .error e => .error e
  | .ok none => .ok none
  | .ok (some psz_tag) =>
    match strchr psz_tag.tail '>' with
    | .error e => .error e
    | .ok none => .ok none
    | .ok (some psz_taglast) =>
      let tagsize := to_size_t (ptr_diff psz_taglast psz_tag + 1)
      if tagsize ≤ 3 then
        if tagsize < 2 then .ok none
        else
          match IsEndTag psz_tag with
          | .error e => .error e
          | .ok true => .ok none
          | .ok false => .ok (some (psz_tag, psz_taglast))
      else .ok (some (psz_tag, psz_taglast))

/-- Scanning loop of `SplitTag`. -/
def SplitTag_scan : List Char → Run (List Char)
  | [] => .error .out_of_bounds
  | c :: cs =>
    if !isblank c && !ispunct c && c != '>' && c != '/' then SplitTag_scan cs
    else .ok (c :: cs)

/-- Source `SplitTag`: the pointer to the tag name and the pointer to the first
character after the name. -/
def SplitTag (psz_tag : List Char) : Run (List Char × List Char) := do
  let b ← IsEndTag psz_tag
  let psz_name ← ptr_add psz_tag (if b then 2 else 1)
  let p ← ptr_add psz_name 1
  let psz_attrs ← SplitTag_scan p
  pure (psz_name, psz_attrs)

/-- Loop of `CountNewLines`; the counter `i` is returned as it was received. -/
def CountNewLines_loop : Nat → Option (List Char) → Nat → Run Nat
  | 0, _, _ => .error .fuel
  | _ + 1, none, i => .ok i
  | fuel + 1, some psz, i =>
    match deref psz with
    | .error e => .error e
    | .ok c =>
      if c = NUL then .ok i
      else
        match strchr psz.tail '\n' with
        | .error e => .error e
        | .ok next => CountNewLines_loop fuel next i

/-- Source `CountNewLines`, on the string held by a node. -/
def CountNewLines (psz : List Char) : Run Nat :=
  CountNewLines_loop ((c_str psz).length + 1) (some (c_str psz)) 0

/-- The location `pp_append` points to: `p_head`, or the `p_next` or `p_child`
field of a node. -/
inductive append_slot
  | head
  | next (node : Nat)
  | child (node : Nat)
deriving DecidableEq, Repr

/-- Local state of `CreateDomNodes`. -/
structure dom_builder where
  nodes : List webvtt_domnode_t
  p_head : Option Nat
  pp_append : append_slot
  p_parent : Option Nat
  i_lines : Nat
deriving DecidableEq, Repr

/-- Read of `*pp_append`. -/
def slot_read (nodes : List webvtt_domnode_t) (p_head : Option Nat) :
    append_slot → Run (Option Nat)
  | .head => .ok p_head
  | .next i =>
    match nodes[i]? with
    | some node => .ok node.p_next
    | none => .error .bad_pointer
  | .child i =>
    match nodes[i]? with
    | some node => .ok node.p_child
    | none => .error .bad_pointer

/-- The instructions `p_node = webvtt_domnode_New( p_parent ); ...;
*pp_append = p_node`: the cell `node` is added to the store and linked at the
append location. -/
def link_new (st : dom_builder) (node : webvtt_domnode_t) : Run dom_builder :=
  let p_node := st.nodes.length
  match st.pp_append with
  | .head => .ok { st with nodes := st.nodes ++ [node], p_head := some p_node }
  | .next i =>
    match st.nodes[i]? with
    | some owner =>
      .ok { st with nodes := st.nodes.set i { owner with p_next := some p_node } ++ [node] }
    | none => .error .bad_pointer
  | .child i =>
    match st.nodes[i]? with
    | some owner =>
      .ok { st with nodes := st.nodes.set i { owner with p_child := some p_node } ++ [node] }
    | none => .error .bad_pointer

/-- The loop `while( *pp_append ) pp_append = &((*pp_append)->p_next)`. -/
def append_end (nodes : List webvtt_domnode_t) (p_head : Option Nat) :
    Nat → append_slot → Run append_slot
  | 0, _ => .error .fuel
  | fuel + 1, pp =>
    match slot_read nodes p_head pp with
    | .error e => .error e
    | .ok none => .ok pp
    | .ok (some n) => append_end nodes p_head fuel (.next n)

/-- New value of `*pi_lines` after a text node holding `text` is made. -/
def lines_add (i_lines : Nat) (text : List Char) : Run Nat :=
  match CountNewLines text with
  | .error e => .error e
  | .ok n => .ok ((i_lines + ((if i_lines = 0 then 1 else 0) + n) % UINT_RANGE) % UINT_RANGE)

/-- Text-node branch taken before a tag: `psz_tag - psz_text > 0`. -/
def CreateDomNodes_text (st : dom_builder) (psz_text psz_tag : List Char) : Run dom_builder :=
  if ptr_diff psz_tag psz_text > 0 then do
    let text ← strndup psz_text (to_size_t (ptr_diff psz_tag psz_text))
    let i_lines ← lines_add st.i_lines text
    let p_node := st.nodes.length
    let st ← link_new st { webvtt_domnode_New st.p_parent with psz_text := some text }
    pure { st with i_lines := i_lines, pp_append := .next p_node }
  else pure st

/-- The attribute string of an open tag: the characters from `psz_attrs` to
`psz_taglast`, or null when the two pointers are equal. -/
def open_attrs (psz_attrs psz_taglast : List Char) : Run (Option (List Char)) :=
  if ptr_diff psz_attrs psz_taglast ≠ 0 then
    (strndup psz_attrs (to_size_t (ptr_diff psz_taglast psz_attrs))).map some
  else .ok none

/-- Open-tag branch. -/
def CreateDomNodes_open (st : dom_builder) (psz_tag psz_taglast : List Char) :
    Run dom_builder := do
  let (psz_name, psz_attrs) ← SplitTag psz_tag
  let tag ← strndup psz_name (to_size_t (ptr_diff psz_attrs psz_name))
  let attrs ← open_attrs psz_attrs psz_taglast
  let p_node := st.nodes.length
  let st ← link_new st
    { webvtt_domnode_New st.p_parent with psz_tag := some tag, psz_attrs := attrs }
  pure { st with p_parent := some p_node, pp_append := .child p_node }

/-- Read of the node a pointer designates. -/
def node_at (nodes : List webvtt_domnode_t) (p : Nat) : Run webvtt_domnode_t :=
  match nodes[p]? with
  | some node => .ok node
  | none => .error .bad_pointer

/-- The location from which the end-tag branch walks to the end of a sibling
list: `&p_parent->p_next` for the matched parent, else `&p_head->p_next`. -/
def close_start (found p_head : Option Nat) : Run append_slot :=
  match found with
  | some p => .ok (.next p)
  | none =>
    match p_head with
    | some h => .ok (.next h)
    | none => .error .bad_pointer

/-- End-tag branch with a current parent `p_parent`. -/
def CreateDomNodes_close (st : dom_builder) (p_parent : Nat) (psz_tag : List Char) :
    Run dom_builder := do
  let (psz_name, psz_attrs) ← SplitTag psz_tag
  let psz_tagname ← strndup psz_name (to_size_t (ptr_diff psz_attrs psz_name))
  let parent ← node_at st.nodes p_parent
  let found ← webvtt_domnode_getParentByTag st.nodes parent.p_parent (some psz_tagname)
  let start ← close_start found st.p_head
  let pp ← append_end st.nodes st.p_head (st.nodes.length + 1) start
  pure { st with p_parent := found, pp_append := pp }

/-- Main loop of `CreateDomNodes`. -/
def CreateDomNodes_loop : Nat → dom_builder → List Char → Run dom_builder
  | 0, _, _ => .error .fuel
  | fuel + 1, st, psz_text =>
    match deref psz_text with
    | .error e => .error e
    | .ok c =>
      if c = NUL then .ok st
      else
        match FindNextTag psz_text with
        | .error e => .error e
        | .ok (some (psz_tag, psz_taglast)) =>
          match CreateDomNodes_text st psz_text psz_tag with
          | .error e => .error e
          | .ok st =>
            match IsEndTag psz_tag with
            | .error e => .error e
            | .ok false =>
              match CreateDomNodes_open st psz_tag psz_taglast with
              | .error e => .error e
              | .ok st => CreateDomNodes_loop fuel st psz_taglast.tail
            | .ok true =>
              match st.p_parent with
              | some p_parent =>
                match CreateDomNodes_close st p_parent psz_tag with
                | .error e => .error e
                | .ok st => CreateDomNodes_loop fuel st psz_taglast.tail
              | none => .ok st
        | .ok none =>
          match strdup psz_text with
          | .error e => .error e
          | .ok text =>
            match lines_add st.i_lines text with
            | .error e => .error e
            | .ok i_lines =>
              match link_new st { webvtt_domnode_New st.p_parent with psz_text := some text } with
              | .error e => .error e
              | .ok st => .ok { st with i_lines := i_lines }

/-- Source `CreateDomNodes` on the payload string `psz_text`: the final local
state, whose `nodes`, `p_head` and `i_lines` are the node store, the returned
head and the line count written to `*pi_lines`. -/
def CreateDomNodes (psz_text : List Char) : Run dom_builder :=
  CreateDomNodes_loop ((c_str psz_text).length + 1)
    { nodes := [], p_head := none, pp_append := .head, p_parent := none, i_lines := 0 }
    (c_str psz_text)

/-! ## Cue reduction -/

/-- Loop of `webvtt_dom_cue_Reduced` over the top-level nodes of the cue. -/
def Reduced_loop : Nat → webvtt_dom_cue_t → Option Nat → Run (Option webvtt_dom_cue_t)
  | 0, _, _ => .error .fuel
  | _ + 1, _, none => .ok none
  | fuel + 1, p_cue, some p =>
    match p_cue.nodes[p]? with
    | none => .error .bad_pointer
    | some node =>
      match node.psz_text with
      | none => Reduced_loop fuel p_cue node.p_next
      | some text =>
        match strchr (c_str text) '\n' with
        | .error e => .error e
        | .ok (some nl) =>
          match strlen (c_str text) with
          | .error e => .error e
          | .ok i_len =>
            let i_remain := to_size_t ((i_len : Int) - ptr_diff nl (c_str text))
            match strndup nl.tail i_remain with
            | .error e => .error e
            | .ok psz_new =>
              .ok (some { p_cue with
                nodes := p_cue.nodes.set p { node with psz_text := some psz_new }
                i_lines := (p_cue.i_lines + UINT_RANGE - 1) % UINT_RANGE })
        | .ok none =>
          Reduced_loop fuel
            { p_cue with nodes := p_cue.nodes.set p { node with psz_text := none } }
            node.p_next

/-- Source `webvtt_dom_cue_Reduced`: the cue reduced by one line, or null when
the cue has been deleted. -/
def webvtt_dom_cue_Reduced (p_cue : webvtt_dom_cue_t) : Run (Option webvtt_dom_cue_t) :=
  if p_cue.i_lines ≤ 1 then .ok none
  else Reduced_loop (p_cue.nodes.length + 1) p_cue p_cue.p_nodes

/-! ## Region cue store -/

/-- Source `webvtt_region_Init`. -/
def webvtt_region_Init : webvtt_region_t :=
  { psz_id := none
    f_width := 1
    i_lines_max_scroll := 3
    anchor_x := 0
    anchor_y := 1
    viewport_anchor_x := 0
    viewport_anchor_y := 1
    b_scroll_up := false
    p_cues := List.replicate WEBVTT_REGION_LINES_COUNT .null }

/-- Loop of `webvtt_region_CountLines` over the slots, `i_lines` so far given. -/
def CountLines_loop : List cue_ptr → Nat → Run Nat
  | [], i_lines => .ok i_lines
  | .null :: rest, i_lines => CountLines_loop rest i_lines
  | .live c :: rest, i_lines => CountLines_loop rest ((i_lines + c.i_lines) % UINT_RANGE)
  | .invalid :: _, _ => .error .bad_pointer

/-- Source `webvtt_region_CountLines`. -/
def webvtt_region_CountLines (p_region : webvtt_region_t) : Run Nat :=
  CountLines_loop p_region.p_cues 0

/-- Loop of `webvtt_region_ClearCues` over the slots. -/
def ClearCues_loop : List cue_ptr → Run (List cue_ptr)
  | [] => .ok []
  | .invalid :: _ => .error .bad_pointer
  | _ :: rest =>
    match ClearCues_loop rest with
    | .ok r => .ok (.null :: r)
    | .error e => .error e

/-- Source `webvtt_region_ClearCues`. -/
def webvtt_region_ClearCues (p_region : webvtt_region_t) : Run webvtt_region_t :=
  match ClearCues_loop p_region.p_cues with
  | .ok p_cues => .ok { p_region with p_cues := p_cues }
  | .error e => .error e

/-- The inner loop and the store that follows it in
`webvtt_region_ClearCuesByTime`: `p_cues[j] = p_cues[j] + 1` for `i ≤ j < 17`,
then `p_cues[17] = NULL`.  A slot pointer moved by one cue is not a pointer to
a live cue any more, whatever it was. -/
def ClearCuesByTime_shift (p_cues : List cue_ptr) (i : Nat) : List cue_ptr :=
  ((List.range p_cues.length).map fun j =>
    if i ≤ j ∧ j < WEBVTT_REGION_LINES_COUNT - 1 then cue_ptr.invalid
    else p_cues.getD j .null).set (WEBVTT_REGION_LINES_COUNT - 1) .null

/-- Outer loop of `webvtt_region_ClearCuesByTime`, with `n` iterations left
from index `i`. -/
def ClearCuesByTime_loop (i_time : Int) : Nat → Nat → List cue_ptr → Run (List cue_ptr)
  | 0, _, p_cues => .ok p_cues
  | n + 1, i, p_cues =>
    match p_cues[i]? with
    | none => .error .bad_pointer
    | some .null => ClearCuesByTime_loop i_time n (i + 1) p_cues
    | some .invalid => .error .bad_pointer
    | some (.live c) =>
      if c.i_stop ≤ i_time then
        ClearCuesByTime_loop i_time n (i + 1) (ClearCuesByTime_shift p_cues i)
      else ClearCuesByTime_loop i_time n (i + 1) p_cues

/-- Source `webvtt_region_ClearCuesByTime`. -/
def webvtt_region_ClearCuesByTime (p_region : webvtt_region_t) (i_time : Int) :
    Run webvtt_region_t :=
  match ClearCuesByTime_loop i_time WEBVTT_REGION_LINES_COUNT 0 p_region.p_cues with
  | .ok p_cues => .ok { p_region with p_cues := p_cues }
  | .error e => .error e

/-- The `else` branch of `webvtt_region_Reduce`: the first non-null slot
receives `webvtt_dom_cue_Reduced` of its cue. -/
def Reduce_first : List cue_ptr → Run (List cue_ptr)
  | [] => .ok []
  | .null :: rest =>
    match Reduce_first rest with
    | .ok r => .ok (.null :: r)
    | .error e => .error e
  | .invalid :: _ => .error .bad_pointer
  | .live c :: rest =>
    match webvtt_dom_cue_Reduced c with
    | .ok none => .ok (.null :: rest)
    | .ok (some c) => .ok (.live c :: rest)
    | .error e => .error e

/-- Source `webvtt_region_Reduce`.  In the first branch the cue of slot 0 is
deleted and the slot keeps its pointer. -/
def webvtt_region_Reduce (p_region : webvtt_region_t) : Run webvtt_region_t :=
  match p_region.p_cues with
  | [] => .error .bad_pointer
  | .live _ :: rest => .ok { p_region with p_cues := .invalid :: rest }
  | .invalid :: _ => .error .bad_pointer
  | .null :: rest =>
    match Reduce_first (.null :: rest) with
    | .ok p_cues => .ok { p_region with p_cues := p_cues }
    | .error e => .error e

/-- Source `webvtt_region_ScrollUp`. -/
def webvtt_region_ScrollUp (p_region : webvtt_region_t) : Run webvtt_region_t :=
  match p_region.p_cues with
  | [] => .error .bad_pointer
  | .invalid :: _ => .error .bad_pointer
  | _ :: rest =>
    .ok { p_region with
      p_cues := rest.take (WEBVTT_REGION_LINES_COUNT - 1) ++ [.null] }

/-- First loop of `webvtt_region_AddCue`: the cue is reduced while it has more
lines than the region scrolls; null when the cue has been deleted. -/
def AddCue_fit_cue (p_region : webvtt_region_t) :
    Nat → webvtt_dom_cue_t → Run (Option webvtt_dom_cue_t)
  | 0, _ => .error .fuel
  | fuel + 1, p_cue =>
    if p_cue.i_lines > p_region.i_lines_max_scroll then
      match webvtt_dom_cue_Reduced p_cue with
      | .error e => .error e
      | .ok none => .ok none
      | .ok (some p_cue) => AddCue_fit_cue p_region fuel p_cue
    else .ok (some p_cue)

/-- Second loop of `webvtt_region_AddCue`: the region is reduced while its
lines and those of the cue exceed what the region scrolls. -/
def AddCue_fit_region (p_cue : webvtt_dom_cue_t) :
    Nat → webvtt_region_t → Run webvtt_region_t
  | 0, _ => .error .fuel
  | fuel + 1, p_region =>
    match webvtt_region_CountLines p_region with
    | .error e => .error e
    | .ok n =>
      if (n + p_cue.i_lines) % UINT_RANGE > p_region.i_lines_max_scroll then
        match webvtt_region_Reduce p_region with
        | .error e => .error e
        | .ok p_region => AddCue_fit_region p_cue fuel p_region
      else .ok p_region

/-- Number of lines and of cues held by the slots; it bounds the number of
rounds of the second loop of `webvtt_region_AddCue`. -/
def slots_weight : List cue_ptr → Nat
  | [] => 0
  | .live c :: rest => c.i_lines + 1 + slots_weight rest
  | _ :: rest => slots_weight rest

/-- The store `p_region->p_cues[WEBVTT_REGION_LINES_COUNT - 1] = p_cue`. -/
def store_last (p_region : webvtt_region_t) (p_cue : webvtt_dom_cue_t) : webvtt_region_t :=
  { p_region with
    p_cues := p_region.p_cues.set (WEBVTT_REGION_LINES_COUNT - 1) (.live p_cue) }

/-- Source `webvtt_region_AddCue`. -/
def webvtt_region_AddCue (p_region : webvtt_region_t) (p_cue : webvtt_dom_cue_t) :
    Run webvtt_region_t :=
  if p_region.b_scroll_up = false then
    match webvtt_region_ClearCues p_region with
    | .error e => .error e
    | .ok p_region => .ok (store_last p_region p_cue)
  else
    match AddCue_fit_cue p_region (p_cue.i_lines + 1) p_cue with
    | .error e => .error e
    | .ok none => .ok p_region
    | .ok (some p_cue) =>
      match AddCue_fit_region p_cue (slots_weight p_region.p_cues + 2) p_region with
      | .error e => .error e
      | .ok p_region =>
        match webvtt_region_ScrollUp p_region with
        | .error e => .error e
        | .ok p_region => .ok (store_last p_region p_cue)

/-! ## Collaborators that are not part of this file -/

/-- One box yielded by the ISOBMFF box iterator: its type and its payload. -/
structure mp4_box where
  i_type : List Char
  p_payload : List Char
deriving DecidableEq

/-- Functions the decoder calls and whose code lives elsewhere.
`us_strtof` gives the value read and the number of characters consumed;
`vlc_xml_decode` is the entity decoding of a segment text; `mp4_box_iterator`
gives the boxes that `mp4_box_iterator_Next` yields in turn on a buffer;
`atoi` is the C library function, whose result on a number that does not fit
an `int` the language leaves open.  The value of `us_strtof` is a `float`; an
infinity or a NaN, which the guards of the percentage readers reject as they
reject a number outside `[0, 100]`, is represented by such a number. -/
structure Externals where
  us_strtof : List Char → vtt_float × Nat
  vlc_xml_decode : List Char → List Char
  mp4_box_iterator : List Char → List mp4_box
  atoi : List Char → Int

/-- Box type `ATOM_iden`. -/
def ATOM_iden : List Char := ['i', 'd', 'e', 'n']
/-- Box type `ATOM_payl`. -/
def ATOM_payl : List Char := ['p', 'a', 'y', 'l']
/-- Box type `ATOM_sttg`. -/
def ATOM_sttg : List Char := ['s', 't', 't', 'g']
/-- Box type `ATOM_vttc`. -/
def ATOM_vttc : List Char := ['v', 't', 't', 'c']
/-- Box type `ATOM_vtte`. -/
def ATOM_vtte : List Char := ['v', 't', 't', 'e']
/-- Box type `ATOM_vttx`. -/
def ATOM_vttx : List Char := ['v', 't', 't', 'x']

/-- Style flag `STYLE_BOLD` of `vlc_text_style.h`. -/
def STYLE_BOLD : Nat := 1
/-- Style flag `STYLE_ITALIC` of `vlc_text_style.h`. -/
def STYLE_ITALIC : Nat := 2
/-- Style flag `STYLE_UNDERLINE` of `vlc_text_style.h`. -/
def STYLE_UNDERLINE : Nat := 32
/-- Feature flag `STYLE_HAS_FONT_COLOR` of `vlc_text_style.h`. -/
def STYLE_HAS_FONT_COLOR : Nat := 1
/-- Feature flag `STYLE_HAS_FLAGS` of `vlc_text_style.h`. -/
def STYLE_HAS_FLAGS : Nat := 4

/-- Alignment flag `SUBPICTURE_ALIGN_LEFT` of `vlc_subpicture.h`. -/
def SUBPICTURE_ALIGN_LEFT : Nat := 1
/-- Alignment flag `SUBPICTURE_ALIGN_TOP` of `vlc_subpicture.h`. -/
def SUBPICTURE_ALIGN_TOP : Nat := 4
/-- Alignment flag `SUBPICTURE_ALIGN_BOTTOM` of `vlc_subpicture.h`. -/
def SUBPICTURE_ALIGN_BOTTOM : Nat := 8

/-- The three flags `UPDT_REGION_ORIGIN_X_IS_RATIO`,
`UPDT_REGION_ORIGIN_Y_IS_RATIO` and `UPDT_REGION_EXTENT_X_IS_RATIO` of
`substext.h`, or-ed together. -/
def UPDT_REGION_RATIO_FLAGS : Nat := 1 ||| 2 ||| 4

/-- The fields of `text_style_t` that the decoder writes. -/
structure text_style_t where
  i_style_flags : Nat
  i_features : Nat
  i_font_color : Nat
deriving DecidableEq, Repr

/-- Result of `text_style_Create( STYLE_NO_DEFAULTS )`: a zeroed style. -/
def text_style_Create_NO_DEFAULTS : text_style_t :=
  { i_style_flags := 0, i_features := 0, i_font_color := 0 }

/-- One `text_segment_t`: its text and its style, null when `none`. -/
structure text_segment_t where
  psz_text : List Char
  style : Option text_style_t
deriving DecidableEq, Repr

/-- The fields of `subpicture_updater_sys_region_t` that the decoder writes;
`origin` and `extent_x` are `none` when they are left as allocated. -/
structure subpicture_updater_sys_region_t where
  align : Nat
  origin : Option (vtt_float × vtt_float)
  extent_x : Option vtt_float
  flags : Nat
  p_segments : List text_segment_t
deriving DecidableEq

/-- The subpicture handed to `decoder_QueueSub`, with the chain of its updater
regions in order. -/
structure subpicture_t where
  i_start : Int
  i_stop : Int
  b_ephemer : Bool
  b_absolute : Bool
  f_font_relsize : vtt_float
  regions : List subpicture_updater_sys_region_t
deriving DecidableEq

/-- Least value of `mtime_t`, an `int64_t`. -/
def INT64_MIN : Int := -2 ^ 63
/-- Greatest value of `mtime_t`, an `int64_t`. -/
def INT64_MAX : Int := 2 ^ 63 - 1

/-- The sum `a + b` of two `mtime_t`: a signed addition, undefined when the
result leaves the range of the type. -/
def mtime_add (a b : Int) : Run Int :=
  if INT64_MIN ≤ a + b ∧ a + b ≤ INT64_MAX then .ok (a + b) else .error .overflow

/-- Input block, `block_t`. -/
structure block_t where
  p_buffer : List Char
  i_dts : Int
  i_pts : Int
  i_length : Int
deriving DecidableEq

/-! ## Cue settings parser -/

/-- Source `parse_percent`: the success flag and the new content of `*value`.
In `d / 100.0` the float `d` is divided as a `double`, and the store in
`*value` converts the quotient to `float`. -/
def parse_percent (X : Externals) (psz : List Char) (value : vtt_float) : Bool × vtt_float :=
  let (d, n) := X.us_strtof psz
  (decide (n ≠ 0),
   if d ≥ 0 ∧ d ≤ 100 ∧ (c_str psz)[n]? = some '%' then to_float (to_double (d / 100))
   else value)

/-- The part of the string after its first `c`, as `strchr( psz, c )` followed
by `++`; `none` when there is no `c`. -/
def after_char (c : Char) : List Char → Option (List Char)
  | [] => none
  | x :: xs => if x = c then some xs else after_char c xs

/-- Source `parse_percent_tuple`: the value returned and the new contents of
`*x` and `*y`.  The quotients `a / 100.0` and `b / 100.0` are computed as
`double` and converted to `float` by the stores. -/
def parse_percent_tuple (X : Externals) (psz : List Char) (x y : vtt_float) :
    Bool × vtt_float × vtt_float :=
  let (a, n) := X.us_strtof psz
  if n ≠ 0 ∧ a ≥ 0 ∧ a ≤ 100 ∧ (c_str psz)[n]? = some '%' then
    match after_char ',' (psz.drop n) with
    | some psz =>
      let (b, m) := X.us_strtof psz
      if m ≠ 0 ∧ b ≥ 0 ∧ b ≤ 100 ∧ (c_str psz)[m]? = some '%' then
        (true, to_float (to_double (a / 100)), to_float (to_double (b / 100)))
      else (false, x, y)
    | none => (false, x, y)
  else (false, x, y)

/-- Source `webvtt_cue_settings_ParseTuple`. -/
def webvtt_cue_settings_ParseTuple (X : Externals) (p_settings : webvtt_cue_settings_t)
    (psz_key psz_value : List Char) : webvtt_cue_settings_t :=
  if psz_key = "vertical".toList then
    if psz_value = "rl".toList then { p_settings with vertical := WEBVTT_ALIGN_RIGHT }
    else if psz_value = "lr".toList then { p_settings with vertical := WEBVTT_ALIGN_LEFT }
    else { p_settings with vertical := WEBVTT_ALIGN_AUTO }
  else if psz_key = "line".toList then
    let p_settings :=
      if '%' ∈ psz_value then
        { p_settings with line := (parse_percent X psz_value p_settings.line).2 }
      else p_settings
    match after_char ',' psz_value with
    | some psz_align =>
      if psz_align = "center".toList then { p_settings with linealign := WEBVTT_ALIGN_CENTER }
      else if psz_align = "end".toList then { p_settings with linealign := WEBVTT_ALIGN_END }
      else { p_settings with linealign := WEBVTT_ALIGN_START }
    | none => p_settings
  else if psz_key = "position".toList then
    let p_settings :=
      { p_settings with position := (parse_percent X psz_value p_settings.position).2 }
    match after_char ',' psz_value with
    | some psz_align =>
      if psz_align = "line-left".toList then
        { p_settings with linealign := WEBVTT_ALIGN_LEFT }
      else if psz_align = "line-right".toList then
        { p_settings with linealign := WEBVTT_ALIGN_RIGHT }
      else if psz_align = "center".toList then
        { p_settings with linealign := WEBVTT_ALIGN_CENTER }
      else { p_settings with linealign := WEBVTT_ALIGN_AUTO }
    | none => p_settings
  else if psz_key = "size".toList then
    { p_settings with size := (parse_percent X psz_value p_settings.size).2 }
  else if psz_key = "region".toList then
    { p_settings with psz_region := some psz_value }
  else if psz_key = "align".toList then
    if psz_value = "start".toList then { p_settings with align := WEBVTT_ALIGN_START }
    else if psz_value = "end".toList then { p_settings with align := WEBVTT_ALIGN_END }
    else if psz_value = "left".toList then { p_settings with align := WEBVTT_ALIGN_LEFT }
    else if psz_value = "right".toList then { p_settings with align := WEBVTT_ALIGN_RIGHT }
    else { p_settings with align := WEBVTT_ALIGN_CENTER }
  else p_settings

/-- The tokens `strtok_r( ..., " ", ... )` returns in turn; `cur` holds, in
reverse, the characters of the token being read. -/
def strtok_all (cur : List Char) : List Char → List (List Char)
  | [] => if cur = [] then [] else [cur.reverse]
  | c :: cs =>
    if c = ' ' then
      if cur = [] then strtok_all [] cs else cur.reverse :: strtok_all [] cs
    else strtok_all (c :: cur) cs

/-- The split of a token at its first `':'`: the key and the value when the
colon exists and is neither the first nor the last character. -/
def split_tuple (psz_tuple : List Char) : Option (List Char × List Char) :=
  match after_char ':' psz_tuple with
  | none => none
  | some psz_value =>
    let psz_key := psz_tuple.take (psz_tuple.length - psz_value.length - 1)
    if psz_value ≠ [] ∧ psz_key ≠ [] then some (psz_key, psz_value) else none

/-- Source `webvtt_cue_settings_Parse`. -/
def webvtt_cue_settings_Parse (X : Externals) (p_settings : webvtt_cue_settings_t)
    (p_str : List Char) : webvtt_cue_settings_t :=
  (strtok_all [] p_str).foldl
    (fun p_settings psz_tuple =>
      match split_tuple psz_tuple with
      | some (psz_key, psz_value) =>
        webvtt_cue_settings_ParseTuple X p_settings psz_key psz_value
      | none => p_settings)
    p_settings

/-! ## Region parser -/

/-- Source `webvtt_region_ParseTuple`. -/
def webvtt_region_ParseTuple (X : Externals) (p_region : webvtt_region_t)
    (psz_key psz_value : List Char) : webvtt_region_t :=
  if psz_key = "id".toList then { p_region with psz_id := some psz_value }
  else if psz_key = "width".toList then
    { p_region with f_width := (parse_percent X psz_value p_region.f_width).2 }
  else if psz_key = "regionanchor".toList then
    let r := parse_percent_tuple X psz_value p_region.anchor_x p_region.anchor_y
    { p_region with anchor_x := r.2.1, anchor_y := r.2.2 }
  else if psz_key = "viewportanchor".toList then
    let r := parse_percent_tuple X psz_value p_region.viewport_anchor_x
      p_region.viewport_anchor_y
    { p_region with viewport_anchor_x := r.2.1, viewport_anchor_y := r.2.2 }
  else if psz_key = "lines".toList then
    let i := X.atoi psz_value
    if i > 0 then
      { p_region with i_lines_max_scroll := (min i (WEBVTT_REGION_LINES_COUNT : Int)).toNat }
    else p_region
  else if psz_key = "scroll".toList then
    { p_region with b_scroll_up := decide (psz_value = "up".toList) }
  else p_region

/-- Source `webvtt_region_Parse`. -/
def webvtt_region_Parse (X : Externals) (p_region : webvtt_region_t)
    (psz_line : List Char) : webvtt_region_t :=
  (strtok_all [] psz_line).foldl
    (fun p_region psz_tuple =>
      match split_tuple psz_tuple with
      | some (psz_key, psz_value) => webvtt_region_ParseTuple X p_region psz_key psz_value
      | none => p_region)
    p_region

/-! ## Segment converter -/

/-- The operand `*p` of `(a << 3) ^ *p`, where `p` is a `char *` and `a` an
`unsigned`: the `char` is promoted to `int`, then converted to `unsigned`.  A
byte below 0x80 keeps its value; a byte from 0x80 on is a negative `char`, and
the conversion gives the byte with the 24 bits above it set. -/
def char_to_unsigned (c : Char) : Nat :=
  let b := c.toNat % 256
  if b < 128 then b else b + (UINT_RANGE - 256)

/-- Fold of `InheritStyles` over the attribute string: `a = (a << 3) ^ *p`. -/
def attrs_hash (psz_attrs : List Char) : Nat :=
  psz_attrs.foldl (fun a c => ((a <<< 3) % UINT_RANGE) ^^^ char_to_unsigned c) 0

/-- Effect of one node of the parent chain in `InheritStyles`. -/
def InheritStyles_node (node : webvtt_domnode_t) (p_style : Option text_style_t) :
    Option text_style_t :=
  match node.psz_tag with
  | none => p_style
  | some psz_tag =>
    let style := p_style.getD text_style_Create_NO_DEFAULTS
    if psz_tag = ['b'] then
      some { style with
        i_style_flags := style.i_style_flags ||| STYLE_BOLD
        i_features := style.i_features ||| STYLE_HAS_FLAGS }
    else if psz_tag = ['i'] then
      some { style with
        i_style_flags := style.i_style_flags ||| STYLE_ITALIC
        i_features := style.i_features ||| STYLE_HAS_FLAGS }
    else if psz_tag = ['u'] then
      some { style with
        i_style_flags := style.i_style_flags ||| STYLE_UNDERLINE
        i_features := style.i_features ||| STYLE_HAS_FLAGS }
    else if psz_tag = ['v'] then
      match node.psz_attrs with
      | some psz_attrs =>
        some { style with
          i_font_color := (0x7F7F7F ||| attrs_hash psz_attrs) &&& 0xFFFFFF
          i_features := style.i_features ||| STYLE_HAS_FONT_COLOR }
      | none => p_style
    else p_style

/-- Loop of `InheritStyles` along the `p_parent` links. -/
def InheritStyles_loop (nodes : List webvtt_domnode_t) :
    Nat → Option Nat → Option text_style_t → Run (Option text_style_t)
  | 0, _, _ => .error .fuel
  | _ + 1, none, p_style => .ok p_style
  | fuel + 1, some p, p_style =>
    match nodes[p]? with
    | none => .error .bad_pointer
    | some node => InheritStyles_loop nodes fuel node.p_parent (InheritStyles_node node p_style)

/-- Source `InheritStyles`. -/
def InheritStyles (nodes : List webvtt_domnode_t) (p_node : Option Nat) :
    Run (Option text_style_t) :=
  InheritStyles_loop nodes (nodes.length + 1) p_node none

/-- The segment `ConvertNodesToSegments` makes for the node `p` itself: one
when the node has a text, with the decoded text and the inherited style. -/
def ConvertNodesToSegments_own (X : Externals) (nodes : List webvtt_domnode_t) (p : Nat)
    (node : webvtt_domnode_t) : Run (List text_segment_t) :=
  match node.psz_text with
  | some psz_text =>
    match InheritStyles nodes (some p) with
    | .error e => .error e
    | .ok style => .ok [text_segment_t.mk (X.vlc_xml_decode psz_text) style]
  | none => .ok []

/-- Source `ConvertNodesToSegments`, with a bound on the number of nested
calls and loop rounds. -/
def ConvertNodesToSegments_loop (X : Externals) (nodes : List webvtt_domnode_t) :
    Nat → Option Nat → Run (List text_segment_t)
  | 0, _ => .error .fuel
  | _ + 1, none => .ok []
  | fuel + 1, some p =>
    match nodes[p]? with
    | none => .error .bad_pointer
    | some node =>
      match ConvertNodesToSegments_own X nodes p node with
      | .error e => .error e
      | .ok own =>
        match ConvertNodesToSegments_loop X nodes fuel node.p_child with
        | .error e => .error e
        | .ok children =>
          match ConvertNodesToSegments_loop X nodes fuel node.p_next with
          | .error e => .error e
          | .ok rest => .ok (own ++ children ++ rest)

/-- Source `ConvertCueToSegments`. -/
def ConvertCueToSegments (X : Externals) (p_cue : webvtt_dom_cue_t) :
    Run (List text_segment_t) :=
  ConvertNodesToSegments_loop X p_cue.nodes (p_cue.nodes.length + 1) p_cue.p_nodes

/-! ## Rendering -/

/-- Loop of `RenderRegions` over the slots of one region; `p_segments` is the
chain built so far. -/
def RenderRegions_cues (X : Externals) (i_start : Int) :
    List cue_ptr → List text_segment_t → Run (List text_segment_t)
  | [], p_segments => .ok p_segments
  | .null :: rest, p_segments => RenderRegions_cues X i_start rest p_segments
  | .invalid :: _, _ => .error .bad_pointer
  | .live c :: rest, p_segments =>
    if c.i_start > i_start ∨ c.i_stop ≤ i_start then
      RenderRegions_cues X i_start rest p_segments
    else
      match ConvertCueToSegments X c with
      | .error e => .error e
      | .ok p_new =>
        if p_new ≠ [] then
          RenderRegions_cues X i_start rest
            ((if p_segments ≠ [] then p_segments ++ [text_segment_t.mk ['\n'] none]
              else p_segments) ++ p_new)
        else RenderRegions_cues X i_start rest p_segments

/-- The updater region `RenderRegions` fills for a region that has segments.
The offsets are `float` variables: the products and differences of floats are
rounded to `float`, and in `anchor_y * i_lines_max_scroll *
WEBVTT_DEFAULT_LINE_HEIGHT_VH / 100.0` the product by the constant and the
division are `double` operations, whose result the store rounds to `float`. -/
def RenderRegions_updater (is_default : Bool) (p_vttregion : webvtt_region_t)
    (p_segments : List text_segment_t) : subpicture_updater_sys_region_t :=
  let i_left_offset := to_float (p_vttregion.anchor_x * p_vttregion.f_width)
  let i_left := to_float (p_vttregion.viewport_anchor_x - i_left_offset)
  let i_top_offset :=
    to_float (to_double (to_double
      (to_float (p_vttregion.anchor_y * to_float (p_vttregion.i_lines_max_scroll : Rat))
        * to_double 5.33) / 100))
  let i_top := to_float (p_vttregion.viewport_anchor_y - i_top_offset)
  if is_default then
    { align := SUBPICTURE_ALIGN_BOTTOM, origin := none, extent_x := none,
      flags := UPDT_REGION_RATIO_FLAGS, p_segments := p_segments }
  else
    { align := SUBPICTURE_ALIGN_TOP ||| SUBPICTURE_ALIGN_LEFT,
      origin := some (i_left, i_top), extent_x := some p_vttregion.f_width,
      flags := UPDT_REGION_RATIO_FLAGS, p_segments := p_segments }

/-- Loop of `RenderRegions` over the regions, each with the flag telling
whether it is the default region; `acc` holds the updater regions made so far. -/
def RenderRegions_loop (X : Externals) (i_start : Int) :
    List (Bool × webvtt_region_t) → List subpicture_updater_sys_region_t →
    Run (List subpicture_updater_sys_region_t)
  | [], acc => .ok acc
  | (is_default, p_vttregion) :: rest, acc =>
    match RenderRegions_cues X i_start p_vttregion.p_cues [] with
    | .error e => .error e
    | .ok p_segments =>
      if p_segments = [] then RenderRegions_loop X i_start rest acc
      else
        RenderRegions_loop X i_start rest
          (acc ++ [RenderRegions_updater is_default p_vttregion p_segments])

/-- Source `RenderRegions`: the subpicture queued, if any.  The quotient
`WEBVTT_DEFAULT_LINE_HEIGHT_VH / WEBVTT_LINE_TO_HEIGHT_RATIO` of two `double`
constants is stored in the `float` field `f_font_relsize`. -/
def RenderRegions (X : Externals) (p_sys : decoder_sys_t) (i_start i_stop : Int) :
    Run (Option subpicture_t) :=
  match RenderRegions_loop X i_start
      ((true, p_sys.regions) :: p_sys.named.map fun r => (false, r)) [] with
  | .error e => .error e
  | .ok [] => .ok none
  | .ok (r :: rs) =>
    .ok (some
      { i_start := i_start, i_stop := i_stop, b_ephemer := true, b_absolute := false,
        f_font_relsize := to_float (to_double (to_double 5.33 / to_double 1.06))
        regions := r :: rs })

/-! ## Decoding -/

/-- A region of the decoder: the default one or the named one of given rank. -/
inductive region_ref
  | default
  | named (i : Nat)
deriving DecidableEq, Repr

/-- Loop of `webvtt_region_GetByID` over the named regions, from rank `i`. -/
def GetByID_loop (psz_id : List Char) : List webvtt_region_t → Nat → Run (Option region_ref)
  | [], _ => .ok none
  | r :: rest, i =>
    match r.psz_id with
    | none => .error .bad_pointer
    | some id => if psz_id = id then .ok (some (.named i)) else GetByID_loop psz_id rest (i + 1)

/-- Source `webvtt_region_GetByID`. -/
def webvtt_region_GetByID (p_sys : decoder_sys_t) (psz_id : Option (List Char)) :
    Run (Option region_ref) :=
  match psz_id with
  | none => .ok (some .default)
  | some psz_id => GetByID_loop psz_id p_sys.named 0

/-- Loop of `ExpireCues` over the named regions. -/
def ExpireCues_loop (i_time : Int) : List webvtt_region_t → Run (List webvtt_region_t)
  | [] => .ok []
  | r :: rest =>
    match webvtt_region_ClearCuesByTime r i_time with
    | .error e => .error e
    | .ok r =>
      match ExpireCues_loop i_time rest with
      | .error e => .error e
      | .ok rest => .ok (r :: rest)

/-- Source `ExpireCues`. -/
def ExpireCues (p_sys : decoder_sys_t) (i_time : Int) : Run decoder_sys_t :=
  match webvtt_region_ClearCuesByTime p_sys.regions i_time with
  | .error e => .error e
  | .ok regions =>
    match ExpireCues_loop i_time p_sys.named with
    | .error e => .error e
    | .ok named => .ok { regions := regions, named := named }

/-- Source `ProcessCue`. -/
def ProcessCue (psz : List Char) (p_cue : webvtt_dom_cue_t) : Run webvtt_dom_cue_t :=
  if p_cue.p_nodes.isSome then .ok p_cue
  else
    match CreateDomNodes psz with
    | .error e => .error e
    | .ok b => .ok { p_cue with nodes := b.nodes, p_nodes := b.p_head, i_lines := b.i_lines }

/-- Body of the inner loop of `ProcessISOBMFF` for one box of a cue box: the
`switch` on the box type. -/
def ProcessISOBMFF_inner (X : Externals) (p_cue : webvtt_dom_cue_t) (vtcc : mp4_box) :
    Run webvtt_dom_cue_t :=
  if vtcc.i_type = ATOM_iden then
    match strndup vtcc.p_payload vtcc.p_payload.length with
    | .error e => .error e
    | .ok psz => .ok { p_cue with psz_id := some psz }
  else if vtcc.i_type = ATOM_sttg then
    match strndup vtcc.p_payload vtcc.p_payload.length with
    | .error e => .error e
    | .ok psz => .ok { p_cue with settings := webvtt_cue_settings_Parse X p_cue.settings psz }
  else if vtcc.i_type = ATOM_payl then
    match strndup vtcc.p_payload vtcc.p_payload.length with
    | .error e => .error e
    | .ok psz => ProcessCue psz p_cue
  else .ok p_cue

/-- The calls `webvtt_region_GetByID` and `webvtt_region_AddCue` that end the
treatment of one cue box. -/
def ProcessISOBMFF_add (p_sys : decoder_sys_t) (p_cue : webvtt_dom_cue_t) :
    Run decoder_sys_t :=
  match webvtt_region_GetByID p_sys p_cue.settings.psz_region with
  | .error e => .error e
  | .ok found =>
    match found.getD .default with
    | .default =>
      match webvtt_region_AddCue p_sys.regions p_cue with
      | .error e => .error e
      | .ok r => .ok { p_sys with regions := r }
    | .named i =>
      match p_sys.named[i]? with
      | none => .error .bad_pointer
      | some p_region =>
        match webvtt_region_AddCue p_region p_cue with
        | .error e => .error e
        | .ok r => .ok { p_sys with named := p_sys.named.set i r }

/-- Body of the outer loop of `ProcessISOBMFF` for one box. -/
def ProcessISOBMFF_box (X : Externals) (i_start i_stop : Int) (p_sys : decoder_sys_t)
    (it : mp4_box) : Run decoder_sys_t :=
  if it.i_type = ATOM_vttc ∨ it.i_type = ATOM_vttx then
    match (X.mp4_box_iterator it.p_payload).foldlM (ProcessISOBMFF_inner X)
        (webvtt_dom_cue_New i_start i_stop) with
    | .error e => .error e
    | .ok p_cue => ProcessISOBMFF_add p_sys p_cue
  else .ok p_sys

/-- Source `ProcessISOBMFF`. -/
def ProcessISOBMFF (X : Externals) (p_sys : decoder_sys_t) (p_buffer : List Char)
    (i_start i_stop : Int) : Run decoder_sys_t :=
  (X.mp4_box_iterator p_buffer).foldlM (ProcessISOBMFF_box X i_start i_stop) p_sys

/-- Source `DecodeBlock`: the decoder state after the call and the subpicture
it queued, if any.  The argument `p_block->i_pts + p_block->i_length` is
computed before each of the two calls that receive it. -/
def DecodeBlock (X : Externals) (p_sys : decoder_sys_t) (p_block : Option block_t) :
    Run (decoder_sys_t × Option subpicture_t) :=
  match p_block with
  | none => .ok (p_sys, none)
  | some p_block =>
    match ExpireCues p_sys p_block.i_dts with
    | .error e => .error e
    | .ok p_sys =>
      match mtime_add p_block.i_pts p_block.i_length with
      | .error e => .error e
      | .ok i_stop =>
        match ProcessISOBMFF X p_sys p_block.p_buffer p_block.i_pts i_stop with
        | .error e => .error e
        | .ok p_sys =>
          match mtime_add p_block.i_pts p_block.i_length with
          | .error e => .error e
          | .ok i_stop =>
            match RenderRegions X p_sys p_block.i_pts i_stop with
            | .error e => .error e
            | .ok spu => .ok (p_sys, spu)

/-! ## Header loader -/

/-- Section tag of a header line, `enum webvtt_header_line_e` of `webvtt.h`.
The handler only tells `WEBVTT_HEADER_REGION` from the rest, and does not look
at the tag of the call that commits with a null line. -/
inductive webvtt_header_line_e
  | WEBVTT_HEADER_STYLE
  | WEBVTT_HEADER_REGION
deriving DecidableEq, Repr

open webvtt_header_line_e

/-- Context of the header callbacks, `struct parser_ctx`: the region being
declared and the decoder state reached through `p_dec`. -/
structure parser_ctx where
  p_region : Option webvtt_region_t
  p_sys : decoder_sys_t
deriving DecidableEq

/-- The commit block of `ParserHeaderHandler`: `if( ctx->p_region ) ...`.  The
store `*p_sys->pp_region_append = ctx->p_region` adds the region at the end of
the chain of named regions. -/
def ParserHeaderHandler_commit (ctx : parser_ctx) : parser_ctx :=
  match ctx.p_region with
  | some p_region =>
    if p_region.psz_id.isSome then
      { p_region := none
        p_sys := { ctx.p_sys with named := ctx.p_sys.named ++ [p_region] } }
    else { ctx with p_region := none }
  | none => ctx

/-- The last statement of `ParserHeaderHandler`:
`if( s == WEBVTT_HEADER_REGION && ctx->p_region ) webvtt_region_Parse( ... )`. -/
def ParserHeaderHandler_feed (X : Externals) (ctx : parser_ctx) (s : webvtt_header_line_e)
    (psz_line : List Char) : parser_ctx :=
  match ctx.p_region with
  | some p_region =>
    if s = WEBVTT_HEADER_REGION then
      { ctx with p_region := some (webvtt_region_Parse X p_region psz_line) }
    else ctx
  | none => ctx

/-- Source `ParserHeaderHandler`; a null `psz_line` is `none`. -/
def ParserHeaderHandler (X : Externals) (ctx : parser_ctx) (s : webvtt_header_line_e)
    (b_new : Bool) (psz_line : Option (List Char)) : parser_ctx :=
  if b_new ∨ psz_line = none then
    let ctx := ParserHeaderHandler_commit ctx
    match psz_line with
    | none => ctx
    | some psz_line =>
      if b_new then
        if s = WEBVTT_HEADER_REGION then { ctx with p_region := some webvtt_region_Init }
        else ctx
      else ParserHeaderHandler_feed X ctx s psz_line
  else
    match psz_line with
    | none => ctx
    | some psz_line => ParserHeaderHandler_feed X ctx s psz_line

/-! ## Notions used in the statements -/

/-- Sum of `i_lines` over the occupied slots, as a natural number. -/
def lines_sum : List cue_ptr → Nat
  | [] => 0
  | .live c :: rest => c.i_lines + lines_sum rest
  | _ :: rest => lines_sum rest

/-- No node of the store has both a text and a child. -/
def text_xor_child (nodes : List webvtt_domnode_t) : Prop :=
  ∀ node ∈ nodes, node.psz_text = none ∨ node.p_child = none

/-- Invariant of the builder: no node has both a text and a child, and when
the append location is the `p_child` field of a node, that node has no text. -/
def builder_inv (st : dom_builder) : Prop :=
  text_xor_child st.nodes ∧
  ∀ i node, st.pp_append = .child i → st.nodes[i]? = some node → node.psz_text = none

/-- A cue of two lines: the text `a\nb`, starting at `i_start`. -/
def two_line_cue (i_start : Int) : webvtt_dom_cue_t :=
  { webvtt_dom_cue_New i_start (i_start + 10) with
    nodes := [{ webvtt_domnode_New none with psz_text := some ['a', '\n', 'b'] }]
    p_nodes := some 0
    i_lines := 2 }

/-- The cue `ProcessCue` makes of a payload string, with its time interval. -/
def cue_of_payload (psz : List Char) (i_start i_stop : Int) : Run webvtt_dom_cue_t :=
  ProcessCue psz (webvtt_dom_cue_New i_start i_stop)

/-- A cue of one line: the text `a`, starting at `i_start`. -/
def one_line_cue (i_start : Int) : webvtt_dom_cue_t :=
  { webvtt_dom_cue_New i_start (i_start + 10) with
    nodes := [{ webvtt_domnode_New none with psz_text := some ['a'] }]
    p_nodes := some 0
    i_lines := 1 }

/-- Successive `webvtt_region_AddCue` calls, one for each cue of the list. -/
def AddCue_all (p_region : webvtt_region_t) : List webvtt_dom_cue_t → Run webvtt_region_t
  | [] => .ok p_region
  | c :: cs =>
    match webvtt_region_AddCue p_region c with
    | .ok r => AddCue_all r cs
    | .error e => .error e

/-- An empty scrolling region of `n` lines. -/
def scroll_region (n : Nat) : webvtt_region_t :=
  { webvtt_region_Init with b_scroll_up := true, i_lines_max_scroll := n }

/-- The slots of a region, each reduced to the start time of its cue. -/
def slot_starts (p_cues : List cue_ptr) : List (Option Int) :=
  p_cues.map fun
    | .live c => some c.i_start
    | _ => none

/-- Collaborators that decode nothing: no entity, no number, no box. -/
def plain_externals : Externals :=
  { us_strtof := fun _ => (0, 0)
    vlc_xml_decode := fun psz => psz
    mp4_box_iterator := fun _ => []
    atoi := fun _ => 0 }

/-- The nodes of a builder result; none when the builder faulted. -/
def nodes_of (r : Run dom_builder) : List webvtt_domnode_t :=
  match r with
  | .ok b => b.nodes
  | .error _ => []

/-- The nodes of a cue that may be absent. -/
def cue_nodes (r : Run (Option webvtt_dom_cue_t)) : List webvtt_domnode_t :=
  match r with
  | .ok (some c) => c.nodes
  | _ => []

/-- The nodes expected of the payload `T1<b>T2</b>`: a text node, an element
`b` after it, and the text node that is the child of `b`. -/
def simple_nodes (T1 T2 : List Char) : List webvtt_domnode_t :=
  [{ webvtt_domnode_New none with psz_text := some T1, p_next := some 1 },
   { webvtt_domnode_New none with psz_tag := some ['b'], p_child := some 2 },
   { webvtt_domnode_New (some 1) with psz_text := some T2 }]

/-- The cue `header` once it has received the payload `T1<b>T2</b>`. -/
def simple_cue (header : webvtt_dom_cue_t) (T1 T2 : List Char) : webvtt_dom_cue_t :=
  { header with nodes := simple_nodes T1 T2, p_nodes := some 0, i_lines := 1 }

/-- Effect on a cue of one box that is not a payload: an `iden` box sets the
identifier, an `sttg` box is parsed into the settings. -/
def cue_header_box (X : Externals) (p_cue : webvtt_dom_cue_t) (vtcc : mp4_box) :
    webvtt_dom_cue_t :=
  match strndup vtcc.p_payload vtcc.p_payload.length with
  | .error _ => p_cue
  | .ok psz =>
    if vtcc.i_type = ATOM_iden then { p_cue with psz_id := some psz }
    else if vtcc.i_type = ATOM_sttg then
      { p_cue with settings := webvtt_cue_settings_Parse X p_cue.settings psz }
    else p_cue

/-- The identifier and the settings that the `iden` and `sttg` boxes of a list
give to a cue. -/
def cue_header (X : Externals) (p_cue : webvtt_dom_cue_t) (boxes : List mp4_box) :
    webvtt_dom_cue_t :=
  boxes.foldl (cue_header_box X) p_cue

/-- The default region of a decoder that holds the cue `c` and no other. -/
def default_region_with (c : webvtt_dom_cue_t) : webvtt_region_t :=
  { webvtt_region_Init with p_cues := List.replicate 17 .null ++ [.live c] }

/-- The subpicture expected for the payload `T1<b>T2</b>` in the default
region: one updater region aligned at the bottom, with the segment `T1`
without style and the segment `T2` in bold. -/
def simple_subpicture (T1 T2 : List Char) (i_start i_stop : Int) : subpicture_t :=
  { i_start := i_start
    i_stop := i_stop
    b_ephemer := true
    b_absolute := false
    f_font_relsize := 10545113 / 2097152
    regions :=
      [{ align := SUBPICTURE_ALIGN_BOTTOM
         origin := none
         extent_x := none
         flags := UPDT_REGION_RATIO_FLAGS
         p_segments :=
          [{ psz_text := T1, style := none },
           { psz_text := T2
             style := some
              { i_style_flags := STYLE_BOLD
                i_features := STYLE_HAS_FLAGS
                i_font_color := 0 } }] }] }

/-- Collaborators of the scenario "simple cue": the buffer `blk` holds one
`vttc` box of payload `in`, which holds an `iden` box `1`, an `sttg` box
`align:start` and the `payl` box `Hello <b>world</b>`; no entity is decoded. -/
def scenario_externals : Externals :=
  { us_strtof := fun _ => (0, 0)
    vlc_xml_decode := fun psz => psz
    mp4_box_iterator := fun buf =>
      if buf = "blk".toList then [⟨ATOM_vttc, "in".toList⟩]
      else if buf = "in".toList then
        [⟨ATOM_iden, "1".toList⟩, ⟨ATOM_sttg, "align:start".toList⟩,
         ⟨ATOM_payl, "Hello <b>world</b>".toList⟩]
      else []
    atoi := fun _ => 0 }

/-- The segments `ConvertCueToSegments` gives for the cue made of a payload. -/
def segments_of_payload (X : Externals) (psz : List Char) : Run (List text_segment_t) :=
  match cue_of_payload psz 0 10 with
  | .error e => .error e
  | .ok p_cue => ConvertCueToSegments X p_cue

/-- Concatenation, in document order, of the texts of the nodes reached from
`p` through the `p_child` and `p_next` links: each node, then its children,
then its next siblings.  The fuel bounds the number of nested calls. -/
def forest_text (nodes : List webvtt_domnode_t) : Nat → Option Nat → Run (List Char)
  | 0, _ => .error .fuel
  | _ + 1, none => .ok []
  | fuel + 1, some p =>
    match nodes[p]? with
    | none => .error .bad_pointer
    | some node =>
      match forest_text nodes fuel node.p_child with
      | .error e => .error e
      | .ok children =>
        match forest_text nodes fuel node.p_next with
        | .error e => .error e
        | .ok rest => .ok (node.psz_text.getD [] ++ children ++ rest)

/-- Text of the forest a builder has made. -/
def builder_text (b : dom_builder) : Run (List Char) :=
  forest_text b.nodes (b.nodes.length + 1) b.p_head

/-- The name of the tag at `psz_tag`, as the builder copies it. -/
def tag_name (psz_tag : List Char) : Run (List Char) :=
  match SplitTag psz_tag with
  | .error e => .error e
  | .ok (psz_name, psz_attrs) => strndup psz_name (to_size_t (ptr_diff psz_attrs psz_name))

/-- The names of the open elements after an end tag `name`, `above` being the
names of the elements that enclose the current one: the nearest enclosing
element of that name and those that enclose it; none when no name matches. -/
def close_stack (name : List Char) : List (List Char) → List (List Char)
  | [] => []
  | x :: rest => if x = name then x :: rest else close_stack name rest

/-- The payload with the tags that `FindNextTag` recognises removed, cut at the
first end tag that is met while no element is open.  `stack` holds the names of
the open elements, the current one first: an open tag adds its name, an end tag
leaves the nearest element of its name that encloses the current one, or none. -/
def stripped_text : Nat → List (List Char) → List Char → Run (List Char)
  | 0, _, _ => .error .fuel
  | fuel + 1, stack, psz_text =>
    match deref psz_text with
    | .error e => .error e
    | .ok c =>
      if c = NUL then .ok []
      else
        match FindNextTag psz_text with
        | .error e => .error e
        | .ok none => strdup psz_text
        | .ok (some (psz_tag, psz_taglast)) =>
          match
            (if ptr_diff psz_tag psz_text > 0 then
              strndup psz_text (to_size_t (ptr_diff psz_tag psz_text))
            else .ok []) with
          | .error e => .error e
          | .ok text =>
            match IsEndTag psz_tag with
            | .error e => .error e
            | .ok false =>
              match tag_name psz_tag with
              | .error e => .error e
              | .ok name =>
                match stripped_text fuel (name :: stack) psz_taglast.tail with
                | .error e => .error e
                | .ok rest => .ok (text ++ rest)
            | .ok true =>
              match stack with
              | [] => .ok text
              | _ :: above =>
                match tag_name psz_tag with
                | .error e => .error e
                | .ok name =>
                  match stripped_text fuel (close_stack name above) psz_taglast.tail with
                  | .error e => .error e
                  | .ok rest => .ok (text ++ rest)

/-- Reference text of a payload: `stripped_text` from its first character, no
element being open. -/
def payload_text (psz : List Char) : Run (List Char) :=
  stripped_text ((c_str psz).length + 1) [] (c_str psz)

/-- Concatenation of the texts of the nodes of given indices. -/
def texts_of (nodes : List webvtt_domnode_t) : List Nat → List Char
  | [] => []
  | i :: rest => ((nodes[i]?.bind fun node => node.psz_text).getD []) ++ texts_of nodes rest

/-- Shape of a forest: each node with its store index, the forest of its
children and the forest of its next siblings. -/
inductive dom_shape
  | nil
  | node (i : Nat) (child next : dom_shape)

/-- The node indices of a shape in document order. -/
def shape_ids : dom_shape → List Nat
  | .nil => []
  | .node i c n => i :: (shape_ids c ++ shape_ids n)

/-- The links of the store from the pointer `p` on draw the shape. -/
def represents (nodes : List webvtt_domnode_t) : Option Nat → dom_shape → Prop
  | none, .nil => True
  | some p, .node i c n =>
    p = i ∧
    match nodes[i]? with
    | some node => represents nodes node.p_child c ∧ represents nodes node.p_next n
    | none => False
  | _, _ => False

/-- The shape with the new node `m` added at the end of the sibling list of
depth `d` on the path that goes, from the top-level list, from each list to the
children of its last node. -/
def shape_add : dom_shape → Nat → Nat → dom_shape
  | .nil, _, m => .node m .nil .nil
  | .node i c .nil, 0, m => .node i c (.node m .nil .nil)
  | .node i c .nil, d + 1, m => .node i (shape_add c d m) .nil
  | .node i c (.node j c' n'), d, m => .node i c (shape_add (.node j c' n') d m)

/-- The location that receives the node `shape_add` adds; `s0` is the location
that holds the pointer to the shape. -/
def shape_slot : dom_shape → Nat → append_slot → append_slot
  | .nil, _, s0 => s0
  | .node i _ .nil, 0, _ => .next i
  | .node i c .nil, d + 1, _ => shape_slot c d (.child i)
  | .node i _ (.node j c' n'), d, _ => shape_slot (.node j c' n') d (.next i)

/-- Depth of the sibling list that holds the node `q`, when that list is on
the path followed by `shape_add`. -/
def shape_level : dom_shape → Nat → Option Nat
  | .nil, _ => none
  | .node i c .nil, q => if q = i then some 0 else (shape_level c q).map (· + 1)
  | .node i _ (.node j c' n'), q => if q = i then some 0 else shape_level (.node j c' n') q

/-- Number of sibling lists on the path followed by `shape_add`. -/
def shape_depth : dom_shape → Nat
  | .nil => 0
  | .node _ c .nil => shape_depth c + 1
  | .node _ _ (.node j c' n') => shape_depth (.node j c' n')

/-- The store with the pointer of the location `s` set to the node `m`. -/
def slot_write (nodes : List webvtt_domnode_t) (m : Nat) : append_slot → List webvtt_domnode_t
  | .head => nodes
  | .next k =>
    match nodes[k]? with
    | some owner => nodes.set k { owner with p_next := some m }
    | none => nodes
  | .child k =>
    match nodes[k]? with
    | some owner => nodes.set k { owner with p_child := some m }
    | none => nodes

/-- The node that holds the location, if any. -/
def slot_owner : append_slot → Option Nat
  | .head => none
  | .next k => some k
  | .child k => some k

/-- The `p_parent` links from `p` on go through the nodes of `chain`, which
are all elements. -/
def chain_linked (nodes : List webvtt_domnode_t) : Option Nat → List Nat → Prop
  | none, [] => True
  | some p, q :: rest =>
    p = q ∧
    match nodes[q]? with
    | some node => node.psz_tag.isSome ∧ chain_linked nodes node.p_parent rest
    | none => False
  | _, _ => False

/-- The tag names of the nodes of a chain. -/
def chain_tags (nodes : List webvtt_domnode_t) (chain : List Nat) : List (List Char) :=
  chain.map fun q => (nodes[q]?.bind fun node => node.psz_tag).getD []

/-- The part of a chain that starts at its first node of the given tag name. -/
def close_chain (nodes : List webvtt_domnode_t) (name : List Char) : List Nat → List Nat
  | [] => []
  | q :: rest =>
    if (nodes[q]?.bind fun node => node.psz_tag).getD [] = name then q :: rest
    else close_chain nodes name rest

/-- Each node of the chain is in a sibling list of the path followed by
`shape_add`, at a depth that is at most `L` and does not grow along the chain. -/
def chain_levels (t : dom_shape) : Nat → List Nat → Prop
  | _, [] => True
  | L, q :: rest => ∃ e, shape_level t q = some e ∧ e ≤ L ∧ chain_levels t e rest

/-- Invariant of the builder with respect to document order: the store draws
the shape `t`, whose nodes in document order are the nodes of the store in
creation order; the append location is where `shape_add t L` adds; the parent
chain is `chain`. -/
def order_inv (st : dom_builder) (t : dom_shape) (L : Nat) (chain : List Nat) : Prop :=
  represents st.nodes st.p_head t ∧
  shape_ids t = List.range st.nodes.length ∧
  st.pp_append = shape_slot t L .head ∧
  L ≤ shape_depth t ∧
  chain_linked st.nodes st.p_parent chain ∧
  chain_levels t L chain ∧
  chain.length ≤ st.nodes.length

/-- Text of the forest built for a payload. -/
def text_of_payload (psz : List Char) : Run (List Char) :=
  match CreateDomNodes psz with
  | .ok b => builder_text b
  | .error e => .error e

/-- The cues of the slots that are shown at `pts`: `start ≤ pts < stop`. -/
def active_cues (pts : Int) : List cue_ptr → List webvtt_dom_cue_t
  | [] => []
  | .live c :: rest =>
    if c.i_start ≤ pts ∧ pts < c.i_stop then c :: active_cues pts rest
    else active_cues pts rest
  | _ :: rest => active_cues pts rest

/-- The segment lists of the cues of a list, in order. -/
def cues_segments (X : Externals) : List webvtt_dom_cue_t → Run (List (List text_segment_t))
  | [] => .ok []
  | c :: rest =>
    match ConvertCueToSegments X c with
    | .error e => .error e
    | .ok s =>
      match cues_segments X rest with
      | .error e => .error e
      | .ok ss => .ok (s :: ss)

/-- The chain made of the non-empty segment lists, one newline segment between
two of them. -/
def join_lines : List (List text_segment_t) → List text_segment_t
  | [] => []
  | s :: ss =>
    if s = [] then join_lines ss
    else if join_lines ss = [] then s
    else s ++ [text_segment_t.mk ['\n'] none] ++ join_lines ss

/-- The segments of a region at `pts`, by the words of the specification. -/
def region_segments (X : Externals) (pts : Int) (p_region : webvtt_region_t) :
    Run (List text_segment_t) :=
  match cues_segments X (active_cues pts p_region.p_cues) with
  | .error e => .error e
  | .ok ss => .ok (join_lines ss)

/-- No slot of the decoder holds a pointer that is neither null nor live. -/
def slots_valid (p_sys : decoder_sys_t) : Prop :=
  ∀ r ∈ p_sys.regions :: p_sys.named, cue_ptr.invalid ∉ r.p_cues

/-- The decoder state whose default region holds, in slot 17, the one-line cue
shown over `[0, 10)`. -/
def one_cue_state : decoder_sys_t :=
  ⟨default_region_with { one_line_cue 0 with i_stop := 10 }, []⟩

/-- Value and number of the leading decimal digits of a string, added to the
value `acc` and the count `n` read so far. -/
def read_digits : List Char → Nat → Nat → Nat × Nat
  | [], acc, n => (acc, n)
  | c :: cs, acc, n =>
    if c.isDigit then read_digits cs (acc * 10 + (c.toNat - '0'.toNat)) (n + 1) else (acc, n)

/-- The `float` of a natural number: the number itself below `2 ^ 24`, where
every natural number is a float, and its rounding above. -/
def float_of_nat (i : Nat) : vtt_float :=
  if i < 2 ^ 24 then (i : vtt_float) else to_float (i : Rat)

/-- Modelled from the spec: the float scan `us_strtof` on the literals of the
form `D+(.D+)?`, whose value is rounded to `float`; zero and nothing consumed
when the string does not start with a digit, as `strtof` does when it converts
nothing. -/
def decimal_strtof (psz : List Char) : vtt_float × Nat :=
  match read_digits psz 0 0 with
  | (_, 0) => (0, 0)
  | (i, n + 1) =>
    match psz.drop (n + 1) with
    | '.' :: rest =>
      match read_digits rest 0 0 with
      | (_, 0) => (float_of_nat i, n + 1)
      | (f, m + 1) =>
        (to_float ((i : Rat) + (f : Rat) / (10 : Rat) ^ (m + 1)), n + 1 + 1 + (m + 1))
    | _ => (float_of_nat i, n + 1)

/-- The C library `atoi` on an optional minus sign followed by decimal digits;
zero when there is no digit. -/
def decimal_atoi (psz : List Char) : Int :=
  match psz with
  | '-' :: rest => -((read_digits rest 0 0).1 : Int)
  | _ => ((read_digits psz 0 0).1 : Int)

/-- Collaborators that read decimal numbers and decode nothing else. -/
def decimal_externals : Externals :=
  { us_strtof := decimal_strtof
    vlc_xml_decode := fun psz => psz
    mp4_box_iterator := fun _ => []
    atoi := decimal_atoi }

/-- The percentage a string begins with, by the words of the specification: a
number is read, it lies in `[0, 100]` and the next character is `%`.  The
result is the number divided by 100 and the string from the `%` on. -/
def leading_percent (X : Externals) (psz : List Char) : Option (vtt_float × List Char) :=
  if (X.us_strtof psz).2 ≠ 0 ∧ 0 ≤ (X.us_strtof psz).1 ∧ (X.us_strtof psz).1 ≤ 100 ∧
      (c_str psz)[(X.us_strtof psz).2]? = some '%' then
    some ((X.us_strtof psz).1 / 100, psz.drop (X.us_strtof psz).2)
  else none

/-- The decoder state after the cue is added to the region `ref` designates. -/
def add_to_region (p_sys : decoder_sys_t) (ref : region_ref) (p_cue : webvtt_dom_cue_t) :
    Run decoder_sys_t :=
  match ref with
  | .default =>
    match webvtt_region_AddCue p_sys.regions p_cue with
    | .error e => .error e
    | .ok r => .ok { p_sys with regions := r }
  | .named i =>
    match p_sys.named[i]? with
    | none => .error .bad_pointer
    | some p_region =>
      match webvtt_region_AddCue p_region p_cue with
      | .error e => .error e
      | .ok r => .ok { p_sys with named := p_sys.named.set i r }

/-- The named region of rank `i` is the first one whose id is `id`. -/
def first_with_id (named : List webvtt_region_t) (id : List Char) (i : Nat) : Prop :=
  (∃ r, named[i]? = some r ∧ r.psz_id = some id) ∧
  ∀ j r, j < i → named[j]? = some r → r.psz_id ≠ some id

/-- A decoder with two named regions, of ids `a` and `b`. -/
def two_region_state : decoder_sys_t :=
  ⟨webvtt_region_Init,
   [{ webvtt_region_Init with psz_id := some ['a'] },
    { webvtt_region_Init with psz_id := some ['b'] }]⟩

/-- A token is a key and a value by the words of the specification: it holds a
`:`, and its first `:` is neither its first nor its last character; `key` is
the text before that `:` and `value` the text after it. -/
def is_tuple (psz_tuple psz_key psz_value : List Char) : Prop :=
  psz_tuple = psz_key ++ ':' :: psz_value ∧ ':' ∉ psz_key ∧ psz_key ≠ [] ∧ psz_value ≠ []

/-- The alignment that a word after the comma of a `position` value stands
for, by the table of the specification. -/
def position_word_align (W : List Char) : webvtt_align_e :=
  if W = "line-left".toList then WEBVTT_ALIGN_LEFT
  else if W = "line-right".toList then WEBVTT_ALIGN_RIGHT
  else if W = "center".toList then WEBVTT_ALIGN_CENTER
  else WEBVTT_ALIGN_AUTO

/-- The region after the lines of a list are parsed in turn. -/
def webvtt_region_Parse_all (X : Externals) (p_region : webvtt_region_t)
    (lines : List (List Char)) : webvtt_region_t :=
  lines.foldl (webvtt_region_Parse X) p_region

/-- One call of the header callback: the section tag, the new-block flag and
the line, `none` for the null line that commits. -/
structure header_call where
  s : webvtt_header_line_e
  b_new : Bool
  psz_line : Option (List Char)
deriving DecidableEq

/-- The context after the callbacks of a list, made in turn. -/
def ParserHeaderHandler_all (X : Externals) (ctx : parser_ctx) (calls : List header_call) :
    parser_ctx :=
  calls.foldl (fun ctx c => ParserHeaderHandler X ctx c.s c.b_new c.psz_line) ctx

/-- The context `LoadExtradata` starts from on a decoder that `OpenDecoder` has
just set up: no region in progress and no named region. -/
def parser_ctx_init : parser_ctx :=
  ⟨none, ⟨webvtt_region_Init, []⟩⟩

/-- The ids of the named regions of a context, in the order of the chain. -/
def store_ids (ctx : parser_ctx) : List (Option (List Char)) :=
  ctx.p_sys.named.map fun r => r.psz_id

/-- The id a region declaration has after one more line: the value of the last
`id` tuple of the line, and the id it had when the line has none. -/
def line_id (cur : Option (List Char)) (psz_line : List Char) : Option (List Char) :=
  (strtok_all [] psz_line).foldl
    (fun cur psz_tuple =>
      match split_tuple psz_tuple with
      | some (psz_key, psz_value) => if psz_key = "id".toList then some psz_value else cur
      | none => cur)
    cur

/-- The id that a callback commits, if any: the one of the declaration in
progress when the callback opens a block or has the null line.  `cur` is
`none` when no declaration is in progress, and else the id it has so far. -/
def committed_id (cur : Option (Option (List Char))) (c : header_call) : List (List Char) :=
  if c.b_new = true ∨ c.psz_line = none then
    match cur with
    | some (some id) => [id]
    | _ => []
  else []

/-- The declaration in progress after a callback: a new one without id when
the callback opens a `REGION` block, none after another new block or the null
line, and the one before, fed with the line, otherwise. -/
def declaration_after (cur : Option (Option (List Char))) (c : header_call) :
    Option (Option (List Char)) :=
  match c.psz_line with
  | none => none
  | some psz_line =>
    if c.b_new = true then
      if c.s = WEBVTT_HEADER_REGION then some none else none
    else if c.s = WEBVTT_HEADER_REGION then cur.map fun id => line_id id psz_line
    else cur

/-- The ids of the `REGION` blocks that a list of callbacks commits, in order:
what the header declares, read without the decoder. -/
def declared_ids : Option (Option (List Char)) → List header_call → List (List Char)
  | _, [] => []
  | cur, c :: rest => committed_id cur c ++ declared_ids (declaration_after cur c) rest

/-- The callbacks of a header that declares two regions, both with the id `a`. -/
def twin_header : List header_call :=
  [⟨WEBVTT_HEADER_REGION, true, some "REGION".toList⟩,
   ⟨WEBVTT_HEADER_REGION, false, some "id:a".toList⟩,
   ⟨WEBVTT_HEADER_REGION, true, some "REGION".toList⟩,
   ⟨WEBVTT_HEADER_REGION, false, some "id:a lines:2".toList⟩,
   ⟨WEBVTT_HEADER_STYLE, false, none⟩]

/-- Every named region of the context has an id that is not empty, and the
region in progress, if it has an id, has one that is not empty. -/
def header_inv (ctx : parser_ctx) : Prop :=
  (∀ q ∈ ctx.p_sys.named, ∃ id, q.psz_id = some id ∧ id ≠ []) ∧
  ∀ r, ctx.p_region = some r → ∀ id, r.psz_id = some id → id ≠ []

/-- A context in which the region `a`, limited to two lines, is in progress
and the store is empty. -/
def region_in_progress : parser_ctx :=
  ⟨some { webvtt_region_Init with psz_id := some ['a'], i_lines_max_scroll := 2 },
   ⟨webvtt_region_Init, []⟩⟩

/-- The nodes met along the `p_parent` links from `p`, the node `p` first. -/
def parent_chain (nodes : List webvtt_domnode_t) :
    Nat → Option Nat → Run (List webvtt_domnode_t)
  | 0, _ => .error .fuel
  | _ + 1, none => .ok []
  | fuel + 1, some p =>
    match nodes[p]? with
    | none => .error .bad_pointer
    | some node =>
      match parent_chain nodes fuel node.p_parent with
      | .error e => .error e
      | .ok chain => .ok (node :: chain)

/-- The style that the nodes of a chain give in turn, from no style. -/
def chain_style (chain : List webvtt_domnode_t) : Option text_style_t :=
  chain.foldl (fun p_style node => InheritStyles_node node p_style) none

/-- The style flag of a tag by the table of the specification: `b` is bold,
`i` italic, `u` underline; no flag for another node. -/
def tag_flag (node : webvtt_domnode_t) : Nat :=
  if node.psz_tag = some ['b'] then STYLE_BOLD
  else if node.psz_tag = some ['i'] then STYLE_ITALIC
  else if node.psz_tag = some ['u'] then STYLE_UNDERLINE
  else 0

/-- The node is an element that styles: `b`, `i`, `u`, or `v` with attributes. -/
def is_styling (node : webvtt_domnode_t) : Prop :=
  node.psz_tag = some ['b'] ∨ node.psz_tag = some ['i'] ∨ node.psz_tag = some ['u'] ∨
    (node.psz_tag = some ['v'] ∧ node.psz_attrs ≠ none)

/-- The flags of a style, none for the null style. -/
def style_flags (p_style : Option text_style_t) : Nat :=
  match p_style with
  | some style => style.i_style_flags
  | none => 0

/-- The font color that the specification gives for an attribute string: the
bytes are folded from 0 with `acc = (acc << 3) XOR byte` on 32 bits, the shift
written as a product, and the result is `(0x7F7F7F OR acc) AND 0xFFFFFF`. -/
def voice_color (s : List Char) : Nat :=
  (0x7F7F7F ||| s.foldl (fun acc c => ((acc * 8) % 2 ^ 32) ^^^ c.toNat) 0) &&& 0xFFFFFF

/-- The font color by the formula of `voice_color` in which each byte enters
the fold as a signed `char` converted to `unsigned`: the byte itself below
0x80, the byte plus `0xFFFFFF00` from 0x80 on. -/
def voice_color_signed (s : List Char) : Nat :=
  (0x7F7F7F ||| s.foldl (fun acc c => ((acc * 8) % 2 ^ 32) ^^^
      (if c.toNat % 256 < 0x80 then c.toNat % 256 else c.toNat % 256 + 0xFFFFFF00)) 0)
    &&& 0xFFFFFF

/-- Every byte of the string is below 0x80. -/
def seven_bit (s : List Char) : Prop :=
  ∀ c ∈ s, c.toNat < 0x80

/-- The element `<v ...>` whose attribute string is a blank and the byte 0xE9,
the letter `é` in Latin-1. -/
def voice_node_E9 : webvtt_domnode_t :=
  { webvtt_domnode_New none with
    psz_tag := some ['v'], psz_attrs := some [' ', Char.ofNat 0xE9] }

/-- Every `p_parent` link of the store goes to a node made before the node
that holds it. -/
def parents_older (nodes : List webvtt_domnode_t) : Prop :=
  ∀ (i : Nat) (node : webvtt_domnode_t) (j : Nat),
    nodes[i]? = some node → node.p_parent = some j → j < i

/-- The style `InheritStyles` gives for the node `i`, null when it gives none. -/
def style_of (nodes : List webvtt_domnode_t) (i : Nat) : Option text_style_t :=
  match InheritStyles nodes (some i) with
  | .ok p_style => p_style
  | .error _ => none

/-- The segment of the node `i`, by the words of the specification: a text
node gives one segment, with its decoded text and its inherited style; an
element gives none. -/
def segment_of (X : Externals) (nodes : List webvtt_domnode_t) (i : Nat) :
    Option text_segment_t :=
  match nodes[i]? with
  | some node =>
    match node.psz_text with
    | some psz_text => some (text_segment_t.mk (X.vlc_xml_decode psz_text) (style_of nodes i))
    | none => none
  | none => none

/-- The shape of the forest of `T1<b>T2</b>`: a text, then an element with one
text child. -/
def simple_shape : dom_shape :=
  .node 0 .nil (.node 1 (.node 2 .nil .nil) .nil)

/-- Some node of the store is a text node. -/
def has_text (nodes : List webvtt_domnode_t) : Bool :=
  (nodes.map fun node => node.psz_text).any Option.isSome

/-- Invariant of the builder on its line count: 1 once a text node has been
made, 0 before. -/
def lines_inv (st : dom_builder) : Prop :=
  st.i_lines = if has_text st.nodes then 1 else 0

/-- The cue that `ProcessCue` makes of the fresh cue `p_cue` and of a builder
result. -/
def cue_with (p_cue : webvtt_dom_cue_t) (b : dom_builder) : webvtt_dom_cue_t :=
  { p_cue with nodes := b.nodes, p_nodes := b.p_head, i_lines := b.i_lines }

/-- The builder state that `CreateDomNodes` returns for the payload `a\nb\nc`:
one text node, and a line count of 1 for three lines of text. -/
def three_line_builder : dom_builder :=
  { nodes := [{ webvtt_domnode_New none with psz_text := some "a\nb\nc".toList }]
    p_head := some 0
    pp_append := .head
    p_parent := none
    i_lines := 1 }

/-- A cue made by hand on the forest of `<b>x\ny</b>`, an element `b` whose
child is the text `x\ny`, with the line count 2 of its text; the builder gives
this forest the line count 1. -/
def nested_newline_cue : webvtt_dom_cue_t :=
  { webvtt_dom_cue_New 0 10 with
    nodes :=
      [{ webvtt_domnode_New none with psz_tag := some ['b'], p_child := some 1 },
       { webvtt_domnode_New (some 0) with psz_text := some ['x', '\n', 'y'] }]
    p_nodes := some 0
    i_lines := 2 }

/-- The slots of a region after eighteen cues of one line: all occupied. -/
def full_slots : List cue_ptr :=
  (List.range 18).map fun i => .live (one_line_cue i)

/-- A scrolling region of 18 lines with the slots `full_slots`. -/
def full_region : webvtt_region_t :=
  { scroll_region 18 with p_cues := full_slots }

/-- What tells a cue from another and is kept when the cue is reduced: its id
and its times. -/
def cue_key (c : webvtt_dom_cue_t) : Option (List Char) × Int × Int :=
  (c.psz_id, c.i_start, c.i_stop)

/-- The 18 slots are empty slots followed by the cues `cs`, in that order: the
occupied slots are one block that ends at slot 17. -/
def slots_block (p_cues : List cue_ptr) (cs : List webvtt_dom_cue_t) : Prop :=
  ∃ k, k + cs.length = 18 ∧ p_cues = List.replicate k .null ++ cs.map .live

/-- Invariant of the builder on the parent links: each goes to an older node,
and the current parent is a node of the store. -/
def builder_parents (st : dom_builder) : Prop :=
  parents_older st.nodes ∧ ∀ j, st.p_parent = some j → j < st.nodes.length

theorem bind_eq_ok {α β : Type} (x : Run α) (f : α → Run β) (b : β) :
    (x >>= f) = Except.ok b ↔ ∃ a, x = Except.ok a ∧ f a = Except.ok b := by
  cases x <;> simp [bind, Except.bind]

theorem pure_eq_ok {α : Type} (a b : α) : (pure a : Run α) = Except.ok b ↔ a = b := by
  simp [pure, Except.pure]

theorem throw_ne_ok {α : Type} (e : Fault) (b : α) : (throw e : Run α) = Except.ok b ↔ False := by
  simp [throw, throwThe, MonadExceptOf.throw]

theorem map_eq_ok {α β : Type} (x : Run α) (f : α → β) (b : β) :
    x.map f = Except.ok b ↔ ∃ a, x = Except.ok a ∧ f a = b := by
  cases x <;> simp [Except.map]

/-! ### Rounding -/

theorem ieee_round_eval (p : Nat) (emin : Int) (q : Rat) (n d m : Nat) (s : Int)
    (hd : d ≠ 0) (hc : Nat.Coprime n d) (hq : q = (n : Rat) / (d : Rat))
    (hr : round_nat p emin n d = (m, s)) :
    ieee_round p emin q = (m : Rat) * (2 : Rat) ^ s := by
  have hnum : q.num = (n : Int) := by
    rw [hq]
    have := Rat.num_div_eq_of_coprime (a := (n : Int)) (b := (d : Int))
      (by exact_mod_cast Nat.pos_of_ne_zero hd) (by simpa using hc)
    simpa using this
  have hden : q.den = d := by
    rw [hq]
    have := Rat.den_div_eq_of_coprime (a := (n : Int)) (b := (d : Int))
      (by exact_mod_cast Nat.pos_of_ne_zero hd) (by simpa using hc)
    have h2 : (((n : Int) : Rat) / ((d : Int) : Rat)).den = d := by exact_mod_cast this
    simpa using h2
  simp only [ieee_round, hnum, hden, Int.natAbs_ofNat, hr]
  have : ¬ ((n : Int) < 0) := by omega
  rw [if_neg this, one_mul]

theorem to_float_zero : to_float 0 = 0 := by
  have := ieee_round_eval 24 (-126) 0 0 1 0 (-25) (by decide) (by decide) (by norm_num) (by decide)
  simpa [to_float] using this

theorem to_double_zero : to_double 0 = 0 := by
  have := ieee_round_eval 53 (-1022) 0 0 1 0 (-54) (by decide) (by decide) (by norm_num) (by decide)
  simpa [to_double] using this

/-- The float stored for `10 / 100.0`: the float nearest to one tenth, which
prints as 0.100000001. -/
theorem percent_10_value : to_float (to_double (10 / 100)) = 13421773 / 134217728 := by
  have h : to_double (10 / 100) = 3602879701896397 / 36028797018963968 := by
    rw [to_double, ieee_round_eval 53 (-1022) _ 1 10 7205759403792794 (-56)
      (by decide) (by decide) (by norm_num) (by decide)]
    norm_num
  rw [h, to_float, ieee_round_eval 24 (-126) _ 3602879701896397 36028797018963968
    13421773 (-27) (by decide) (by decide) (by norm_num) (by decide)]
  norm_num

/-- The float stored for `90 / 100.0`, which prints as 0.899999976. -/
theorem percent_90_value : to_float (to_double (90 / 100)) = 7549747 / 8388608 := by
  have h : to_double (90 / 100) = 8106479329266893 / 9007199254740992 := by
    rw [to_double, ieee_round_eval 53 (-1022) _ 9 10 8106479329266893 (-53)
      (by decide) (by decide) (by norm_num) (by decide)]
    norm_num
  rw [h, to_float, ieee_round_eval 24 (-126) _ 8106479329266893 9007199254740992
    15099494 (-24) (by decide) (by decide) (by norm_num) (by decide)]
  norm_num

/-- The float stored for `WEBVTT_DEFAULT_LINE_HEIGHT_VH /
WEBVTT_LINE_TO_HEIGHT_RATIO`, which prints as 5.02830172. -/
theorem font_relsize_value :
    to_float (to_double (to_double 5.33 / to_double 1.06)) = 10545113 / 2097152 := by
  have h1 : to_double 5.33 = 3000523251735593 / 562949953421312 := by
    rw [to_double, ieee_round_eval 53 (-1022) _ 533 100 6001046503471186 (-50)
      (by decide) (by decide) (by norm_num) (by decide)]
    norm_num
  have h2 : to_double 1.06 = 2386907802506363 / 2251799813685248 := by
    rw [to_double, ieee_round_eval 53 (-1022) _ 53 50 4773815605012726 (-52)
      (by decide) (by decide) (by norm_num) (by decide)]
    norm_num
  rw [h1, h2]
  have h3 : to_double ((3000523251735593 / 562949953421312 : Rat) /
      (2386907802506363 / 2251799813685248)) = 5661364625916213 / 1125899906842624 := by
    rw [to_double, ieee_round_eval 53 (-1022) _ 12002093006942372 2386907802506363
      5661364625916213 (-50) (by decide) (by decide) (by norm_num) (by decide)]
    norm_num
  rw [h3]
  rw [to_float, ieee_round_eval 24 (-126) _ 5661364625916213 1125899906842624
    10545113 (-21) (by decide) (by decide) (by norm_num) (by decide)]
  norm_num

theorem bit_length_loop_spec (fuel : Nat) : ∀ n, n ≤ fuel →
    n < 2 ^ bit_length_loop fuel n ∧ (0 < n → 2 ^ (bit_length_loop fuel n - 1) ≤ n) := by
  induction fuel with
  | zero =>
    intro n hn
    have : n = 0 := by omega
    subst this
    simp [bit_length_loop]
  | succ f ih =>
    intro n hn
    by_cases h0 : n = 0
    · subst h0
      simp [bit_length_loop]
    · have hle : n / 2 ≤ f := by omega
      obtain ⟨h1, h2⟩ := ih (n / 2) hle
      simp only [bit_length_loop, if_neg h0, Nat.add_sub_cancel]
      refine ⟨?_, fun _ => ?_⟩
      · rw [pow_succ]
        omega
      · by_cases hh : n / 2 = 0
        · have h1' : n = 1 := by omega
          subst h1'
          simp [bit_length_loop]
          cases f <;> simp [bit_length_loop]
        · have h3 := h2 (by omega)
          have hk : 1 ≤ bit_length_loop f (n / 2) := by
            by_contra hc
            have : bit_length_loop f (n / 2) = 0 := by omega
            rw [this] at h1
            simp at h1
            exact hh h1
          have : 2 ^ bit_length_loop f (n / 2) = 2 * 2 ^ (bit_length_loop f (n / 2) - 1) := by
            rw [← pow_succ']
            congr 1
            omega
          rw [this]
          omega

theorem bit_length_spec (n : Nat) :
    n < 2 ^ bit_length n ∧ (0 < n → 2 ^ (bit_length n - 1) ≤ n) :=
  bit_length_loop_spec n n (Nat.le_refl n)

theorem bit_length_mono (n d : Nat) (h : n ≤ d) : bit_length n ≤ bit_length d := by
  by_cases h0 : n = 0
  · subst h0
    have : bit_length 0 = 0 := rfl
    omega
  · have h1 := (bit_length_spec n).2 (by omega)
    have h2 := (bit_length_spec d).1
    have h3 : 2 ^ (bit_length n - 1) < 2 ^ bit_length d := by omega
    have h4 := (Nat.pow_lt_pow_iff_right (by norm_num : 1 < 2)).mp h3
    omega

theorem two_zpow_split (s : Int) :
    (2 : Rat) ^ s = (2 : Rat) ^ s.toNat / (2 : Rat) ^ (-s).toNat := by
  obtain ⟨k, rfl | rfl⟩ := Int.eq_nat_or_neg s
  · simp
  · cases k with
    | zero => simp
    | succ j =>
      have h1 : (-((j + 1 : Nat) : Int)).toNat = 0 := by
        have : -((j + 1 : Nat) : Int) ≤ 0 := by omega
        exact Int.toNat_eq_zero.mpr this
      rw [h1]
      have h2 : (- -((j + 1 : Nat) : Int)).toNat = j + 1 := by
        rw [neg_neg]
        exact Int.toNat_natCast _
      rw [h2, zpow_neg, zpow_natCast]
      simp

theorem round_half_even_err (N D : Nat) (hD : 0 < D) :
    |(N : Rat) / D -
      ((if 2 * (N % D) > D ∨ (2 * (N % D) = D ∧ N / D % 2 = 1) then N / D + 1 else N / D : Nat) :
        Rat)| ≤ 1 / 2 := by
  have hDq : (0 : Rat) < D := by exact_mod_cast hD
  have hdiv : (N : Rat) / D = (N / D : Nat) + (N % D : Nat) / (D : Rat) := by
    have h := Nat.div_add_mod N D
    have h' : (N : Rat) = (D : Rat) * (N / D : Nat) + (N % D : Nat) := by exact_mod_cast h.symm
    field_simp
    linarith
  have hr : (N % D : Nat) < D := Nat.mod_lt _ hD
  have hrq : ((N % D : Nat) : Rat) / D < 1 := by
    rw [div_lt_one hDq]
    exact_mod_cast hr
  have hr0 : (0 : Rat) ≤ ((N % D : Nat) : Rat) / D := by positivity
  split_ifs with h
  · have h2 : D ≤ 2 * (N % D) := by
      rcases h with h | h
      · omega
      · omega
    have h2q : (1 : Rat) / 2 ≤ ((N % D : Nat) : Rat) / D := by
      rw [le_div_iff₀ hDq]
      have : (D : Rat) ≤ 2 * (N % D : Nat) := by exact_mod_cast h2
      linarith
    rw [hdiv, abs_le]
    push_cast
    constructor <;> linarith
  · have h2 : 2 * (N % D) ≤ D := by
      by_contra hc
      exact h (Or.inl (by omega))
    have h2q : ((N % D : Nat) : Rat) / D ≤ 1 / 2 := by
      rw [div_le_iff₀ hDq]
      have : (2 : Rat) * (N % D : Nat) ≤ D := by exact_mod_cast h2
      linarith
    rw [hdiv, abs_le]
    constructor <;> linarith

theorem round_nat_err (p : Nat) (emin : Int) (n d : Nat) (hd : 0 < d) :
    |(n : Rat) / d - ((round_nat p emin n d).1 : Rat) * 2 ^ (round_nat p emin n d).2|
      ≤ 2 ^ (round_nat p emin n d).2 / 2 := by
  simp only [round_nat]
  generalize max (if d * 2 ^ ((bit_length n : Int) - (bit_length d : Int)).toNat ≤
      n * 2 ^ (-((bit_length n : Int) - (bit_length d : Int))).toNat then
      (bit_length n : Int) - (bit_length d : Int)
    else (bit_length n : Int) - (bit_length d : Int) - 1) emin - ((p : Int) - 1) = s
  have hD : 0 < d * 2 ^ s.toNat := Nat.mul_pos hd (Nat.pow_pos (by norm_num))
  have herr := round_half_even_err (n * 2 ^ (-s).toNat) (d * 2 ^ s.toNat) hD
  have hpos : (0 : Rat) < 2 ^ s := zpow_pos (by norm_num) s
  have ha : (0 : Rat) < 2 ^ s.toNat := pow_pos (by norm_num) _
  have hb : (0 : Rat) < 2 ^ (-s).toNat := pow_pos (by norm_num) _
  have hdq : (0 : Rat) < d := by exact_mod_cast hd
  have hq : ((n * 2 ^ (-s).toNat : Nat) : Rat) / ((d * 2 ^ s.toNat : Nat) : Rat)
      = (n : Rat) / d / 2 ^ s := by
    rw [two_zpow_split s]
    push_cast
    field_simp
  rw [hq] at herr
  have key : ∀ m : Rat, (n : Rat) / d - m * 2 ^ s = ((n : Rat) / d / 2 ^ s - m) * 2 ^ s := by
    intro m
    field_simp
    ring
  rw [key, abs_mul, abs_of_pos hpos]
  calc |(n : Rat) / d / 2 ^ s - _| * 2 ^ s ≤ 1 / 2 * 2 ^ s :=
        mul_le_mul_of_nonneg_right herr hpos.le
    _ = 2 ^ s / 2 := by ring

theorem round_nat_exp_le (p : Nat) (emin : Int) (n d : Nat) (hn : n ≤ d) (he : emin ≤ 0) :
    (round_nat p emin n d).2 ≤ -((p : Int) - 1) := by
  have hb := bit_length_mono n d hn
  simp only [round_nat]
  have h1 : (if d * 2 ^ ((bit_length n : Int) - (bit_length d : Int)).toNat ≤
      n * 2 ^ (-((bit_length n : Int) - (bit_length d : Int))).toNat then
      (bit_length n : Int) - (bit_length d : Int)
    else (bit_length n : Int) - (bit_length d : Int) - 1) ≤ 0 := by
    split_ifs <;> omega
  have h2 := max_le h1 he
  omega

theorem ieee_round_unit (p : Nat) (emin : Int) (q : Rat) (h0 : 0 ≤ q) (h1 : q ≤ 1)
    (he : emin ≤ 0) (hp : 1 ≤ p) :
    0 ≤ ieee_round p emin q ∧ ieee_round p emin q ≤ 1 ∧
    |q - ieee_round p emin q| ≤ 1 / 2 ^ p := by
  have hnum : 0 ≤ q.num := Rat.num_nonneg.mpr h0
  have hden : 0 < q.den := q.den_pos
  have hnat : ((q.num.natAbs : Nat) : Int) = q.num := Int.natAbs_of_nonneg hnum
  have hq : q = (q.num.natAbs : Rat) / (q.den : Rat) := by
    have h := Rat.num_div_den q
    have h2 : ((q.num.natAbs : Nat) : Rat) = (q.num : Rat) :=
      (Int.cast_natCast (R := Rat) q.num.natAbs).symm.trans (congrArg (Int.cast (R := Rat)) hnat)
    rw [h2]
    exact h.symm
  have hle : q.num.natAbs ≤ q.den := by
    have hdq : (0 : Rat) < q.den := by exact_mod_cast hden
    have h3 : (q.num.natAbs : Rat) / (q.den : Rat) ≤ 1 := hq ▸ h1
    rw [div_le_one hdq] at h3
    exact_mod_cast h3
  have herr := round_nat_err p emin q.num.natAbs q.den hden
  have hexp := round_nat_exp_le p emin q.num.natAbs q.den hle he
  have hval : ieee_round p emin q =
      ((round_nat p emin q.num.natAbs q.den).1 : Rat) *
        2 ^ (round_nat p emin q.num.natAbs q.den).2 := by
    simp only [ieee_round]
    rw [if_neg (by omega), one_mul]
  rw [← hq] at herr
  rw [hval]
  generalize (round_nat p emin q.num.natAbs q.den).1 = m at herr hexp ⊢
  generalize (round_nat p emin q.num.natAbs q.den).2 = s at herr hexp ⊢
  have hpos : (0 : Rat) < 2 ^ s := zpow_pos (by norm_num) s
  have hs0 : s ≤ 0 := by omega
  have hstep : (2 : Rat) ^ s ≤ 2 ^ (-((p : Int) - 1)) :=
    zpow_le_zpow_right₀ (by norm_num) hexp
  have hpp : (2 : Rat) ^ (-((p : Int) - 1)) / 2 = 1 / 2 ^ p := by
    have : -((p : Int) - 1) = 1 - (p : Int) := by ring
    rw [this, zpow_sub₀ (by norm_num), zpow_one, zpow_natCast]
    field_simp
    ring
  have hm0 : (0 : Rat) ≤ m := by positivity
  refine ⟨by positivity, ?_, ?_⟩
  · by_contra hc
    push_neg at hc
    -- m * 2 ^ s > 1 with s ≤ 0: m ≥ 2 ^ (-s) + 1
    obtain ⟨k, hk⟩ : ∃ k : Nat, s = -(k : Int) := ⟨(-s).toNat, by omega⟩
    subst hk
    have hk2 : (2 : Rat) ^ (-(k : Int)) = 1 / 2 ^ k := by
      rw [zpow_neg, zpow_natCast]
      simp
    rw [hk2] at hc herr hpos
    have hkpos : (0 : Rat) < 2 ^ k := pow_pos (by norm_num) _
    have hgt : (2 : Rat) ^ k < m := by
      have := hc
      rw [mul_one_div, lt_div_iff₀ hkpos] at this
      linarith
    have hgt' : 2 ^ k < m := by exact_mod_cast hgt
    have hge : (2 : Rat) ^ k + 1 ≤ m := by exact_mod_cast hgt'
    have hbig : 1 + 1 / (2 : Rat) ^ k ≤ (m : Rat) * (1 / 2 ^ k) := by
      rw [mul_one_div, le_div_iff₀ hkpos]
      have : (1 + 1 / (2 : Rat) ^ k) * 2 ^ k = 2 ^ k + 1 := by field_simp
      rw [this]
      exact hge
    rw [abs_le] at herr
    have := herr.1
    have hhalf : (0 : Rat) < 1 / 2 ^ k := by positivity
    linarith
  · calc |q - (m : Rat) * 2 ^ s| ≤ 2 ^ s / 2 := herr
      _ ≤ 2 ^ (-((p : Int) - 1)) / 2 := by linarith
      _ = 1 / 2 ^ p := hpp

/-- The quotient `a / 100.0` stored in a `float`, for a number `a` of `[0, 100]`:
a float of `[0, 1]` within `2 ^ -24 + 2 ^ -53` of the exact quotient, the
sum of the two roundings. -/
theorem percent_quotient_bound (q : Rat) (h0 : 0 ≤ q) (h1 : q ≤ 1) :
    0 ≤ to_float (to_double q) ∧ to_float (to_double q) ≤ 1 ∧
    |q - to_float (to_double q)| ≤ 1 / 2 ^ 24 + 1 / 2 ^ 53 := by
  obtain ⟨d0, d1, derr⟩ := ieee_round_unit 53 (-1022) q h0 h1 (by decide) (by decide)
  obtain ⟨f0, f1, ferr⟩ :=
    ieee_round_unit 24 (-126) (ieee_round 53 (-1022) q) d0 d1 (by decide) (by decide)
  refine ⟨f0, f1, ?_⟩
  simp only [to_float, to_double]
  have htri := abs_sub_le q (ieee_round 53 (-1022) q)
    (ieee_round 24 (-126) (ieee_round 53 (-1022) q))
  linarith

/-! ### Evaluations at failing inputs -/

/-- C3 (evaluation at the failing input). A region holds cue A (stop 5) in
slot 16 and cue B (stop 100) in slot 17.  `webvtt_region_ClearCuesByTime` at
time 10 deletes A, leaves in slot 16 a pointer that is not a live cue and
empties slot 17: B, which has not expired, is gone. -/
theorem C3_ClearCuesByTime_loses_live_cue :
    (webvtt_region_ClearCuesByTime
      { webvtt_region_Init with
        b_scroll_up := true
        p_cues := List.replicate 16 .null ++
          [.live { one_line_cue 0 with i_stop := 5 },
           .live { one_line_cue 1 with i_stop := 100 }] } 10).map
      (fun r => r.p_cues)
    = .ok (List.replicate 16 .null ++ [.invalid, .null]) := by
  decide

/-- C4 (evaluation at the failing input). The payload `a\nb` makes one text
node holding one newline, and the line count is 1, not 2. -/
theorem C4_lines_ignore_newlines :
    (CreateDomNodes ['a', '\n', 'b']).map (fun b => (b.nodes.map (fun n => n.psz_text), b.i_lines))
    = .ok ([some ['a', '\n', 'b']], 1) := by
  decide

/-- C6 (evaluation at the failing input). For `<b><v Alice>foo</b>bar` the
node of `bar` (index 3) is the `p_next` of the root `b` (index 0), hence a
top-level node, and its `p_parent` is `b`, not null. -/
theorem C6_root_sibling_has_parent :
    (CreateDomNodes "<b><v Alice>foo</b>bar".toList).map
      (fun b => (b.p_head, b.nodes.map (fun n => (n.psz_text, n.p_parent, n.p_next, n.p_child))))
    = .ok (some 0,
        [(none, none, some 3, some 1),
         (none, some 0, none, some 2),
         (some "foo".toList, some 1, none, none),
         (some "bar".toList, some 0, none, none)]) := by
  rfl

/-- C8 (evaluation at the failing input). In an empty scrolling region of 18
lines, 18 insertions of one-line cues succeed and fill the 18 slots; the 19th
makes `webvtt_region_Reduce` delete the cue of slot 0 and keep its pointer,
which `webvtt_region_CountLines` then reads. -/
theorem C8_nineteenth_insert_faults :
    (AddCue_all (scroll_region 18) ((List.range 18).map fun i => one_line_cue i)).map
        (fun r => slot_starts r.p_cues)
      = .ok ((List.range 18).map fun i => some (i : Int)) ∧
    AddCue_all (scroll_region 18) ((List.range 19).map fun i => one_line_cue i)
      = .error .bad_pointer := by
  constructor <;> decide

/-- C9 (evaluation at the failing input). For `<b><v Alice>foo</b>bar` the
segments are `foo`, bold with the colour of ` Alice`, and `bar`, which is bold
too: its node has `p_parent = b`. -/
theorem C9_trailing_text_is_bold :
    segments_of_payload plain_externals "<b><v Alice>foo</b>bar".toList
    = .ok
      [{ psz_text := "foo".toList
         style := some
          { i_style_flags := STYLE_BOLD
            i_features := STYLE_HAS_FONT_COLOR ||| STYLE_HAS_FLAGS
            i_font_color := (0x7F7F7F ||| attrs_hash " Alice".toList) &&& 0xFFFFFF } },
       { psz_text := "bar".toList
         style := some
          { i_style_flags := STYLE_BOLD
            i_features := STYLE_HAS_FLAGS
            i_font_color := 0 } }] := by
  rfl

/-! ### Insertion into a region -/

theorem ClearCues_loop_valid (l : List cue_ptr) (h : ∀ p ∈ l, p ≠ cue_ptr.invalid) :
    ClearCues_loop l = .ok (List.replicate l.length .null) := by
  induction l with
  | nil => rfl
  | cons x xs ih =>
    have hx : x ≠ cue_ptr.invalid := h x (List.mem_cons_self _ _)
    have hxs := ih (fun p hp => h p (List.mem_cons_of_mem _ hp))
    cases x with
    | invalid => exact absurd rfl hx
    | null => simp [ClearCues_loop, hxs, List.replicate_succ]
    | live c => simp [ClearCues_loop, hxs, List.replicate_succ]

theorem AddCue_no_scroll (r : webvtt_region_t) (c : webvtt_dom_cue_t)
    (hs : r.b_scroll_up = false) (hlen : r.p_cues.length = 18)
    (hv : ∀ p ∈ r.p_cues, p ≠ cue_ptr.invalid) :
    webvtt_region_AddCue r c
      = .ok { r with p_cues := List.replicate 17 .null ++ [.live c] } := by
  simp only [webvtt_region_AddCue, hs, webvtt_region_ClearCues, ClearCues_loop_valid _ hv,
    hlen, store_last, if_true]
  rfl

/-- C2. On a region that does not scroll and whose 18 slots hold cues or
nothing, `webvtt_region_AddCue` returns the region with the new cue in slot 17
and the 17 other slots empty. -/
theorem C2_AddCue_no_scroll_single_cue (r : webvtt_region_t) (c : webvtt_dom_cue_t)
    (hs : r.b_scroll_up = false) (hlen : r.p_cues.length = 18)
    (hv : ∀ p ∈ r.p_cues, p ≠ cue_ptr.invalid) :
    webvtt_region_AddCue r c
      = .ok { r with p_cues := List.replicate 17 .null ++ [.live c] } :=
  AddCue_no_scroll r c hs hlen hv

/-- Witness of C2: a region that does not scroll and holds two cues receives a
third one. -/
theorem C2_AddCue_no_scroll_single_cue_witness :
    webvtt_region_AddCue
        { webvtt_region_Init with
          p_cues := List.replicate 16 .null ++ [.live (one_line_cue 0), .live (one_line_cue 1)] }
        (one_line_cue 2)
      = .ok
        { webvtt_region_Init with
          p_cues := List.replicate 17 .null ++ [.live (one_line_cue 2)] } :=
  C2_AddCue_no_scroll_single_cue _ _ rfl rfl (by decide)

/-! ### Line budget of a scrolling region -/

theorem Reduced_loop_lines (fuel : Nat) :
    ∀ (c : webvtt_dom_cue_t) (p : Option Nat) (c' : webvtt_dom_cue_t),
      Reduced_loop fuel c p = .ok (some c') →
      c'.i_lines = (c.i_lines + UINT_RANGE - 1) % UINT_RANGE := by
  induction fuel with
  | zero => intro c p c' h; simp [Reduced_loop] at h
  | succ n ih =>
    intro c p c' h
    cases p with
    | none => simp [Reduced_loop] at h
    | some i =>
      simp only [Reduced_loop] at h
      split at h
      · simp at h
      · rename_i node hnode
        split at h
        · exact ih _ _ _ h
        · rename_i text htext
          split at h
          · simp at h
          · split at h
            · simp at h
            · split at h
              · simp at h
              · simp only [Except.ok.injEq, Option.some.injEq] at h
                subst h
                rfl
          · have := ih _ _ _ h
            simpa using this

theorem Reduced_lines_lt (c c' : webvtt_dom_cue_t)
    (h : webvtt_dom_cue_Reduced c = .ok (some c')) : c'.i_lines < c.i_lines := by
  unfold webvtt_dom_cue_Reduced at h
  split at h
  · simp at h
  · rename_i hgt
    have := Reduced_loop_lines _ _ _ _ h
    rw [this]
    have h1 : 1 < c.i_lines := by omega
    have h2 : (c.i_lines + UINT_RANGE - 1) % UINT_RANGE = (c.i_lines - 1) % UINT_RANGE := by
      have : c.i_lines + UINT_RANGE - 1 = (c.i_lines - 1) + UINT_RANGE := by omega
      rw [this, Nat.add_mod_right]
    rw [h2]
    exact lt_of_le_of_lt (Nat.mod_le _ _) (by omega)

theorem AddCue_fit_cue_lines (r : webvtt_region_t) (fuel : Nat) :
    ∀ (c c' : webvtt_dom_cue_t), AddCue_fit_cue r fuel c = .ok (some c') →
      c'.i_lines ≤ c.i_lines := by
  induction fuel with
  | zero => intro c c' h; simp [AddCue_fit_cue] at h
  | succ n ih =>
    intro c c' h
    simp only [AddCue_fit_cue] at h
    split at h
    · split at h
      · simp at h
      · simp at h
      · rename_i c1 hc1
        have := ih _ _ h
        have := Reduced_lines_lt _ _ hc1
        omega
    · simp only [Except.ok.injEq, Option.some.injEq] at h
      subst h
      exact le_refl _

theorem CountLines_loop_eq (l : List cue_ptr) :
    ∀ (acc n : Nat), acc < UINT_RANGE → CountLines_loop l acc = .ok n →
      n = (acc + lines_sum l) % UINT_RANGE := by
  induction l with
  | nil =>
    intro acc n hacc h
    simp only [CountLines_loop, Except.ok.injEq] at h
    simp [lines_sum, ← h, Nat.mod_eq_of_lt hacc]
  | cons x xs ih =>
    intro acc n hacc h
    cases x with
    | null =>
      simp only [CountLines_loop] at h
      simpa [lines_sum] using ih _ _ hacc h
    | invalid => simp [CountLines_loop] at h
    | live c =>
      simp only [CountLines_loop] at h
      have := ih _ _ (Nat.mod_lt _ (by decide)) h
      rw [this]
      simp [lines_sum, Nat.add_assoc]

theorem lines_sum_append (a b : List cue_ptr) :
    lines_sum (a ++ b) = lines_sum a + lines_sum b := by
  induction a with
  | nil => simp [lines_sum]
  | cons x xs ih =>
    cases x <;> simp [lines_sum, ih, Nat.add_assoc]

theorem lines_sum_take_le (l : List cue_ptr) : ∀ n, lines_sum (l.take n) ≤ lines_sum l := by
  induction l with
  | nil => intro n; simp [lines_sum]
  | cons x xs ih =>
    intro n
    cases n with
    | zero => simp [lines_sum]
    | succ m =>
      have := ih m
      cases x <;> simp [lines_sum] <;> omega

theorem lines_sum_set_le (l : List cue_ptr) (c : webvtt_dom_cue_t) :
    ∀ i, lines_sum (l.set i (.live c)) ≤ lines_sum l + c.i_lines := by
  induction l with
  | nil => intro i; simp [lines_sum]
  | cons x xs ih =>
    intro i
    cases i with
    | zero => cases x <;> simp [lines_sum] <;> omega
    | succ j =>
      have := ih j
      cases x <;> simp [lines_sum] <;> omega

theorem Reduce_first_le (l : List cue_ptr) :
    ∀ l', Reduce_first l = .ok l' →
      lines_sum l' ≤ lines_sum l ∧ l'.length = l.length := by
  induction l with
  | nil => intro l' h; simp [Reduce_first] at h; subst h; simp
  | cons x xs ih =>
    intro l' h
    cases x with
    | null =>
      simp only [Reduce_first] at h
      split at h
      · rename_i r hr
        simp only [Except.ok.injEq] at h
        subst h
        have := ih _ hr
        simpa [lines_sum] using this
      · simp at h
    | invalid => simp [Reduce_first] at h
    | live c =>
      simp only [Reduce_first] at h
      split at h
      · simp only [Except.ok.injEq] at h
        subst h
        simp [lines_sum]
      · rename_i c1 hc1
        simp only [Except.ok.injEq] at h
        subst h
        have := Reduced_lines_lt _ _ hc1
        simp [lines_sum]
        omega
      · simp at h

theorem Reduce_le (r r' : webvtt_region_t) (h : webvtt_region_Reduce r = .ok r') :
    lines_sum r'.p_cues ≤ lines_sum r.p_cues ∧ r'.p_cues.length = r.p_cues.length ∧
      r'.i_lines_max_scroll = r.i_lines_max_scroll := by
  unfold webvtt_region_Reduce at h
  split at h
  · simp at h
  · rename_i c rest hcues
    simp only [Except.ok.injEq] at h
    subst h
    simp [hcues, lines_sum]
  · simp at h
  · rename_i rest hcues
    split at h
    · rename_i l' hl'
      simp only [Except.ok.injEq] at h
      subst h
      have := Reduce_first_le _ _ hl'
      simpa [hcues] using this
    · simp at h

theorem AddCue_fit_region_spec (c : webvtt_dom_cue_t) (fuel : Nat) :
    ∀ (r r' : webvtt_region_t), AddCue_fit_region c fuel r = .ok r' →
      (∃ n, webvtt_region_CountLines r' = .ok n ∧
        (n + c.i_lines) % UINT_RANGE ≤ r'.i_lines_max_scroll) ∧
      lines_sum r'.p_cues ≤ lines_sum r.p_cues ∧ r'.p_cues.length = r.p_cues.length ∧
      r'.i_lines_max_scroll = r.i_lines_max_scroll := by
  induction fuel with
  | zero => intro r r' h; simp [AddCue_fit_region] at h
  | succ k ih =>
    intro r r' h
    simp only [AddCue_fit_region] at h
    split at h
    · simp at h
    · rename_i n hn
      split at h
      · rename_i hgt
        split at h
        · simp at h
        · rename_i r1 hr1
          obtain ⟨h1, h2, h3, h4⟩ := ih _ _ h
          obtain ⟨g1, g2, g3⟩ := Reduce_le _ _ hr1
          exact ⟨h1, by omega, by omega, by omega⟩
      · rename_i hle
        simp only [Except.ok.injEq] at h
        subst h
        exact ⟨⟨n, hn, by omega⟩, le_refl _, rfl, rfl⟩

theorem ScrollUp_spec (r r' : webvtt_region_t) (h : webvtt_region_ScrollUp r = .ok r')
    (hlen : r.p_cues.length = 18) :
    lines_sum r'.p_cues ≤ lines_sum r.p_cues ∧ r'.p_cues.length = 18 ∧
      r'.i_lines_max_scroll = r.i_lines_max_scroll := by
  unfold webvtt_region_ScrollUp at h
  split at h
  · simp at h
  · simp at h
  · rename_i x rest hx hcues
    simp only [Except.ok.injEq] at h
    subst h
    rw [hcues] at hlen
    simp only [List.length_cons] at hlen
    have h1 := lines_sum_take_le rest (WEBVTT_REGION_LINES_COUNT - 1)
    have h2 : lines_sum rest ≤ lines_sum (x :: rest) := by
      cases x <;> simp [lines_sum]
    refine ⟨?_, ?_, rfl⟩
    · simp only [lines_sum_append, hcues]
      simp [lines_sum]
      omega
    · simp [WEBVTT_REGION_LINES_COUNT]
      omega

/-- On a scrolling region of 18 slots whose lines, with those of the new cue,
fit an `unsigned`, a `webvtt_region_AddCue` that returns either has deleted the
cue in its first loop and left the region as it was, or has stored the
(reduced) cue in slot 17, and then the lines of the occupied slots sum to at
most `i_lines_max_scroll`. -/
theorem AddCue_line_budget (r r' : webvtt_region_t) (c : webvtt_dom_cue_t)
    (hs : r.b_scroll_up = true) (hlen : r.p_cues.length = 18)
    (hfit : lines_sum r.p_cues + c.i_lines < UINT_RANGE)
    (h : webvtt_region_AddCue r c = .ok r') :
    (AddCue_fit_cue r (c.i_lines + 1) c = .ok none ∧ r' = r) ∨
    (∃ c', AddCue_fit_cue r (c.i_lines + 1) c = .ok (some c') ∧
      r'.p_cues[17]? = some (.live c') ∧
      r'.i_lines_max_scroll = r.i_lines_max_scroll ∧
      lines_sum r'.p_cues ≤ r'.i_lines_max_scroll) := by
  simp only [webvtt_region_AddCue, hs] at h
  simp only [Bool.true_eq_false, if_false] at h
  split at h
  · simp at h
  · rename_i hnone
    simp only [Except.ok.injEq] at h
    exact Or.inl ⟨hnone, h.symm⟩
  · rename_i c' hc'
    right
    split at h
    · simp at h
    · rename_i r2 hr2
      split at h
      · simp at h
      · rename_i r3 hr3
        simp only [Except.ok.injEq] at h
        subst h
        obtain ⟨⟨n, hn, hle⟩, hsum2, hlen2, hmax2⟩ := AddCue_fit_region_spec _ _ _ _ hr2
        obtain ⟨hsum3, hlen3, hmax3⟩ := ScrollUp_spec _ _ hr3 (by omega)
        have hc := AddCue_fit_cue_lines _ _ _ _ hc'
        have hn' := CountLines_loop_eq _ _ _ (by decide) hn
        simp only [Nat.zero_add] at hn'
        rw [Nat.mod_eq_of_lt (by omega)] at hn'
        rw [Nat.mod_eq_of_lt (by omega)] at hle
        have hset := lines_sum_set_le r3.p_cues c' (WEBVTT_REGION_LINES_COUNT - 1)
        refine ⟨c', hc', ?_, ?_, ?_⟩
        · simp only [store_last, WEBVTT_REGION_LINES_COUNT]
          rw [List.getElem?_set_self (by omega)]
        · simp only [store_last]
          omega
        · simp only [store_last]
          omega

theorem lines_sum_le_length (l : List cue_ptr)
    (h : ∀ c, cue_ptr.live c ∈ l → c.i_lines ≤ 1) : lines_sum l ≤ l.length := by
  induction l with
  | nil => simp [lines_sum]
  | cons x xs ih =>
    have hxs := ih (fun c hc => h c (List.mem_cons_of_mem _ hc))
    cases x with
    | null => simp only [lines_sum, List.length_cons]; omega
    | invalid => simp only [lines_sum, List.length_cons]; omega
    | live c =>
      have hc := h c (List.mem_cons_self _ _)
      simp only [lines_sum, List.length_cons]
      omega

/-- In a scrolling region whose cues have at most one line, as `ProcessCue`
builds them, a cue of at most one line is not reduced by the first loop of
`webvtt_region_AddCue`; when the call returns, the cue is in slot 17 and the
lines of the occupied slots sum to at most `i_lines_max_scroll`. -/
theorem AddCue_line_budget_built (r r' : webvtt_region_t) (c : webvtt_dom_cue_t)
    (hs : r.b_scroll_up = true) (hlen : r.p_cues.length = 18)
    (hmax : 1 ≤ r.i_lines_max_scroll) (hc : c.i_lines ≤ 1)
    (hslots : ∀ c0, cue_ptr.live c0 ∈ r.p_cues → c0.i_lines ≤ 1)
    (h : webvtt_region_AddCue r c = .ok r') :
    r'.p_cues[17]? = some (.live c) ∧ lines_sum r'.p_cues ≤ r.i_lines_max_scroll := by
  have hsum := lines_sum_le_length r.p_cues hslots
  have hfit : lines_sum r.p_cues + c.i_lines < UINT_RANGE := by
    simp only [UINT_RANGE]
    omega
  have hfitc : AddCue_fit_cue r (c.i_lines + 1) c = .ok (some c) := by
    simp only [AddCue_fit_cue]
    rw [if_neg (by omega)]
  rcases AddCue_line_budget r r' c hs hlen hfit h with ⟨hnone, -⟩ | ⟨c', hc', h17, hmax', hsum'⟩
  · rw [hfitc] at hnone
    exact absurd hnone (by simp)
  · rw [hfitc] at hc'
    simp only [Except.ok.injEq, Option.some.injEq] at hc'
    subst hc'
    exact ⟨h17, by omega⟩

/-- C1 (evaluation at the failing input). Eighteen cues of one line, each as
`ProcessCue` builds it from the payload `a`, fill the scrolling region of 18
lines: 18 lines for a budget of 18.  Adding a nineteenth makes 19 > 18:
`webvtt_region_Reduce` deletes the cue of slot 0 and leaves its pointer in the
slot, and the next count of the loop reads the deleted cue.  The call does not
end with a region whose lines are within the budget. -/
theorem C1_full_region_budget_lost :
    cue_of_payload ['a'] 18 28 = .ok (one_line_cue 18) ∧
    AddCue_all (scroll_region 18) ((List.range 18).map fun i => one_line_cue i)
      = .ok full_region ∧
    full_region.b_scroll_up = true ∧ full_region.i_lines_max_scroll = 18 ∧
    webvtt_region_CountLines full_region = .ok 18 ∧
    AddCue_fit_cue full_region 2 (one_line_cue 18) = .ok (some (one_line_cue 18)) ∧
    webvtt_region_AddCue full_region (one_line_cue 18) = .error .bad_pointer := by
  refine ⟨by decide, by decide, rfl, rfl, by decide, by decide, by decide⟩

/-! ### Text and children exclude each other -/

theorem text_xor_child_set_append (nodes : List webvtt_domnode_t) (i : Nat)
    (owner node : webvtt_domnode_t) (h : text_xor_child nodes)
    (ho : owner.psz_text = none ∨ owner.p_child = none)
    (hn : node.psz_text = none ∨ node.p_child = none) :
    text_xor_child (nodes.set i owner ++ [node]) := by
  intro x hx
  rcases List.mem_append.1 hx with hx | hx
  · rcases List.mem_or_eq_of_mem_set hx with hx | hx
    · exact h x hx
    · exact hx ▸ ho
  · simp only [List.mem_singleton] at hx
    exact hx ▸ hn

theorem link_new_inv (st st' : dom_builder) (node : webvtt_domnode_t)
    (hinv : builder_inv st) (hn : node.p_child = none) (h : link_new st node = .ok st') :
    text_xor_child st'.nodes ∧ st'.nodes.length = st.nodes.length + 1 ∧
      st'.nodes[st.nodes.length]? = some node ∧ st'.p_parent = st.p_parent := by
  obtain ⟨h1, h2⟩ := hinv
  unfold link_new at h
  split at h
  · simp only [Except.ok.injEq] at h
    subst h
    refine ⟨?_, by simp, by simp, rfl⟩
    intro x hx
    rcases List.mem_append.1 hx with hx | hx
    · exact h1 x hx
    · simp only [List.mem_singleton] at hx
      exact hx ▸ Or.inr hn
  · rename_i i hpp
    split at h
    · rename_i owner ho
      simp only [Except.ok.injEq] at h
      subst h
      refine ⟨?_, by simp, ?_, rfl⟩
      · apply text_xor_child_set_append _ _ _ _ h1 _ (Or.inr hn)
        exact h1 owner (List.getElem?_mem ho)
      · rw [List.getElem?_append_right (by simp)]
        simp
    · simp at h
  · rename_i i hpp
    split at h
    · rename_i owner ho
      simp only [Except.ok.injEq] at h
      subst h
      refine ⟨?_, by simp, ?_, rfl⟩
      · apply text_xor_child_set_append _ _ _ _ h1 _ (Or.inr hn)
        exact Or.inl (h2 i owner hpp ho)
      · rw [List.getElem?_append_right (by simp)]
        simp
    · simp at h

theorem append_end_is_next (nodes : List webvtt_domnode_t) (p_head : Option Nat) (fuel : Nat) :
    ∀ (i : Nat) (pp : append_slot), append_end nodes p_head fuel (.next i) = .ok pp →
      ∃ j, pp = .next j := by
  induction fuel with
  | zero => intro i pp h; simp [append_end] at h
  | succ n ih =>
    intro i pp h
    simp only [append_end] at h
    split at h
    · simp at h
    · simp only [Except.ok.injEq] at h
      exact ⟨i, h.symm⟩
    · exact ih _ _ h

theorem CreateDomNodes_text_inv (st st' : dom_builder) (psz_text psz_tag : List Char)
    (hinv : builder_inv st) (h : CreateDomNodes_text st psz_text psz_tag = .ok st') :
    builder_inv st' := by
  unfold CreateDomNodes_text at h
  split at h
  · simp only [bind_eq_ok, pure_eq_ok] at h
    obtain ⟨text, -, n, -, st1, hst1, h⟩ := h
    subst h
    obtain ⟨g1, -, -, -⟩ := link_new_inv _ _ _ hinv rfl hst1
    refine ⟨g1, ?_⟩
    intro i node hpp
    simp at hpp
  · simp only [pure_eq_ok] at h
    exact h ▸ hinv

theorem CreateDomNodes_open_inv (st st' : dom_builder) (psz_tag psz_taglast : List Char)
    (hinv : builder_inv st) (h : CreateDomNodes_open st psz_tag psz_taglast = .ok st') :
    builder_inv st' := by
  unfold CreateDomNodes_open at h
  simp only [bind_eq_ok, pure_eq_ok] at h
  obtain ⟨⟨psz_name, psz_attrs⟩, -, tag, -, attrs, -, st1, hst1, h⟩ := h
  subst h
  obtain ⟨g1, g2, g3, -⟩ := link_new_inv _ _ _ hinv rfl hst1
  refine ⟨g1, ?_⟩
  intro i node hpp hnode
  simp only [append_slot.child.injEq] at hpp
  subst hpp
  simp only at hnode
  rw [g3] at hnode
  simp only [Option.some.injEq] at hnode
  subst hnode
  rfl

theorem close_start_is_next (found p_head : Option Nat) (start : append_slot)
    (h : close_start found p_head = .ok start) : ∃ j, start = .next j := by
  unfold close_start at h
  split at h
  · simp only [Except.ok.injEq] at h
    exact ⟨_, h.symm⟩
  · split at h
    · simp only [Except.ok.injEq] at h
      exact ⟨_, h.symm⟩
    · simp at h

theorem CreateDomNodes_close_inv (st st' : dom_builder) (p_parent : Nat) (psz_tag : List Char)
    (hinv : builder_inv st) (h : CreateDomNodes_close st p_parent psz_tag = .ok st') :
    builder_inv st' := by
  unfold CreateDomNodes_close at h
  simp only [bind_eq_ok, pure_eq_ok] at h
  obtain ⟨⟨psz_name, psz_attrs⟩, -, tagname, -, parent, -, found, -, start, hstart, pp, hpp, h⟩ := h
  subst h
  refine ⟨hinv.1, ?_⟩
  intro i node hi
  obtain ⟨j, hj⟩ := close_start_is_next _ _ _ hstart
  subst hj
  obtain ⟨k, hk⟩ := append_end_is_next _ _ _ _ _ hpp
  simp only at hi
  rw [hk] at hi
  simp at hi

theorem CreateDomNodes_loop_inv (fuel : Nat) :
    ∀ (st st' : dom_builder) (psz_text : List Char), builder_inv st →
      CreateDomNodes_loop fuel st psz_text = .ok st' → text_xor_child st'.nodes := by
  induction fuel with
  | zero => intro st st' t _ h; simp [CreateDomNodes_loop] at h
  | succ n ih =>
    intro st st' t hinv h
    simp only [CreateDomNodes_loop] at h
    split at h
    · simp at h
    · split at h
      · simp only [Except.ok.injEq] at h
        exact h ▸ hinv.1
      · split at h
        · simp at h
        · rename_i psz_tag psz_taglast hfind
          split at h
          · simp at h
          · rename_i st1 hst1
            have hinv1 := CreateDomNodes_text_inv _ _ _ _ hinv hst1
            split at h
            · simp at h
            · split at h
              · simp at h
              · rename_i st2 hst2
                exact ih _ _ _ (CreateDomNodes_open_inv _ _ _ _ hinv1 hst2) h
            · split at h
              · split at h
                · simp at h
                · rename_i st2 hst2
                  exact ih _ _ _ (CreateDomNodes_close_inv _ _ _ _ hinv1 hst2) h
              · simp only [Except.ok.injEq] at h
                exact h ▸ hinv1.1
        · split at h
          · simp at h
          · split at h
            · simp at h
            · split at h
              · simp at h
              · rename_i st1 hst1
                simp only [Except.ok.injEq] at h
                subst h
                exact (link_new_inv _ _ _ hinv rfl hst1).1

theorem Reduced_loop_inv (fuel : Nat) :
    ∀ (c c' : webvtt_dom_cue_t) (p : Option Nat), text_xor_child c.nodes →
      Reduced_loop fuel c p = .ok (some c') → text_xor_child c'.nodes := by
  induction fuel with
  | zero => intro c c' p _ h; simp [Reduced_loop] at h
  | succ n ih =>
    intro c c' p hinv h
    cases p with
    | none => simp [Reduced_loop] at h
    | some i =>
      simp only [Reduced_loop] at h
      split at h
      · simp at h
      · rename_i node hnode
        have hmem : node ∈ c.nodes := List.getElem?_mem hnode
        split at h
        · exact ih _ _ _ hinv h
        · rename_i text htext
          have hchild : node.p_child = none := by
            rcases hinv node hmem with h1 | h1
            · rw [htext] at h1; simp at h1
            · exact h1
          have hset : ∀ t, text_xor_child (c.nodes.set i { node with psz_text := t }) := by
            intro t x hx
            rcases List.mem_or_eq_of_mem_set hx with hx | hx
            · exact hinv x hx
            · subst hx
              exact Or.inr hchild
          split at h
          · simp at h
          · split at h
            · simp at h
            · split at h
              · simp at h
              · simp only [Except.ok.injEq, Option.some.injEq] at h
                subst h
                exact hset _
          · exact ih _ _ _ (hset none) h

/-- C7. No node of the store built by `CreateDomNodes` has both a text and a
child, and the cue `webvtt_dom_cue_Reduced` returns for a cue with this
property has it too; this is the condition asserted by
`webvtt_domnode_RecursiveDelete`. -/
theorem C7_text_xor_child :
    (∀ (psz : List Char) (b : dom_builder), CreateDomNodes psz = .ok b →
      text_xor_child b.nodes) ∧
    (∀ (c c' : webvtt_dom_cue_t), text_xor_child c.nodes →
      webvtt_dom_cue_Reduced c = .ok (some c') → text_xor_child c'.nodes) := by
  constructor
  · intro psz b h
    refine CreateDomNodes_loop_inv _ _ _ _ ⟨?_, ?_⟩ h
    · intro x hx; simp at hx
    · intro i node hpp; simp at hpp
  · intro c c' hinv h
    unfold webvtt_dom_cue_Reduced at h
    split at h
    · simp at h
    · exact Reduced_loop_inv _ _ _ _ hinv h

/-- Witness of C7: the forest of `a<b>c</b>` and the reduction of a two-line
cue. -/
theorem C7_text_xor_child_witness :
    text_xor_child (nodes_of (CreateDomNodes "a<b>c</b>".toList)) ∧
    text_xor_child (cue_nodes (webvtt_dom_cue_Reduced (two_line_cue 0))) :=
  ⟨C7_text_xor_child.1 "a<b>c</b>".toList _ rfl,
   C7_text_xor_child.2 (two_line_cue 0) _ (by unfold text_xor_child; decide) rfl⟩

/-! ### Strings -/

theorem strchr_skip (T rest : List Char) (x : Char) (h : ∀ c ∈ T, c ≠ x ∧ c ≠ NUL) :
    strchr (T ++ rest) x = strchr rest x := by
  induction T with
  | nil => rfl
  | cons c cs ih =>
    have hc := h c (List.mem_cons_self _ _)
    simp only [List.cons_append, strchr, hc.1, hc.2, if_false]
    exact ih (fun d hd => h d (List.mem_cons_of_mem _ hd))

theorem strndup_take (T rest : List Char) (h : ∀ c ∈ T, c ≠ NUL) :
    strndup (T ++ rest) T.length = .ok T := by
  induction T with
  | nil => simp [strndup]
  | cons c cs ih =>
    have hc := h c (List.mem_cons_self _ _)
    have ih' := ih (fun d hd => h d (List.mem_cons_of_mem _ hd))
    simp only [List.cons_append, List.length_cons, strndup, hc, if_false]
    simp only [List.append_eq] at ih' ⊢
    rw [ih']

theorem strndup_all (T : List Char) (h : ∀ c ∈ T, c ≠ NUL) :
    strndup T T.length = .ok T := by
  have := strndup_take T [] h
  simpa using this

theorem strchr_c_str (s : List Char) (x : Char) :
    strchr (c_str s) x = .ok none ∨
      ∃ s', strchr (c_str s) x = .ok (some (c_str s')) ∧ s'.length ≤ s.length := by
  induction s with
  | nil =>
    by_cases hx : NUL = x
    · right
      exact ⟨[], by simp [c_str, strchr, hx], le_refl _⟩
    · left
      simp [c_str, strchr, hx]
  | cons c cs ih =>
    by_cases hc : c = x
    · right
      exact ⟨c :: cs, by simp [c_str, strchr, hc], le_refl _⟩
    · by_cases h0 : c = NUL
      · left
        subst h0
        simp [c_str, strchr, hc]
      · rcases ih with ih | ⟨s', h1, h2⟩
        · left
          simpa [c_str, strchr, hc, h0] using ih
        · right
          refine ⟨s', ?_, by simp; omega⟩
          simpa [c_str, strchr, hc, h0] using h1

theorem CountNewLines_loop_zero (fuel : Nat) :
    ∀ (s : List Char) (i : Nat), s.length + 1 < fuel →
      CountNewLines_loop fuel (some (c_str s)) i = .ok i := by
  induction fuel with
  | zero => intro s i h; omega
  | succ n ih =>
    intro s i h
    cases s with
    | nil => simp [CountNewLines_loop, c_str, deref]
    | cons c cs =>
      simp only [CountNewLines_loop, c_str, deref, List.cons_append, List.tail_cons]
      split
      · rfl
      · rcases strchr_c_str cs '\n' with h1 | ⟨s', h1, h2⟩
        · simp only [c_str] at h1
          rw [h1]
          cases n with
          | zero => simp at h
          | succ m => simp [CountNewLines_loop]
        · simp only [c_str] at h1
          rw [h1]
          exact ih s' i (by simp at h; omega)

theorem CountNewLines_zero (s : List Char) : CountNewLines s = .ok 0 := by
  unfold CountNewLines
  apply CountNewLines_loop_zero
  simp [c_str]

theorem lines_add_eq (i_lines : Nat) (text : List Char) :
    lines_add i_lines text
      = .ok ((i_lines + ((if i_lines = 0 then 1 else 0) + 0) % UINT_RANGE) % UINT_RANGE) := by
  simp [lines_add, CountNewLines_zero]

theorem to_size_t_natCast (n : Nat) : to_size_t (n : Int) = n := by
  simp [to_size_t]

/-! ### The payload `T1<b>T2</b>` -/

theorem ptr_diff_append (T p : List Char) : ptr_diff p (T ++ p) = (T.length : Int) := by
  simp [ptr_diff]

theorem FindNextTag_open_b (T R : List Char) (h : ∀ c ∈ T, c ≠ '<' ∧ c ≠ NUL) :
    FindNextTag (T ++ '<' :: 'b' :: '>' :: R)
      = .ok (some ('<' :: 'b' :: '>' :: R, '>' :: R)) := by
  have hd : ptr_diff ('>' :: R) ('<' :: 'b' :: '>' :: R) + 1 = ((3 : Nat) : Int) := by
    simp [ptr_diff]; omega
  have e1 : ¬ ('b' = '>') := by decide
  have e2 : ¬ ('b' = NUL) := by decide
  unfold FindNextTag
  rw [strchr_skip T _ '<' h]
  simp only [strchr, if_true, List.tail_cons, if_neg e1, if_neg e2]
  simp only [hd, to_size_t_natCast]
  simp [IsEndTag]

theorem FindNextTag_close_b (T R : List Char) (h : ∀ c ∈ T, c ≠ '<' ∧ c ≠ NUL) :
    FindNextTag (T ++ '<' :: '/' :: 'b' :: '>' :: R)
      = .ok (some ('<' :: '/' :: 'b' :: '>' :: R, '>' :: R)) := by
  have hd : ptr_diff ('>' :: R) ('<' :: '/' :: 'b' :: '>' :: R) + 1 = ((4 : Nat) : Int) := by
    simp [ptr_diff]; omega
  have e1 : ¬ ('b' = '>') := by decide
  have e2 : ¬ ('b' = NUL) := by decide
  have e3 : ¬ ('/' = '>') := by decide
  have e4 : ¬ ('/' = NUL) := by decide
  unfold FindNextTag
  rw [strchr_skip T _ '<' h]
  simp only [strchr, if_true, List.tail_cons, if_neg e1, if_neg e2, if_neg e3, if_neg e4]
  simp only [hd, to_size_t_natCast]
  simp

theorem SplitTag_open_b (R : List Char) :
    SplitTag ('<' :: 'b' :: '>' :: R) = .ok ('b' :: '>' :: R, '>' :: R) := by
  simp [SplitTag, IsEndTag, ptr_add, SplitTag_scan, isblank, ispunct, bind, Except.bind, pure,
    Except.pure]

theorem SplitTag_close_b (R : List Char) :
    SplitTag ('<' :: '/' :: 'b' :: '>' :: R) = .ok ('b' :: '>' :: R, '>' :: R) := by
  simp [SplitTag, IsEndTag, ptr_add, SplitTag_scan, isblank, ispunct, bind, Except.bind, pure,
    Except.pure]

theorem strndup_name_b (R : List Char) :
    strndup ('b' :: '>' :: R) (to_size_t (ptr_diff ('>' :: R) ('b' :: '>' :: R))) = .ok ['b'] := by
  have hd : ptr_diff ('>' :: R) ('b' :: '>' :: R) = ((1 : Nat) : Int) := by
    simp [ptr_diff]
  rw [hd, to_size_t_natCast]
  simp [strndup, NUL]

theorem CreateDomNodes_text_some (st : dom_builder) (T tag : List Char) (hT : T ≠ [])
    (h : ∀ c ∈ T, c ≠ NUL) :
    CreateDomNodes_text st (T ++ tag) tag =
      match link_new st { webvtt_domnode_New st.p_parent with psz_text := some T } with
      | .error e => .error e
      | .ok st' =>
        .ok { st' with
          i_lines := (st.i_lines + ((if st.i_lines = 0 then 1 else 0) + 0) % UINT_RANGE)
            % UINT_RANGE
          pp_append := .next st.nodes.length } := by
  have hpos : (0 : Int) < (T.length : Int) := by
    have := List.length_pos.2 hT
    omega
  unfold CreateDomNodes_text
  rw [ptr_diff_append, if_pos hpos, to_size_t_natCast, strndup_take T tag h]
  simp only [bind, Except.bind, pure, Except.pure, lines_add_eq]
  cases link_new st { webvtt_domnode_New st.p_parent with psz_text := some T } <;> rfl

theorem CreateDomNodes_text_none (st : dom_builder) (tag : List Char) :
    CreateDomNodes_text st tag tag = .ok st := by
  simp [CreateDomNodes_text, ptr_diff, pure, Except.pure]

theorem open_attrs_none (p : List Char) : open_attrs p p = .ok none := by
  simp [open_attrs, ptr_diff]

theorem deref_append_ne_NUL (T rest : List Char) (hT : T ≠ []) (h : ∀ c ∈ T, c ≠ NUL) :
    ∃ c, deref (T ++ rest) = .ok c ∧ c ≠ NUL := by
  cases T with
  | nil => exact absurd rfl hT
  | cons a as => exact ⟨a, rfl, h a (List.mem_cons_self _ _)⟩

theorem CreateDomNodes_loop_open_b (fuel : Nat) (st st1 st2 : dom_builder) (T R : List Char)
    (hT : T ≠ []) (h : ∀ c ∈ T, c ≠ '<' ∧ c ≠ NUL)
    (h1 : CreateDomNodes_text st (T ++ '<' :: 'b' :: '>' :: R) ('<' :: 'b' :: '>' :: R) = .ok st1)
    (h2 : CreateDomNodes_open st1 ('<' :: 'b' :: '>' :: R) ('>' :: R) = .ok st2) :
    CreateDomNodes_loop (fuel + 1) st (T ++ '<' :: 'b' :: '>' :: R)
      = CreateDomNodes_loop fuel st2 R := by
  obtain ⟨a, ha, ha'⟩ := deref_append_ne_NUL T ('<' :: 'b' :: '>' :: R) hT (fun c hc => (h c hc).2)
  simp only [CreateDomNodes_loop, ha, ha', if_false, FindNextTag_open_b _ _ h, h1, h2, IsEndTag]
  simp

theorem CreateDomNodes_loop_close_b (fuel : Nat) (st st1 st2 : dom_builder) (T R : List Char)
    (p_parent : Nat) (hT : T ≠ []) (h : ∀ c ∈ T, c ≠ '<' ∧ c ≠ NUL)
    (h1 : CreateDomNodes_text st (T ++ '<' :: '/' :: 'b' :: '>' :: R)
      ('<' :: '/' :: 'b' :: '>' :: R) = .ok st1)
    (hp : st1.p_parent = some p_parent)
    (h2 : CreateDomNodes_close st1 p_parent ('<' :: '/' :: 'b' :: '>' :: R) = .ok st2) :
    CreateDomNodes_loop (fuel + 1) st (T ++ '<' :: '/' :: 'b' :: '>' :: R)
      = CreateDomNodes_loop fuel st2 R := by
  obtain ⟨a, ha, ha'⟩ := deref_append_ne_NUL T ('<' :: '/' :: 'b' :: '>' :: R) hT
    (fun c hc => (h c hc).2)
  simp only [CreateDomNodes_loop, ha, ha', if_false, FindNextTag_close_b _ _ h, h1, IsEndTag]
  simp [hp, h2]

theorem CreateDomNodes_loop_end (fuel : Nat) (st : dom_builder) :
    CreateDomNodes_loop (fuel + 1) st [NUL] = .ok st := by
  simp [CreateDomNodes_loop, deref]

theorem CreateDomNodes_simple (T1 T2 : List Char) (hT1 : T1 ≠ []) (hT2 : T2 ≠ [])
    (h1 : ∀ c ∈ T1, c ≠ '<' ∧ c ≠ NUL) (h2 : ∀ c ∈ T2, c ≠ '<' ∧ c ≠ NUL) :
    CreateDomNodes (T1 ++ ['<', 'b', '>'] ++ T2 ++ ['<', '/', 'b', '>'])
      = .ok
        { nodes := simple_nodes T1 T2
          p_head := some 0
          pp_append := .next 1
          p_parent := none
          i_lines := 1 } := by
  have hP : c_str (T1 ++ ['<', 'b', '>'] ++ T2 ++ ['<', '/', 'b', '>'])
      = T1 ++ '<' :: 'b' :: '>' :: (T2 ++ '<' :: '/' :: 'b' :: '>' :: [NUL]) := by
    simp [c_str]
  have hfuel : ∃ n, (T1 ++ '<' :: 'b' :: '>' :: (T2 ++ '<' :: '/' :: 'b' :: '>' :: [NUL])).length + 1
      = n + 1 + 1 + 1 := ⟨T1.length + T2.length + 6, by simp; omega⟩
  obtain ⟨n, hn⟩ := hfuel
  unfold CreateDomNodes
  rw [hP, hn]
  rw [CreateDomNodes_loop_open_b (n + 1 + 1) _
    { nodes := [{ webvtt_domnode_New none with psz_text := some T1 }]
      p_head := some 0, pp_append := .next 0, p_parent := none, i_lines := 1 }
    { nodes := [{ webvtt_domnode_New none with psz_text := some T1, p_next := some 1 },
        { webvtt_domnode_New none with psz_tag := some ['b'] }]
      p_head := some 0, pp_append := .child 1, p_parent := some 1, i_lines := 1 }
    T1 _ hT1 h1]
  rw [CreateDomNodes_loop_close_b (n + 1) _
    { nodes := [{ webvtt_domnode_New none with psz_text := some T1, p_next := some 1 },
        { webvtt_domnode_New none with psz_tag := some ['b'], p_child := some 2 },
        { webvtt_domnode_New (some 1) with psz_text := some T2 }]
      p_head := some 0, pp_append := .next 2, p_parent := some 1, i_lines := 1 }
    { nodes := [{ webvtt_domnode_New none with psz_text := some T1, p_next := some 1 },
        { webvtt_domnode_New none with psz_tag := some ['b'], p_child := some 2 },
        { webvtt_domnode_New (some 1) with psz_text := some T2 }]
      p_head := some 0, pp_append := .next 1, p_parent := none, i_lines := 1 }
    T2 _ 1 hT2 h2]
  · rw [CreateDomNodes_loop_end]
    rfl
  · rw [CreateDomNodes_text_some _ _ _ hT2 (fun c hc => (h2 c hc).2)]
    simp [link_new, webvtt_domnode_New, UINT_RANGE]
  · rfl
  · simp [CreateDomNodes_close, SplitTag_close_b, strndup_name_b, bind, Except.bind, pure,
      Except.pure, node_at, webvtt_domnode_getParentByTag, getParentByTag_loop, close_start,
      append_end, slot_read, webvtt_domnode_New]
  · rw [CreateDomNodes_text_some _ _ _ hT1 (fun c hc => (h1 c hc).2)]
    simp [link_new, webvtt_domnode_New, UINT_RANGE]
  · simp [CreateDomNodes_open, SplitTag_open_b, strndup_name_b, open_attrs_none, bind,
      Except.bind, pure, Except.pure, link_new, webvtt_domnode_New]

theorem ClearCuesByTime_loop_nulls (i_time : Int) (n : Nat) :
    ∀ (i : Nat) (p_cues : List cue_ptr), (∀ j, i ≤ j → j < i + n → p_cues[j]? = some .null) →
      ClearCuesByTime_loop i_time n i p_cues = .ok p_cues := by
  induction n with
  | zero => intro i p_cues _; rfl
  | succ k ih =>
    intro i p_cues h
    simp only [ClearCuesByTime_loop, h i (le_refl _) (by omega)]
    exact ih (i + 1) p_cues (fun j h1 h2 => h j (by omega) (by omega))

theorem ClearCuesByTime_empty (r : webvtt_region_t) (i_time : Int)
    (h : r.p_cues = List.replicate 18 .null) :
    webvtt_region_ClearCuesByTime r i_time = .ok r := by
  unfold webvtt_region_ClearCuesByTime
  rw [ClearCuesByTime_loop_nulls]
  · intro j _ hj
    rw [h]
    simp only [WEBVTT_REGION_LINES_COUNT] at hj
    rw [List.getElem?_replicate]
    simp only [Nat.zero_add] at hj
    simp [hj]

theorem ExpireCues_loop_empty (i_time : Int) (named : List webvtt_region_t)
    (h : ∀ r ∈ named, r.p_cues = List.replicate 18 .null) :
    ExpireCues_loop i_time named = .ok named := by
  induction named with
  | nil => rfl
  | cons r rs ih =>
    simp only [ExpireCues_loop, ClearCuesByTime_empty r i_time (h r (List.mem_cons_self _ _)),
      ih (fun x hx => h x (List.mem_cons_of_mem _ hx))]

theorem RenderRegions_cues_nulls (X : Externals) (i_start : Int) (n : Nat)
    (rest : List cue_ptr) (acc : List text_segment_t) :
    RenderRegions_cues X i_start (List.replicate n .null ++ rest) acc
      = RenderRegions_cues X i_start rest acc := by
  induction n with
  | zero => rfl
  | succ k ih => simpa [List.replicate_succ, RenderRegions_cues] using ih

theorem RenderRegions_loop_empty (X : Externals) (i_start : Int)
    (named : List webvtt_region_t) (h : ∀ r ∈ named, r.p_cues = List.replicate 18 .null)
    (acc : List subpicture_updater_sys_region_t) :
    RenderRegions_loop X i_start (named.map fun r => (false, r)) acc = .ok acc := by
  induction named with
  | nil => rfl
  | cons r rs ih =>
    have hr := h r (List.mem_cons_self _ _)
    have h0 : RenderRegions_cues X i_start r.p_cues [] = .ok [] := by
      rw [hr]
      have := RenderRegions_cues_nulls X i_start 18 [] []
      simp only [List.append_nil] at this
      rw [this]
      rfl
    simp only [List.map_cons, RenderRegions_loop, h0, if_true]
    exact ih (fun x hx => h x (List.mem_cons_of_mem _ hx))

theorem ConvertCueToSegments_simple (X : Externals) (T1 T2 : List Char)
    (header : webvtt_dom_cue_t)
    (hd1 : X.vlc_xml_decode T1 = T1) (hd2 : X.vlc_xml_decode T2 = T2) :
    ConvertCueToSegments X (simple_cue header T1 T2)
      = .ok [{ psz_text := T1, style := none },
          { psz_text := T2
            style := some
              { i_style_flags := STYLE_BOLD, i_features := STYLE_HAS_FLAGS, i_font_color := 0 } }] := by
  simp [ConvertCueToSegments, simple_cue, simple_nodes, ConvertNodesToSegments_loop,
    ConvertNodesToSegments_own, InheritStyles, InheritStyles_loop, InheritStyles_node,
    webvtt_domnode_New, hd1, hd2, text_style_Create_NO_DEFAULTS, STYLE_BOLD, STYLE_HAS_FLAGS]

theorem strndup_total (l : List Char) : ∃ r, strndup l l.length = .ok r := by
  induction l with
  | nil => exact ⟨[], rfl⟩
  | cons x xs ih =>
    obtain ⟨r, hr⟩ := ih
    by_cases hx : x = NUL
    · exact ⟨[], by simp [strndup, hx]⟩
    · exact ⟨x :: r, by simp [strndup, hx, hr]⟩

theorem cue_header_box_fields (X : Externals) (c : webvtt_dom_cue_t) (b : mp4_box) :
    (cue_header_box X c b).nodes = c.nodes ∧ (cue_header_box X c b).p_nodes = c.p_nodes ∧
    (cue_header_box X c b).i_lines = c.i_lines ∧ (cue_header_box X c b).i_start = c.i_start ∧
    (cue_header_box X c b).i_stop = c.i_stop := by
  unfold cue_header_box
  split
  · exact ⟨rfl, rfl, rfl, rfl, rfl⟩
  · split
    · exact ⟨rfl, rfl, rfl, rfl, rfl⟩
    · split <;> exact ⟨rfl, rfl, rfl, rfl, rfl⟩

theorem cue_header_fields (X : Externals) (boxes : List mp4_box) :
    ∀ (c : webvtt_dom_cue_t),
      (cue_header X c boxes).nodes = c.nodes ∧ (cue_header X c boxes).p_nodes = c.p_nodes ∧
      (cue_header X c boxes).i_lines = c.i_lines ∧ (cue_header X c boxes).i_start = c.i_start ∧
      (cue_header X c boxes).i_stop = c.i_stop := by
  induction boxes with
  | nil => intro c; exact ⟨rfl, rfl, rfl, rfl, rfl⟩
  | cons b bs ih =>
    intro c
    obtain ⟨h1, h2, h3, h4, h5⟩ := ih (cue_header_box X c b)
    obtain ⟨g1, g2, g3, g4, g5⟩ := cue_header_box_fields X c b
    simp only [cue_header, List.foldl_cons] at h1 h2 h3 h4 h5 ⊢
    exact ⟨h1.trans g1, h2.trans g2, h3.trans g3, h4.trans g4, h5.trans g5⟩

theorem ProcessISOBMFF_inner_header (X : Externals) (c : webvtt_dom_cue_t) (b : mp4_box)
    (h : b.i_type ≠ ATOM_payl ∨ c.p_nodes.isSome = true) :
    ProcessISOBMFF_inner X c b = .ok (cue_header_box X c b) := by
  obtain ⟨psz, hpsz⟩ := strndup_total b.p_payload
  have e21 : ¬ (ATOM_sttg = ATOM_iden) := by decide
  have e31 : ¬ (ATOM_payl = ATOM_iden) := by decide
  have e32 : ¬ (ATOM_payl = ATOM_sttg) := by decide
  unfold ProcessISOBMFF_inner cue_header_box
  rw [hpsz]
  by_cases h1 : b.i_type = ATOM_iden
  · simp only [h1, if_true]
  · by_cases h2 : b.i_type = ATOM_sttg
    · simp only [h2, e21, if_true, if_false]
    · by_cases h3 : b.i_type = ATOM_payl
      · rcases h with h | h
        · exact absurd h3 h
        · simp only [h3, e31, e32, if_true, if_false, ProcessCue, h]
      · simp only [h1, h2, h3, if_false]

theorem foldlM_inner_header (X : Externals) (boxes : List mp4_box) :
    ∀ (c : webvtt_dom_cue_t),
      ((∀ b ∈ boxes, b.i_type ≠ ATOM_payl) ∨ c.p_nodes.isSome = true) →
      boxes.foldlM (ProcessISOBMFF_inner X) c = .ok (cue_header X c boxes) := by
  induction boxes with
  | nil => intro c _; rfl
  | cons b bs ih =>
    intro c h
    have hb : b.i_type ≠ ATOM_payl ∨ c.p_nodes.isSome = true := by
      rcases h with h | h
      · exact Or.inl (h b (List.mem_cons_self _ _))
      · exact Or.inr h
    have hbs : (∀ x ∈ bs, x.i_type ≠ ATOM_payl) ∨
        (cue_header_box X c b).p_nodes.isSome = true := by
      rcases h with h | h
      · exact Or.inl (fun x hx => h x (List.mem_cons_of_mem _ hx))
      · exact Or.inr (by rw [(cue_header_box_fields X c b).2.1]; exact h)
    simp only [List.foldlM, ProcessISOBMFF_inner_header X c b hb, bind, Except.bind]
    exact ih _ hbs

theorem cue_header_box_simple (X : Externals) (c : webvtt_dom_cue_t) (T1 T2 : List Char)
    (b : mp4_box) :
    cue_header_box X (simple_cue c T1 T2) b = simple_cue (cue_header_box X c b) T1 T2 := by
  unfold cue_header_box
  split
  · rfl
  · split
    · rfl
    · split <;> rfl

theorem cue_header_simple (X : Externals) (T1 T2 : List Char) (boxes : List mp4_box) :
    ∀ (c : webvtt_dom_cue_t),
      cue_header X (simple_cue c T1 T2) boxes = simple_cue (cue_header X c boxes) T1 T2 := by
  induction boxes with
  | nil => intro c; rfl
  | cons b bs ih =>
    intro c
    simp only [cue_header, List.foldl_cons] at ih ⊢
    rw [cue_header_box_simple, ih]

theorem ProcessISOBMFF_inner_simple (X : Externals) (T1 T2 : List Char) (c : webvtt_dom_cue_t)
    (hc : c.p_nodes = none)
    (hT1 : T1 ≠ []) (hT2 : T2 ≠ [])
    (h1 : ∀ c ∈ T1, c ≠ '<' ∧ c ≠ NUL) (h2 : ∀ c ∈ T2, c ≠ '<' ∧ c ≠ NUL) :
    ProcessISOBMFF_inner X c ⟨ATOM_payl, T1 ++ ['<', 'b', '>'] ++ T2 ++ ['<', '/', 'b', '>']⟩
      = .ok (simple_cue c T1 T2) := by
  have hnul : ∀ c ∈ T1 ++ ['<', 'b', '>'] ++ T2 ++ ['<', '/', 'b', '>'], c ≠ NUL := by
    intro c hc
    simp only [List.mem_append, List.mem_cons, List.mem_singleton, List.not_mem_nil,
      or_false] at hc
    rcases hc with ((hc | hc) | hc) | hc
    · exact (h1 c hc).2
    · rcases hc with hc | hc | hc <;> subst hc <;> decide
    · exact (h2 c hc).2
    · rcases hc with hc | hc | hc | hc <;> subst hc <;> decide
  have e1 : ATOM_payl ≠ ATOM_iden := by decide
  have e2 : ATOM_payl ≠ ATOM_sttg := by decide
  simp only [ProcessISOBMFF_inner, strndup_all _ hnul, if_neg e1, if_neg e2, if_true, ProcessCue,
    hc, Option.isSome_none, CreateDomNodes_simple T1 T2 hT1 hT2 h1 h2]
  rfl

theorem foldlM_inner_simple (X : Externals) (T1 T2 : List Char) (c : webvtt_dom_cue_t)
    (pre post : List mp4_box) (hc : c.p_nodes = none)
    (hpre : ∀ b ∈ pre, b.i_type ≠ ATOM_payl)
    (hT1 : T1 ≠ []) (hT2 : T2 ≠ [])
    (h1 : ∀ c ∈ T1, c ≠ '<' ∧ c ≠ NUL) (h2 : ∀ c ∈ T2, c ≠ '<' ∧ c ≠ NUL) :
    (pre ++ ⟨ATOM_payl, T1 ++ ['<', 'b', '>'] ++ T2 ++ ['<', '/', 'b', '>']⟩ :: post).foldlM
        (ProcessISOBMFF_inner X) c
      = .ok (simple_cue (cue_header X c (pre ++ post)) T1 T2) := by
  have hc1 : (cue_header X c pre).p_nodes = none := by
    rw [(cue_header_fields X pre c).2.1]; exact hc
  rw [List.foldlM_append, foldlM_inner_header X pre c (Or.inl hpre)]
  simp only [bind, Except.bind, List.foldlM,
    ProcessISOBMFF_inner_simple X T1 T2 _ hc1 hT1 hT2 h1 h2]
  rw [foldlM_inner_header X post (simple_cue (cue_header X c pre) T1 T2) (Or.inr rfl),
    cue_header_simple]
  simp only [cue_header, List.foldl_append]

theorem RenderRegions_cues_single (X : Externals) (i_start : Int) (c : webvtt_dom_cue_t) :
    RenderRegions_cues X i_start (List.replicate 17 .null ++ [.live c]) []
      = if c.i_start > i_start ∨ c.i_stop ≤ i_start then .ok []
        else ConvertCueToSegments X c := by
  rw [RenderRegions_cues_nulls]
  simp only [RenderRegions_cues]
  split
  · rfl
  · cases ConvertCueToSegments X c with
    | error e => rfl
    | ok p_new =>
      by_cases hp : p_new = [] <;> simp [hp, RenderRegions_cues]

theorem ProcessISOBMFF_add_default (p_sys : decoder_sys_t) (p_cue : webvtt_dom_cue_t)
    (r : webvtt_region_t) (h : p_cue.settings.psz_region = none)
    (hadd : webvtt_region_AddCue p_sys.regions p_cue = .ok r) :
    ProcessISOBMFF_add p_sys p_cue = .ok { p_sys with regions := r } := by
  simp only [ProcessISOBMFF_add, h, webvtt_region_GetByID, Option.getD, hadd]

theorem foldlM_single {α β : Type} (f : β → α → Run β) (b : β) (a : α) :
    [a].foldlM f b = f b a := by
  simp only [List.foldlM, bind, Except.bind, pure, Except.pure]
  cases f b a <;> rfl

/-- C10. A fresh decoder (default region as initialised, named regions without
cues) receives a block whose single `vttc` box holds the `payl` box
`T1<b>T2</b>`, where `T1` and `T2` are not empty, have no `<` and no entity; the
other boxes of the `vttc` box, none of them a `payl` before this one, give the
cue no region.  `DecodeBlock` stores the cue, with the interval
`[i_pts, i_pts + i_length)`, in slot 17 of the default region and queues a
subpicture of one updater region, aligned at the bottom, with the segments `T1`
without style and `T2` in bold.  A later `RenderRegions` at a time not before
`i_pts + i_length` queues nothing.  The times are `mtime_t` values and the end
of the interval, `i_pts + i_length`, is one too. -/
theorem C10_decode_simple_cue (X : Externals) (T1 T2 p_buffer p_payload : List Char)
    (pre post : List mp4_box) (i_dts i_pts i_length : Int) (named : List webvtt_region_t)
    (hT1 : T1 ≠ []) (hT2 : T2 ≠ [])
    (h1 : ∀ c ∈ T1, c ≠ '<' ∧ c ≠ NUL) (h2 : ∀ c ∈ T2, c ≠ '<' ∧ c ≠ NUL)
    (hd1 : X.vlc_xml_decode T1 = T1) (hd2 : X.vlc_xml_decode T2 = T2)
    (hlen : 0 < i_length)
    (hpts : INT64_MIN ≤ i_pts) (hstop : i_pts + i_length ≤ INT64_MAX)
    (hout : X.mp4_box_iterator p_buffer = [⟨ATOM_vttc, p_payload⟩])
    (hin : X.mp4_box_iterator p_payload
      = pre ++ ⟨ATOM_payl, T1 ++ ['<', 'b', '>'] ++ T2 ++ ['<', '/', 'b', '>']⟩ :: post)
    (hpre : ∀ b ∈ pre, b.i_type ≠ ATOM_payl)
    (hregion : (cue_header X (webvtt_dom_cue_New i_pts (i_pts + i_length))
      (pre ++ post)).settings.psz_region = none)
    (hnamed : ∀ r ∈ named, r.p_cues = List.replicate 18 .null) :
    DecodeBlock X ⟨webvtt_region_Init, named⟩ (some ⟨p_buffer, i_dts, i_pts, i_length⟩)
      = .ok
        (⟨default_region_with
            (simple_cue (cue_header X (webvtt_dom_cue_New i_pts (i_pts + i_length))
              (pre ++ post)) T1 T2), named⟩,
         some (simple_subpicture T1 T2 i_pts (i_pts + i_length))) ∧
    (simple_cue (cue_header X (webvtt_dom_cue_New i_pts (i_pts + i_length))
      (pre ++ post)) T1 T2).i_start = i_pts ∧
    (simple_cue (cue_header X (webvtt_dom_cue_New i_pts (i_pts + i_length))
      (pre ++ post)) T1 T2).i_stop = i_pts + i_length ∧
    ∀ t t' : Int, i_pts + i_length ≤ t →
      RenderRegions X
        ⟨default_region_with
          (simple_cue (cue_header X (webvtt_dom_cue_New i_pts (i_pts + i_length))
            (pre ++ post)) T1 T2), named⟩
        t t' = .ok none := by
  obtain ⟨-, -, -, hstart, hend⟩ :=
    cue_header_fields X (pre ++ post) (webvtt_dom_cue_New i_pts (i_pts + i_length))
  generalize hH : cue_header X (webvtt_dom_cue_New i_pts (i_pts + i_length)) (pre ++ post) = H
    at hregion hstart hend ⊢
  have hs : (simple_cue H T1 T2).i_start = i_pts := hstart
  have he : (simple_cue H T1 T2).i_stop = i_pts + i_length := hend
  have hsum : mtime_add i_pts i_length = .ok (i_pts + i_length) := by
    simp only [mtime_add]
    rw [if_pos ⟨by omega, hstop⟩]
  refine ⟨?_, hs, he, ?_⟩
  · have hexp : ExpireCues ⟨webvtt_region_Init, named⟩ i_dts = .ok ⟨webvtt_region_Init, named⟩ := by
      simp only [ExpireCues, ClearCuesByTime_empty webvtt_region_Init i_dts rfl,
        ExpireCues_loop_empty i_dts named hnamed]
    have e1 : ATOM_vttc = ATOM_vttc ∨ ATOM_vttc = ATOM_vttx := Or.inl rfl
    have hadd : webvtt_region_AddCue webvtt_region_Init (simple_cue H T1 T2)
        = .ok (default_region_with (simple_cue H T1 T2)) :=
      AddCue_no_scroll _ _ rfl rfl (by decide)
    have hproc : ProcessISOBMFF X ⟨webvtt_region_Init, named⟩ p_buffer i_pts (i_pts + i_length)
        = .ok ⟨default_region_with (simple_cue H T1 T2), named⟩ := by
      unfold ProcessISOBMFF
      rw [hout, foldlM_single]
      unfold ProcessISOBMFF_box
      rw [if_pos e1]
      simp only [hin, foldlM_inner_simple X T1 T2 (webvtt_dom_cue_New i_pts (i_pts + i_length))
        pre post rfl hpre hT1 hT2 h1 h2, hH]
      exact ProcessISOBMFF_add_default _ (simple_cue H T1 T2) _ hregion hadd
    have hact : ¬ ((simple_cue H T1 T2).i_start > i_pts ∨
        (simple_cue H T1 T2).i_stop ≤ i_pts) := by
      rw [hs, he]
      omega
    have hrender : RenderRegions X ⟨default_region_with (simple_cue H T1 T2), named⟩
        i_pts (i_pts + i_length)
        = .ok (some (simple_subpicture T1 T2 i_pts (i_pts + i_length))) := by
      simp only [RenderRegions, RenderRegions_loop, default_region_with,
        RenderRegions_cues_single, if_neg hact, ConvertCueToSegments_simple X T1 T2 _ hd1 hd2]
      simp only [List.cons_ne_nil, if_false, List.nil_append,
        RenderRegions_loop_empty X i_pts named hnamed, font_relsize_value]
      rfl
    simp only [DecodeBlock, hexp, hsum, hproc, hrender]
  · intro t t' ht
    have hact : (simple_cue H T1 T2).i_start > t ∨ (simple_cue H T1 T2).i_stop ≤ t :=
      Or.inr (by rw [he]; exact ht)
    simp only [RenderRegions, RenderRegions_loop, default_region_with,
      RenderRegions_cues_single, if_pos hact, if_true,
      RenderRegions_loop_empty X t named hnamed]

/-- Witness of C10: the scenario `Hello <b>world</b>` at 1,000,000 for
2,000,000, in a cue box that also has an identifier and the setting
`align:start`, rendered again at 3,000,001. -/
theorem C10_decode_simple_cue_witness :
    DecodeBlock scenario_externals ⟨webvtt_region_Init, []⟩
        (some ⟨"blk".toList, 1000000, 1000000, 2000000⟩)
      = .ok
        (⟨default_region_with
            (simple_cue
              (cue_header scenario_externals (webvtt_dom_cue_New 1000000 (1000000 + 2000000))
                ([⟨ATOM_iden, "1".toList⟩, ⟨ATOM_sttg, "align:start".toList⟩] ++ []))
              "Hello ".toList "world".toList), []⟩,
         some (simple_subpicture "Hello ".toList "world".toList 1000000 (1000000 + 2000000))) ∧
    RenderRegions scenario_externals
        ⟨default_region_with
          (simple_cue
            (cue_header scenario_externals (webvtt_dom_cue_New 1000000 (1000000 + 2000000))
              ([⟨ATOM_iden, "1".toList⟩, ⟨ATOM_sttg, "align:start".toList⟩] ++ []))
            "Hello ".toList "world".toList), []⟩ 3000001 5000001 = .ok none :=
  ⟨(C10_decode_simple_cue scenario_externals "Hello ".toList "world".toList "blk".toList
      "in".toList [⟨ATOM_iden, "1".toList⟩, ⟨ATOM_sttg, "align:start".toList⟩] []
      1000000 1000000 2000000 [] (by decide) (by decide) (by decide) (by decide)
      rfl rfl (by decide) (by decide) (by decide)
      rfl rfl (by decide) rfl (by simp)).1,
   (C10_decode_simple_cue scenario_externals "Hello ".toList "world".toList "blk".toList
      "in".toList [⟨ATOM_iden, "1".toList⟩, ⟨ATOM_sttg, "align:start".toList⟩] []
      1000000 1000000 2000000 [] (by decide) (by decide) (by decide) (by decide)
      rfl rfl (by decide) (by decide) (by decide)
      rfl rfl (by decide) rfl (by simp)).2.2.2 3000001 5000001 (by decide)⟩

/-- When `i_pts + i_length` is above `INT64_MAX` the sum that `DecodeBlock`
passes on is an overflow of `mtime_t`: the call has no defined result, and
nothing is said of a cue or of a subpicture. -/
theorem DecodeBlock_stop_overflow (X : Externals) (named : List webvtt_region_t)
    (p_buffer : List Char) (i_dts i_pts i_length : Int)
    (hnamed : ∀ r ∈ named, r.p_cues = List.replicate 18 .null)
    (h : INT64_MAX < i_pts + i_length) :
    DecodeBlock X ⟨webvtt_region_Init, named⟩ (some ⟨p_buffer, i_dts, i_pts, i_length⟩)
      = .error .overflow := by
  have hexp : ExpireCues ⟨webvtt_region_Init, named⟩ i_dts = .ok ⟨webvtt_region_Init, named⟩ := by
    simp only [ExpireCues, ClearCuesByTime_empty webvtt_region_Init i_dts rfl,
      ExpireCues_loop_empty i_dts named hnamed]
  have hsum : mtime_add i_pts i_length = .error .overflow := by
    simp only [mtime_add]
    rw [if_neg (by omega)]
  simp only [DecodeBlock, hexp, hsum]

/-! ### Document order of the built forest -/

theorem slot_write_length (nodes : List webvtt_domnode_t) (m : Nat) (s : append_slot) :
    (slot_write nodes m s).length = nodes.length := by
  cases s with
  | head => rfl
  | next k => simp only [slot_write]; split <;> simp
  | child k => simp only [slot_write]; split <;> simp

theorem slot_write_other (nodes : List webvtt_domnode_t) (m : Nat) (s : append_slot) (j : Nat)
    (h : slot_owner s ≠ some j) : (slot_write nodes m s)[j]? = nodes[j]? := by
  cases s with
  | head => rfl
  | next k =>
    have hk : k ≠ j := fun e => h (by simp [slot_owner, e])
    simp only [slot_write]
    split
    · rw [List.getElem?_set_ne hk]
    · rfl
  | child k =>
    have hk : k ≠ j := fun e => h (by simp [slot_owner, e])
    simp only [slot_write]
    split
    · rw [List.getElem?_set_ne hk]
    · rfl

theorem getElem?_append_new (l : List webvtt_domnode_t) (new : webvtt_domnode_t) (j : Nat)
    (h : j < l.length) : (l ++ [new])[j]? = l[j]? :=
  List.getElem?_append_left h

theorem represents_frame (nodes nodes' : List webvtt_domnode_t) :
    ∀ (t : dom_shape) (p : Option Nat), represents nodes p t →
      (∀ i ∈ shape_ids t, nodes'[i]? = nodes[i]?) → represents nodes' p t := by
  intro t
  induction t with
  | nil =>
    intro p h _
    cases p with
    | none => simp [represents]
    | some p => simp [represents] at h
  | node i c n ihc ihn =>
    intro p h hsame
    cases p with
    | none => simp [represents] at h
    | some p =>
      simp only [represents] at h ⊢
      obtain ⟨hp, h⟩ := h
      refine ⟨hp, ?_⟩
      rw [hsame i (by simp [shape_ids])]
      cases hn : nodes[i]? with
      | none => rw [hn] at h; exact h.elim
      | some node =>
        rw [hn] at h
        exact ⟨ihc _ h.1 (fun j hj => hsame j (by simp [shape_ids, hj])),
          ihn _ h.2 (fun j hj => hsame j (by simp [shape_ids, hj]))⟩

theorem shape_slot_owner :
    ∀ (t : dom_shape) (d : Nat) (s0 : append_slot), t ≠ .nil →
      ∃ k ∈ shape_ids t, slot_owner (shape_slot t d s0) = some k := by
  intro t
  induction t with
  | nil => intro d s0 h; exact absurd rfl h
  | node i c n ihc ihn =>
    intro d s0 _
    cases n with
    | nil =>
      cases d with
      | zero => exact ⟨i, by simp [shape_ids], by simp [shape_slot, slot_owner]⟩
      | succ d' =>
        cases c with
        | nil => exact ⟨i, by simp [shape_ids], by simp [shape_slot, slot_owner]⟩
        | node j c2 n2 =>
          obtain ⟨k, hk, hs⟩ := ihc d' (.child i) (by simp)
          exact ⟨k, by simp [shape_ids] at hk ⊢; tauto, by simpa [shape_slot] using hs⟩
    | node j c2 n2 =>
      obtain ⟨k, hk, hs⟩ := ihn d (.next i) (by simp)
      exact ⟨k, by simp [shape_ids] at hk ⊢; tauto, by simpa [shape_slot] using hs⟩

theorem shape_ids_add :
    ∀ (t : dom_shape) (d m : Nat), shape_ids (shape_add t d m) = shape_ids t ++ [m] := by
  intro t
  induction t with
  | nil => intro d m; simp [shape_add, shape_ids]
  | node i c n ihc ihn =>
    intro d m
    cases n with
    | nil =>
      cases d with
      | zero => simp [shape_add, shape_ids]
      | succ d' => simp [shape_add, shape_ids, ihc]
    | node j c2 n2 =>
      simp only [shape_add, shape_ids] at ihn ⊢
      simp [ihn]

theorem represents_nil (nodes : List webvtt_domnode_t) (p : Option Nat)
    (h : represents nodes p .nil) : p = none := by
  cases p with
  | none => rfl
  | some p => simp [represents] at h

theorem added_new (nodes : List webvtt_domnode_t) (new : webvtt_domnode_t) (s : append_slot) :
    (slot_write nodes nodes.length s ++ [new])[nodes.length]? = some new := by
  rw [List.getElem?_append_right (by rw [slot_write_length])]
  simp [slot_write_length]

theorem added_other (nodes : List webvtt_domnode_t) (new : webvtt_domnode_t) (s : append_slot)
    (j : Nat) (hj : j < nodes.length) (h : slot_owner s ≠ some j) :
    (slot_write nodes nodes.length s ++ [new])[j]? = nodes[j]? := by
  rw [List.getElem?_append_left (by rw [slot_write_length]; exact hj)]
  exact slot_write_other _ _ _ _ h

theorem added_next (nodes : List webvtt_domnode_t) (new node : webvtt_domnode_t) (i : Nat)
    (h : nodes[i]? = some node) :
    (slot_write nodes nodes.length (.next i) ++ [new])[i]?
      = some { node with p_next := some nodes.length } := by
  have hi : i < nodes.length := (List.getElem?_eq_some.1 h).1
  rw [List.getElem?_append_left (by rw [slot_write_length]; exact hi)]
  simp only [slot_write, h]
  rw [List.getElem?_set_self hi]

theorem added_child (nodes : List webvtt_domnode_t) (new node : webvtt_domnode_t) (i : Nat)
    (h : nodes[i]? = some node) :
    (slot_write nodes nodes.length (.child i) ++ [new])[i]?
      = some { node with p_child := some nodes.length } := by
  have hi : i < nodes.length := (List.getElem?_eq_some.1 h).1
  rw [List.getElem?_append_left (by rw [slot_write_length]; exact hi)]
  simp only [slot_write, h]
  rw [List.getElem?_set_self hi]

theorem represents_add (nodes : List webvtt_domnode_t) (new : webvtt_domnode_t)
    (hc : new.p_child = none) (hn : new.p_next = none) :
    ∀ (t : dom_shape) (p : Option Nat) (s0 : append_slot) (d : Nat),
      represents nodes p t → (shape_ids t).Nodup → (∀ i ∈ shape_ids t, i < nodes.length) →
      represents (slot_write nodes nodes.length (shape_slot t d s0) ++ [new])
        (match t with
          | .nil => some nodes.length
          | .node _ _ _ => p)
        (shape_add t d nodes.length) := by
  intro t
  induction t with
  | nil =>
    intro p s0 d _ _ _
    simp only [shape_add, represents, added_new, hc, hn, true_and]
  | node i c n ihc ihn =>
    intro p s0 d h hnd hlt
    cases p with
    | none => simp [represents] at h
    | some p =>
      simp only [represents] at h
      obtain ⟨hp, h⟩ := h
      subst hp
      cases hnode : nodes[p]? with
      | none => rw [hnode] at h; exact h.elim
      | some nd =>
        rw [hnode] at h
        obtain ⟨hrc, hrn⟩ := h
        simp only [shape_ids, List.nodup_cons, List.mem_append, not_or, List.nodup_append] at hnd
        obtain ⟨⟨hpc, hpn⟩, hndc, hndn, hdisj⟩ := hnd
        have hltc : ∀ j ∈ shape_ids c, j < nodes.length :=
          fun j hj => hlt j (by simp [shape_ids, hj])
        have hltn : ∀ j ∈ shape_ids n, j < nodes.length :=
          fun j hj => hlt j (by simp [shape_ids, hj])
        cases n with
        | nil =>
          have hnext : nd.p_next = none := represents_nil _ _ hrn
          cases d with
          | zero =>
            simp only [shape_slot, shape_add, represents, added_next _ _ _ _ hnode, added_new,
              hc, hn, true_and, and_true]
            apply represents_frame _ _ _ _ hrc
            intro j hj
            apply added_other _ _ _ _ (hltc j hj)
            simp only [slot_owner, ne_eq, Option.some.injEq]
            rintro rfl
            exact hpc hj
          | succ d' =>
            have ih := ihc nd.p_child (.child p) d' hrc hndc hltc
            cases c with
            | nil =>
              simp only [shape_slot, shape_add, represents, added_child _ _ _ _ hnode,
                added_new, hc, hn, true_and, hnext]
            | node j c2 n2 =>
              obtain ⟨k, hk, hs⟩ := shape_slot_owner (.node j c2 n2) d' (.child p) (by simp)
              have hkp : slot_owner (shape_slot (.node j c2 n2) d' (.child p)) ≠ some p := by
                rw [hs]
                simp only [ne_eq, Option.some.injEq]
                rintro rfl
                exact hpc hk
              simp only [shape_slot, shape_add, represents, true_and]
              rw [added_other _ _ _ _ (hlt p (by simp [shape_ids])) hkp, hnode]
              simp only [hnext]
              exact ⟨ih, trivial⟩
        | node j c2 n2 =>
          have ih := ihn nd.p_next (.next p) d hrn hndn hltn
          obtain ⟨k, hk, hs⟩ := shape_slot_owner (.node j c2 n2) d (.next p) (by simp)
          have hkp : slot_owner (shape_slot (.node j c2 n2) d (.next p)) ≠ some p := by
            rw [hs]
            simp only [ne_eq, Option.some.injEq]
            rintro rfl
            exact hpn hk
          simp only [shape_slot, shape_add, represents, true_and]
          rw [added_other _ _ _ _ (hlt p (by simp [shape_ids])) hkp, hnode]
          refine ⟨?_, ih⟩
          apply represents_frame _ _ _ _ hrc
          intro x hx
          apply added_other _ _ _ _ (hltc x hx)
          rw [hs]
          simp only [ne_eq, Option.some.injEq]
          rintro rfl
          exact hdisj hx hk

theorem shape_add_ne_nil (t : dom_shape) (d m : Nat) : shape_add t d m ≠ .nil := by
  cases t with
  | nil => simp [shape_add]
  | node i c n =>
    cases n with
    | nil => cases d <;> simp [shape_add]
    | node j c2 n2 => simp [shape_add]

theorem shape_level_next (i : Nat) (c n : dom_shape) (q : Nat) (h : n ≠ .nil) :
    shape_level (.node i c n) q = if q = i then some 0 else shape_level n q := by
  cases n with
  | nil => exact absurd rfl h
  | node j c2 n2 => simp [shape_level]

theorem shape_depth_next (i : Nat) (c n : dom_shape) (h : n ≠ .nil) :
    shape_depth (.node i c n) = shape_depth n := by
  cases n with
  | nil => exact absurd rfl h
  | node j c2 n2 => simp [shape_depth]

theorem shape_slot_next (i : Nat) (c n : dom_shape) (d : Nat) (s0 : append_slot)
    (h : n ≠ .nil) : shape_slot (.node i c n) d s0 = shape_slot n d (.next i) := by
  cases n with
  | nil => exact absurd rfl h
  | node j c2 n2 => simp [shape_slot]

theorem shape_level_add_old :
    ∀ (t : dom_shape) (L m q e : Nat), shape_level t q = some e → e ≤ L →
      shape_level (shape_add t L m) q = some e := by
  intro t
  induction t with
  | nil => intro L m q e h; simp [shape_level] at h
  | node i c n ihc ihn =>
    intro L m q e h hle
    cases n with
    | nil =>
      simp only [shape_level] at h
      cases L with
      | zero =>
        simp only [shape_add]
        rw [shape_level_next _ _ _ _ (by simp)]
        split at h
        · rename_i hq; simp [hq, ← h]
        · simp only [Option.map_eq_some'] at h
          obtain ⟨a, -, ha⟩ := h
          omega
      | succ L' =>
        simp only [shape_add, shape_level]
        split at h
        · rename_i hq; simp [hq, ← h]
        · rename_i hq
          simp only [Option.map_eq_some'] at h
          obtain ⟨a, ha, hae⟩ := h
          simp only [hq, if_false]
          rw [ihc L' m q a ha (by omega)]
          simp [hae]
    | node j c2 n2 =>
      rw [shape_level_next _ _ _ _ (by simp)] at h
      simp only [shape_add]
      rw [shape_level_next _ _ _ _ (shape_add_ne_nil _ _ _)]
      split at h
      · rename_i hq; simp [hq, ← h]
      · rename_i hq
        simp only [hq, if_false]
        exact ihn L m q e h hle

theorem shape_level_add_new :
    ∀ (t : dom_shape) (L m : Nat), L ≤ shape_depth t → m ∉ shape_ids t →
      shape_level (shape_add t L m) m = some L := by
  intro t
  induction t with
  | nil =>
    intro L m hL _
    simp only [shape_depth, Nat.le_zero] at hL
    simp [shape_add, shape_level, hL]
  | node i c n ihc ihn =>
    intro L m hL hm
    simp only [shape_ids, List.mem_cons, List.mem_append, not_or] at hm
    obtain ⟨hmi, hmc, hmn⟩ := hm
    cases n with
    | nil =>
      cases L with
      | zero =>
        simp only [shape_add]
        rw [shape_level_next _ _ _ _ (by simp)]
        simp [hmi, shape_level]
      | succ L' =>
        simp only [shape_depth, Nat.add_le_add_iff_right] at hL
        simp only [shape_add, shape_level, hmi, if_false]
        rw [ihc L' m hL hmc]
        rfl
    | node j c2 n2 =>
      rw [shape_depth_next _ _ _ (by simp)] at hL
      simp only [shape_add]
      rw [shape_level_next _ _ _ _ (shape_add_ne_nil _ _ _)]
      simp only [hmi, if_false]
      exact ihn L m hL hmn

theorem shape_depth_add :
    ∀ (t : dom_shape) (L m : Nat), L ≤ shape_depth t →
      shape_depth (shape_add t L m) = L + 1 := by
  intro t
  induction t with
  | nil =>
    intro L m hL
    simp only [shape_depth, Nat.le_zero] at hL
    simp [shape_add, shape_depth, hL]
  | node i c n ihc ihn =>
    intro L m hL
    cases n with
    | nil =>
      cases L with
      | zero =>
        simp only [shape_add]
        rw [shape_depth_next _ _ _ (by simp)]
        simp [shape_depth]
      | succ L' =>
        simp only [shape_depth, Nat.add_le_add_iff_right] at hL
        simp only [shape_add, shape_depth]
        rw [ihc L' m hL]
    | node j c2 n2 =>
      rw [shape_depth_next _ _ _ (by simp)] at hL
      simp only [shape_add]
      rw [shape_depth_next _ _ _ (shape_add_ne_nil _ _ _)]
      exact ihn L m hL

theorem shape_level_lt_depth :
    ∀ (t : dom_shape) (q e : Nat), shape_level t q = some e → e < shape_depth t := by
  intro t
  induction t with
  | nil => intro q e h; simp [shape_level] at h
  | node i c n ihc ihn =>
    intro q e h
    cases n with
    | nil =>
      simp only [shape_level] at h
      simp only [shape_depth]
      split at h
      · simp only [Option.some.injEq] at h; omega
      · simp only [Option.map_eq_some'] at h
        obtain ⟨a, ha, hae⟩ := h
        have := ihc q a ha
        omega
    | node j c2 n2 =>
      rw [shape_level_next _ _ _ _ (by simp)] at h
      rw [shape_depth_next _ _ _ (by simp)]
      split at h
      · simp only [Option.some.injEq] at h
        have : 0 < shape_depth (.node j c2 n2) := by
          have := ihn j 0 (by cases n2 <;> simp [shape_level])
          exact this
        omega
      · exact ihn q e h

theorem shape_slot_add :
    ∀ (t : dom_shape) (L m : Nat) (s0 : append_slot), L ≤ shape_depth t →
      shape_slot (shape_add t L m) L s0 = .next m ∧
      shape_slot (shape_add t L m) (L + 1) s0 = .child m := by
  intro t
  induction t with
  | nil =>
    intro L m s0 hL
    simp only [shape_depth, Nat.le_zero] at hL
    subst hL
    simp [shape_add, shape_slot]
  | node i c n ihc ihn =>
    intro L m s0 hL
    cases n with
    | nil =>
      cases L with
      | zero => simp [shape_add, shape_slot]
      | succ L' =>
        simp only [shape_depth, Nat.add_le_add_iff_right] at hL
        simp only [shape_add, shape_slot]
        exact ihc L' m (.child i) hL
    | node j c2 n2 =>
      rw [shape_depth_next _ _ _ (by simp)] at hL
      simp only [shape_add]
      rw [shape_slot_next _ _ _ _ _ (shape_add_ne_nil _ _ _),
        shape_slot_next _ _ _ _ _ (shape_add_ne_nil _ _ _)]
      exact ihn L m (.next i) hL

theorem chain_levels_add (t : dom_shape) (L m : Nat) :
    ∀ (chain : List Nat) (B : Nat), B ≤ L → chain_levels t B chain →
      chain_levels (shape_add t L m) B chain := by
  intro chain
  induction chain with
  | nil => intro B _ _; trivial
  | cons q rest ih =>
    intro B hB h
    obtain ⟨e, he, heB, hrest⟩ := h
    exact ⟨e, shape_level_add_old t L m q e he (by omega), heB, ih e (by omega) hrest⟩

theorem chain_levels_mono (t : dom_shape) :
    ∀ (chain : List Nat) (B B' : Nat), B ≤ B' → chain_levels t B chain →
      chain_levels t B' chain := by
  intro chain B B' hB h
  cases chain with
  | nil => trivial
  | cons q rest =>
    obtain ⟨e, he, heB, hrest⟩ := h
    exact ⟨e, he, by omega, hrest⟩

theorem represents_node (nodes : List webvtt_domnode_t) (p : Option Nat) (i : Nat)
    (c n : dom_shape) (h : represents nodes p (.node i c n)) :
    p = some i ∧ ∃ nd, nodes[i]? = some nd ∧ represents nodes nd.p_child c ∧
      represents nodes nd.p_next n := by
  cases p with
  | none => simp [represents] at h
  | some p =>
    simp only [represents] at h
    obtain ⟨hp, h⟩ := h
    subst hp
    cases hnode : nodes[p]? with
    | none => rw [hnode] at h; exact h.elim
    | some nd =>
      rw [hnode] at h
      exact ⟨rfl, nd, rfl, h⟩

theorem shape_level_root (i : Nat) (c n : dom_shape) : shape_level (.node i c n) i = some 0 := by
  cases n <;> simp [shape_level]

theorem append_end_shape (nodes : List webvtt_domnode_t) (p_head : Option Nat) :
    ∀ (t : dom_shape) (p : Option Nat) (fuel q e : Nat) (s0 : append_slot),
      represents nodes p t → shape_level t q = some e → (shape_ids t).length < fuel →
      append_end nodes p_head fuel (.next q) = .ok (shape_slot t e s0) := by
  intro t
  induction t with
  | nil => intro p fuel q e s0 _ h; simp [shape_level] at h
  | node i c n ihc ihn =>
    intro p fuel q e s0 hr hl hf
    obtain ⟨-, nd, hnode, hrc, hrn⟩ := represents_node _ _ _ _ _ hr
    simp only [shape_ids, List.length_cons, List.length_append] at hf
    cases n with
    | nil =>
      have hnext : nd.p_next = none := represents_nil _ _ hrn
      simp only [shape_level] at hl
      split at hl
      · rename_i hq
        subst hq
        simp only [Option.some.injEq] at hl
        subst hl
        cases fuel with
        | zero => omega
        | succ f => simp [append_end, slot_read, hnode, hnext, shape_slot]
      · simp only [Option.map_eq_some'] at hl
        obtain ⟨a, ha, hae⟩ := hl
        subst hae
        simp only [shape_slot]
        exact ihc nd.p_child fuel q a (.child i) hrc ha (by omega)
    | node j c2 n2 =>
      have hnext : nd.p_next = some j := (represents_node _ _ _ _ _ hrn).1
      rw [shape_level_next _ _ _ _ (by simp)] at hl
      rw [shape_slot_next _ _ _ _ _ (by simp)]
      split at hl
      · rename_i hq
        subst hq
        simp only [Option.some.injEq] at hl
        subst hl
        cases fuel with
        | zero => omega
        | succ f =>
          simp only [append_end, slot_read, hnode, hnext]
          exact ihn nd.p_next f j 0 (.next q) hrn (shape_level_root _ _ _) (by omega)
      · exact ihn nd.p_next fuel q e (.next i) hrn hl (by omega)

theorem texts_of_append (nodes : List webvtt_domnode_t) (a b : List Nat) :
    texts_of nodes (a ++ b) = texts_of nodes a ++ texts_of nodes b := by
  induction a with
  | nil => rfl
  | cons x xs ih => simp [texts_of, ih]

theorem forest_text_shape (nodes : List webvtt_domnode_t) :
    ∀ (t : dom_shape) (p : Option Nat) (fuel : Nat), represents nodes p t →
      (shape_ids t).length < fuel →
      forest_text nodes fuel p = .ok (texts_of nodes (shape_ids t)) := by
  intro t
  induction t with
  | nil =>
    intro p fuel hr hf
    have := represents_nil _ _ hr
    subst this
    cases fuel with
    | zero => omega
    | succ f => simp [forest_text, shape_ids, texts_of]
  | node i c n ihc ihn =>
    intro p fuel hr hf
    obtain ⟨hp, nd, hnode, hrc, hrn⟩ := represents_node _ _ _ _ _ hr
    subst hp
    simp only [shape_ids, List.length_cons, List.length_append] at hf
    cases fuel with
    | zero => omega
    | succ f =>
      simp only [forest_text, hnode, ihc nd.p_child f hrc (by omega),
        ihn nd.p_next f hrn (by omega), shape_ids, texts_of, texts_of_append, Option.bind]
      simp [List.append_assoc]

theorem chain_search (nodes : List webvtt_domnode_t) (name : List Char) :
    ∀ (chain : List Nat) (p : Option Nat) (fuel : Nat), chain_linked nodes p chain →
      chain.length < fuel →
      getParentByTag_loop nodes (some name) fuel p = .ok (close_chain nodes name chain).head? ∧
      chain_linked nodes (close_chain nodes name chain).head? (close_chain nodes name chain) := by
  intro chain
  induction chain with
  | nil =>
    intro p fuel h hf
    cases p with
    | some p => simp [chain_linked] at h
    | none =>
      cases fuel with
      | zero => omega
      | succ f => simp [getParentByTag_loop, close_chain, chain_linked]
  | cons q rest ih =>
    intro p fuel h hf
    cases p with
    | none => simp [chain_linked] at h
    | some p =>
      simp only [chain_linked] at h
      obtain ⟨hp, h⟩ := h
      subst hp
      cases hnode : nodes[p]? with
      | none => rw [hnode] at h; exact h.elim
      | some nd =>
        rw [hnode] at h
        obtain ⟨htag, hrest⟩ := h
        obtain ⟨tag, htag'⟩ := Option.isSome_iff_exists.1 htag
        simp only [List.length_cons] at hf
        cases fuel with
        | zero => omega
        | succ f =>
          simp only [getParentByTag_loop, hnode, close_chain, Option.bind, htag',
            Option.getD_some, Option.isSome_some, Bool.true_and, Option.some.injEq,
            decide_eq_true_eq]
          by_cases hm : tag = name
          · simp only [hm, if_true, List.head?_cons, chain_linked, hnode, true_and]
            exact ⟨htag, hrest⟩
          · simp only [hm, if_false]
            exact ih nd.p_parent f hrest (by omega)

theorem chain_tags_close (nodes : List webvtt_domnode_t) (name : List Char) :
    ∀ (chain : List Nat),
      chain_tags nodes (close_chain nodes name chain)
        = close_stack name (chain_tags nodes chain) := by
  intro chain
  induction chain with
  | nil => rfl
  | cons q rest ih =>
    simp only [close_chain, chain_tags, List.map_cons, close_stack]
    split
    · simp [chain_tags]
    · exact ih

theorem chain_levels_close (nodes : List webvtt_domnode_t) (name : List Char) (t : dom_shape) :
    ∀ (chain : List Nat) (B : Nat), chain_levels t B chain →
      ∀ q rest, close_chain nodes name chain = q :: rest →
        ∃ e, shape_level t q = some e ∧ chain_levels t e (q :: rest) := by
  intro chain
  induction chain with
  | nil => intro B _ q rest h; simp [close_chain] at h
  | cons x xs ih =>
    intro B h q rest hc
    obtain ⟨e, he, heB, hrest⟩ := h
    simp only [close_chain] at hc
    split at hc
    · simp only [List.cons.injEq] at hc
      obtain ⟨hq, hr⟩ := hc
      subst hq hr
      exact ⟨e, he, e, he, le_refl _, hrest⟩
    · exact ih e hrest q rest hc

theorem close_chain_length (nodes : List webvtt_domnode_t) (name : List Char) :
    ∀ (chain : List Nat), (close_chain nodes name chain).length ≤ chain.length := by
  intro chain
  induction chain with
  | nil => simp [close_chain]
  | cons x xs ih =>
    simp only [close_chain]
    split
    · exact le_refl _
    · simp only [List.length_cons]; omega

theorem link_new_eq (st st1 : dom_builder) (new : webvtt_domnode_t)
    (h : link_new st new = .ok st1) :
    st1.nodes = slot_write st.nodes st.nodes.length st.pp_append ++ [new] ∧
    st1.p_head = (match st.pp_append with
      | .head => some st.nodes.length
      | _ => st.p_head) ∧
    st1.p_parent = st.p_parent ∧ st1.i_lines = st.i_lines := by
  unfold link_new at h
  split at h
  · rename_i hpp
    simp only [Except.ok.injEq] at h
    subst h
    simp [hpp, slot_write]
  · rename_i i hpp
    split at h
    · rename_i owner ho
      simp only [Except.ok.injEq] at h
      subst h
      simp [hpp, slot_write, ho]
    · simp at h
  · rename_i i hpp
    split at h
    · rename_i owner ho
      simp only [Except.ok.injEq] at h
      subst h
      simp [hpp, slot_write, ho]
    · simp at h

theorem added_fields (nodes : List webvtt_domnode_t) (new nd : webvtt_domnode_t)
    (s : append_slot) (j : Nat) (h : nodes[j]? = some nd) :
    ∃ nd', (slot_write nodes nodes.length s ++ [new])[j]? = some nd' ∧
      nd'.psz_tag = nd.psz_tag ∧ nd'.psz_text = nd.psz_text ∧ nd'.p_parent = nd.p_parent := by
  have hj : j < nodes.length := (List.getElem?_eq_some.1 h).1
  by_cases ho : slot_owner s = some j
  · cases s with
    | head => simp [slot_owner] at ho
    | next k =>
      simp only [slot_owner, Option.some.injEq] at ho
      subst ho
      exact ⟨_, added_next _ _ _ _ h, rfl, rfl, rfl⟩
    | child k =>
      simp only [slot_owner, Option.some.injEq] at ho
      subst ho
      exact ⟨_, added_child _ _ _ _ h, rfl, rfl, rfl⟩
  · exact ⟨nd, by rw [added_other _ _ _ _ hj ho, h], rfl, rfl, rfl⟩

theorem chain_linked_added (nodes : List webvtt_domnode_t) (new : webvtt_domnode_t)
    (s : append_slot) :
    ∀ (chain : List Nat) (p : Option Nat), chain_linked nodes p chain →
      chain_linked (slot_write nodes nodes.length s ++ [new]) p chain ∧
      chain_tags (slot_write nodes nodes.length s ++ [new]) chain = chain_tags nodes chain := by
  intro chain
  induction chain with
  | nil =>
    intro p h
    cases p with
    | none => simp [chain_linked, chain_tags]
    | some p => simp [chain_linked] at h
  | cons q rest ih =>
    intro p h
    cases p with
    | none => simp [chain_linked] at h
    | some p =>
      simp only [chain_linked] at h
      obtain ⟨hp, h⟩ := h
      subst hp
      cases hnode : nodes[p]? with
      | none => rw [hnode] at h; exact h.elim
      | some nd =>
        rw [hnode] at h
        obtain ⟨nd', h1, h2, -, h4⟩ := added_fields nodes new nd s p hnode
        obtain ⟨ih1, ih2⟩ := ih nd.p_parent h.2
        constructor
        · simp only [chain_linked, h1, h2, h4, true_and]
          exact ⟨h.1, ih1⟩
        · simp only [chain_tags, List.map_cons, h1, hnode, Option.bind, h2, List.cons.injEq,
            true_and]
          exact ih2

theorem texts_of_added (nodes : List webvtt_domnode_t) (new : webvtt_domnode_t)
    (s : append_slot) :
    ∀ (l : List Nat), (∀ j ∈ l, j < nodes.length) →
      texts_of (slot_write nodes nodes.length s ++ [new]) l = texts_of nodes l := by
  intro l
  induction l with
  | nil => intro _; rfl
  | cons x xs ih =>
    intro h
    have hx : x < nodes.length := h x (List.mem_cons_self _ _)
    obtain ⟨nd, hnd⟩ : ∃ nd, nodes[x]? = some nd := ⟨nodes[x], List.getElem?_eq_getElem hx⟩
    obtain ⟨nd', h1, -, h3, -⟩ := added_fields nodes new nd s x hnd
    simp only [texts_of, h1, hnd, Option.bind, h3]
    rw [ih (fun j hj => h j (List.mem_cons_of_mem _ hj))]

theorem link_step (st st1 : dom_builder) (t : dom_shape) (L : Nat) (chain : List Nat)
    (new : webvtt_domnode_t) (hinv : order_inv st t L chain)
    (hc : new.p_child = none) (hn : new.p_next = none) (h : link_new st new = .ok st1) :
    represents st1.nodes st1.p_head (shape_add t L st.nodes.length) ∧
    shape_ids (shape_add t L st.nodes.length) = List.range st1.nodes.length ∧
    st1.nodes.length = st.nodes.length + 1 ∧
    chain_linked st1.nodes st.p_parent chain ∧
    chain_levels (shape_add t L st.nodes.length) L chain ∧
    chain_tags st1.nodes chain = chain_tags st.nodes chain ∧
    texts_of st1.nodes (List.range st1.nodes.length)
      = texts_of st.nodes (List.range st.nodes.length) ++ new.psz_text.getD [] ∧
    st1.nodes[st.nodes.length]? = some new ∧ st1.p_parent = st.p_parent := by
  obtain ⟨hrep, hids, hpp, hL, hch, hlev, hlen⟩ := hinv
  obtain ⟨e1, e2, e3, -⟩ := link_new_eq _ _ _ h
  have hnodup : (shape_ids t).Nodup := by rw [hids]; exact List.nodup_range _
  have hlt : ∀ i ∈ shape_ids t, i < st.nodes.length := by
    intro i hi; rw [hids] at hi; exact List.mem_range.1 hi
  have hadd := represents_add st.nodes new hc hn t st.p_head .head L hrep hnodup hlt
  rw [← hpp, ← e1] at hadd
  have hlen1 : st1.nodes.length = st.nodes.length + 1 := by
    rw [e1]; simp [slot_write_length]
  have hrepr : represents st1.nodes st1.p_head (shape_add t L st.nodes.length) := by
    cases t with
    | nil =>
      have hs : st.pp_append = .head := hpp
      have e2' : st1.p_head = some st.nodes.length := by rw [e2, hs]
      rw [e2']
      exact hadd
    | node i c n =>
      obtain ⟨k, -, hk⟩ := shape_slot_owner (.node i c n) L .head (by simp)
      rw [← hpp] at hk
      have e2' : st1.p_head = st.p_head := by
        rw [e2]
        cases hs : st.pp_append with
        | head => rw [hs] at hk; simp [slot_owner] at hk
        | next k => rfl
        | child k => rfl
      rw [e2']
      exact hadd
  obtain ⟨g1, g2⟩ := chain_linked_added st.nodes new st.pp_append chain st.p_parent hch
  refine ⟨?_, ?_, hlen1, ?_, ?_, ?_, ?_, ?_, e3⟩
  · exact hrepr
  · rw [shape_ids_add, hids, hlen1, List.range_succ]
  · rw [e1]; exact g1
  · exact chain_levels_add t L _ chain L (le_refl _) hlev
  · rw [e1]; exact g2
  · rw [hlen1, List.range_succ, texts_of_append, e1,
      texts_of_added _ _ _ _ (fun j hj => List.mem_range.1 hj)]
    simp only [texts_of, added_new, Option.bind, List.append_nil]
  · rw [e1]; exact added_new _ _ _

theorem text_step (st st1 : dom_builder) (t : dom_shape) (L : Nat) (chain : List Nat)
    (psz_text psz_tag : List Char) (hinv : order_inv st t L chain)
    (h : CreateDomNodes_text st psz_text psz_tag = .ok st1) :
    ∃ t1 text, order_inv st1 t1 L chain ∧
      chain_tags st1.nodes chain = chain_tags st.nodes chain ∧
      (if ptr_diff psz_tag psz_text > 0 then
          strndup psz_text (to_size_t (ptr_diff psz_tag psz_text))
        else .ok []) = .ok text ∧
      texts_of st1.nodes (List.range st1.nodes.length)
        = texts_of st.nodes (List.range st.nodes.length) ++ text := by
  unfold CreateDomNodes_text at h
  split at h
  · rename_i hpos
    simp only [bind_eq_ok, pure_eq_ok] at h
    obtain ⟨text, htext, n, -, st2, hst2, h⟩ := h
    subst h
    obtain ⟨g1, g2, g3, g4, g5, g6, g7, -, g9⟩ := link_step _ _ _ _ _ _ hinv rfl rfl hst2
    obtain ⟨-, -, -, hL, -, -, hlen⟩ := hinv
    refine ⟨shape_add t L st.nodes.length, text, ⟨g1, g2, ?_, ?_, ?_, g5, ?_⟩, g6, ?_, ?_⟩
    · exact ((shape_slot_add t L st.nodes.length .head hL).1).symm
    · rw [shape_depth_add t L _ hL]; omega
    · simp only [g9]; exact g4
    · simp only [g3]; omega
    · rw [if_pos hpos]; exact htext
    · simpa using g7
  · rename_i hneg
    simp only [pure_eq_ok] at h
    subst h
    exact ⟨t, [], hinv, rfl, by rw [if_neg hneg], by simp⟩

theorem tag_name_eq (psz_tag psz_name psz_attrs tag : List Char)
    (h1 : SplitTag psz_tag = .ok (psz_name, psz_attrs))
    (h2 : strndup psz_name (to_size_t (ptr_diff psz_attrs psz_name)) = .ok tag) :
    tag_name psz_tag = .ok tag := by
  simp only [tag_name, h1, h2]

theorem open_step (st st1 : dom_builder) (t : dom_shape) (L : Nat) (chain : List Nat)
    (psz_tag psz_taglast : List Char) (hinv : order_inv st t L chain)
    (h : CreateDomNodes_open st psz_tag psz_taglast = .ok st1) :
    ∃ t1 name, tag_name psz_tag = .ok name ∧
      order_inv st1 t1 (L + 1) (st.nodes.length :: chain) ∧
      chain_tags st1.nodes (st.nodes.length :: chain) = name :: chain_tags st.nodes chain ∧
      texts_of st1.nodes (List.range st1.nodes.length)
        = texts_of st.nodes (List.range st.nodes.length) := by
  unfold CreateDomNodes_open at h
  simp only [bind_eq_ok, pure_eq_ok] at h
  obtain ⟨⟨psz_name, psz_attrs⟩, hsplit, tag, htag, attrs, -, st2, hst2, h⟩ := h
  subst h
  obtain ⟨g1, g2, g3, g4, g5, g6, g7, g8, g9⟩ := link_step _ _ _ _ _ _ hinv rfl rfl hst2
  obtain ⟨-, hids, -, hL, -, -, hlen⟩ := hinv
  have hfresh : st.nodes.length ∉ shape_ids t := by
    rw [hids]; simp
  refine ⟨shape_add t L st.nodes.length, tag, tag_name_eq _ _ _ _ hsplit htag,
    ⟨g1, g2, ?_, ?_, ?_, ?_, ?_⟩, ?_, ?_⟩
  · exact ((shape_slot_add t L st.nodes.length .head hL).2).symm
  · rw [shape_depth_add t L _ hL]
  · simp only [chain_linked, g8, true_and]
    exact ⟨rfl, g4⟩
  · exact ⟨L, shape_level_add_new t L _ hL hfresh, by omega, g5⟩
  · simp only [List.length_cons, g3]; omega
  · simp only [chain_tags, List.map_cons, g8, Option.bind, Option.getD_some, List.cons.injEq,
      true_and]
    exact g6
  · simpa [webvtt_domnode_New] using g7

theorem represents_head_level (nodes : List webvtt_domnode_t) (t : dom_shape) (h : Nat)
    (hr : represents nodes (some h) t) : shape_level t h = some 0 := by
  cases t with
  | nil => simp [represents] at hr
  | node i c n =>
    have := (represents_node _ _ _ _ _ hr).1
    simp only [Option.some.injEq] at this
    subst this
    exact shape_level_root _ _ _

theorem close_step (st st1 : dom_builder) (t : dom_shape) (L : Nat) (chain : List Nat)
    (p_parent : Nat) (psz_tag : List Char) (hinv : order_inv st t L chain)
    (hp : st.p_parent = some p_parent)
    (h : CreateDomNodes_close st p_parent psz_tag = .ok st1) :
    ∃ L1 name above, chain = p_parent :: above ∧ tag_name psz_tag = .ok name ∧
      order_inv st1 t L1 (close_chain st.nodes name above) ∧ st1.nodes = st.nodes := by
  obtain ⟨hrep, hids, hpp, hL, hch, hlev, hlen⟩ := hinv
  unfold CreateDomNodes_close at h
  simp only [bind_eq_ok, pure_eq_ok] at h
  obtain ⟨⟨psz_name, psz_attrs⟩, hsplit, name, hname, parent, hparent, found, hfound, start,
    hstart, pp, hpp', h⟩ := h
  subst h
  rw [hp] at hch
  cases chain with
  | nil => simp [chain_linked] at hch
  | cons q above =>
    simp only [chain_linked] at hch
    obtain ⟨hq, hch⟩ := hch
    subst hq
    cases hnode : st.nodes[p_parent]? with
    | none => rw [hnode] at hch; exact hch.elim
    | some nd =>
      rw [hnode] at hch
      obtain ⟨-, habove⟩ := hch
      simp only [node_at, hnode, Except.ok.injEq] at hparent
      subst hparent
      simp only [List.length_cons] at hlen
      obtain ⟨s1, s2⟩ := chain_search st.nodes name above nd.p_parent (st.nodes.length + 1)
        habove (by omega)
      simp only [webvtt_domnode_getParentByTag, s1, Except.ok.injEq] at hfound
      subst hfound
      obtain ⟨e0, he0, he0L, hlev0⟩ := hlev
      have hidlen : (shape_ids t).length < st.nodes.length + 1 := by
        rw [hids]; simp
      cases hcc : close_chain st.nodes name above with
      | nil =>
        rw [hcc] at hstart s2
        simp only [List.head?_nil, close_start] at hstart
        cases hh : st.p_head with
        | none => rw [hh] at hstart; simp at hstart
        | some hd =>
          rw [hh] at hstart hrep
          simp only [Except.ok.injEq] at hstart
          subst hstart
          have hl0 := represents_head_level _ _ _ hrep
          rw [append_end_shape st.nodes st.p_head t (some hd) _ hd 0 .head hrep hl0 hidlen] at hpp'
          simp only [Except.ok.injEq] at hpp'
          refine ⟨0, name, above, rfl, tag_name_eq _ _ _ _ hsplit hname, ?_, rfl⟩
          rw [hcc]
          exact ⟨hrep, hids, hpp'.symm, Nat.zero_le _, by simpa using s2,
            trivial, Nat.zero_le _⟩
      | cons q1 rest1 =>
        rw [hcc] at hstart s2
        simp only [List.head?_cons, close_start, Except.ok.injEq] at hstart
        subst hstart
        obtain ⟨e, he, hlev1⟩ := chain_levels_close st.nodes name t above e0 hlev0 q1 rest1 hcc
        rw [append_end_shape st.nodes st.p_head t st.p_head _ q1 e .head hrep he hidlen] at hpp'
        simp only [Except.ok.injEq] at hpp'
        refine ⟨e, name, above, rfl, tag_name_eq _ _ _ _ hsplit hname, ?_, rfl⟩
        rw [hcc]
        have hcl := close_chain_length st.nodes name above
        rw [hcc] at hcl
        exact ⟨hrep, hids, hpp'.symm, le_of_lt (shape_level_lt_depth t q1 e he),
          by simpa using s2, hlev1, by simp only [List.length_cons] at hcl ⊢; omega⟩

theorem chain_linked_none (nodes : List webvtt_domnode_t) (chain : List Nat)
    (h : chain_linked nodes none chain) : chain = [] := by
  cases chain with
  | nil => rfl
  | cons q rest => simp [chain_linked] at h

theorem loop_text (fuel : Nat) :
    ∀ (st st' : dom_builder) (t : dom_shape) (L : Nat) (chain : List Nat) (psz_text : List Char),
      order_inv st t L chain → CreateDomNodes_loop fuel st psz_text = .ok st' →
      ∃ t' rest, represents st'.nodes st'.p_head t' ∧
        shape_ids t' = List.range st'.nodes.length ∧
        stripped_text fuel (chain_tags st.nodes chain) psz_text = .ok rest ∧
        texts_of st'.nodes (List.range st'.nodes.length)
          = texts_of st.nodes (List.range st.nodes.length) ++ rest := by
  induction fuel with
  | zero => intro st st' t L chain psz _ h; simp [CreateDomNodes_loop] at h
  | succ n ih =>
    intro st st' t L chain psz hinv h
    simp only [CreateDomNodes_loop] at h
    simp only [stripped_text]
    cases hc : deref psz with
    | error e => rw [hc] at h; simp at h
    | ok c =>
      rw [hc] at h
      simp only at h ⊢
      by_cases hnul : c = NUL
      · simp only [hnul, if_true, Except.ok.injEq] at h ⊢
        subst h
        exact ⟨t, [], hinv.1, hinv.2.1, rfl, by simp⟩
      · simp only [hnul, if_false] at h ⊢
        cases hfind : FindNextTag psz with
        | error e => rw [hfind] at h; simp at h
        | ok found =>
          rw [hfind] at h
          cases found with
          | none =>
            simp only at h ⊢
            cases htext : strdup psz with
            | error e => rw [htext] at h; simp at h
            | ok text =>
              rw [htext] at h
              simp only [lines_add_eq] at h
              cases hst1 : link_new st { webvtt_domnode_New st.p_parent with psz_text := some text } with
              | error e => rw [hst1] at h; simp at h
              | ok st1 =>
                rw [hst1] at h
                simp only [Except.ok.injEq] at h
                subst h
                obtain ⟨g1, g2, g3, g4, g5, g6, g7, g8, g9⟩ :=
                  link_step _ _ _ _ _ _ hinv rfl rfl hst1
                exact ⟨_, text, g1, g2, rfl, by simpa using g7⟩
          | some found =>
            obtain ⟨psz_tag, psz_taglast⟩ := found
            simp only at h ⊢
            cases hst1 : CreateDomNodes_text st psz psz_tag with
            | error e => rw [hst1] at h; simp at h
            | ok st1 =>
              rw [hst1] at h
              obtain ⟨t1, text, hinv1, htags1, htext, htexts1⟩ :=
                text_step _ _ _ _ _ _ _ hinv hst1
              simp only [htext]
              cases hend : IsEndTag psz_tag with
              | error e => rw [hend] at h; simp at h
              | ok b =>
                rw [hend] at h
                cases b with
                | false =>
                  simp only at h ⊢
                  cases hst2 : CreateDomNodes_open st1 psz_tag psz_taglast with
                  | error e => rw [hst2] at h; simp at h
                  | ok st2 =>
                    rw [hst2] at h
                    simp only at h
                    obtain ⟨t2, name, hname, hinv2, htags2, htexts2⟩ :=
                      open_step _ _ _ _ _ _ _ hinv1 hst2
                    obtain ⟨t', rest, g1, g2, g3, g4⟩ := ih _ _ _ _ _ _ hinv2 h
                    rw [htags2, htags1] at g3
                    refine ⟨t', text ++ rest, g1, g2, ?_, ?_⟩
                    · simp only [hname, g3]
                    · rw [g4, htexts2, htexts1, List.append_assoc]
                | true =>
                  simp only at h ⊢
                  cases hp : st1.p_parent with
                  | none =>
                    rw [hp] at h
                    simp only [Except.ok.injEq] at h
                    subst h
                    have hch := hinv1.2.2.2.2.1
                    rw [hp] at hch
                    have := chain_linked_none _ _ hch
                    subst this
                    exact ⟨t1, text, hinv1.1, hinv1.2.1, by simp [chain_tags], htexts1⟩
                  | some p_parent =>
                    rw [hp] at h
                    simp only at h
                    cases hst2 : CreateDomNodes_close st1 p_parent psz_tag with
                    | error e => rw [hst2] at h; simp at h
                    | ok st2 =>
                      rw [hst2] at h
                      simp only at h
                      obtain ⟨L1, name, above, hchain, hname, hinv2, hnodes⟩ :=
                        close_step _ _ _ _ _ _ _ hinv1 hp hst2
                      obtain ⟨t', rest, g1, g2, g3, g4⟩ := ih _ _ _ _ _ _ hinv2 h
                      rw [hnodes, chain_tags_close] at g3
                      refine ⟨t', text ++ rest, g1, g2, ?_, ?_⟩
                      · rw [← htags1, hchain]
                        simp only [chain_tags, List.map_cons, hname]
                        simp only [chain_tags] at g3
                        simp only [g3]
                      · rw [g4, hnodes, htexts1, List.append_assoc]

/-- C5 (counterexample). In `a</b>c` the only tag `FindNextTag` recognises is
`</b>`; it is met while no element is open, the builder stops there, and the
text of the forest is `a`: the `c` that follows the tag is lost. -/
theorem C5_counterexample :
    FindNextTag (c_str "a</b>c".toList)
      = .ok (some (c_str "</b>c".toList, c_str ">c".toList)) ∧
    FindNextTag (c_str "c".toList) = .ok none ∧
    text_of_payload "a</b>c".toList = .ok "a".toList ∧
    "a".toList ≠ "ac".toList := by
  refine ⟨rfl, rfl, rfl, by decide⟩

/-- C5 (amended). Whenever `CreateDomNodes` returns, the concatenation, in
document order, of the texts of the forest it built is `payload_text`: the
payload with the tags that `FindNextTag` recognises removed, cut at the first
end tag met while no element is open. -/
theorem C5_text_kept_up_to_stray_end_tag (psz : List Char) (b : dom_builder)
    (h : CreateDomNodes psz = .ok b) :
    builder_text b = payload_text psz ∧ ∃ text, builder_text b = .ok text := by
  have hinv : order_inv
      { nodes := [], p_head := none, pp_append := .head, p_parent := none, i_lines := 0 }
      .nil 0 [] := by
    refine ⟨?_, rfl, rfl, le_refl _, ?_, trivial, le_refl _⟩
    · simp [represents]
    · simp [chain_linked]
  obtain ⟨t', rest, g1, g2, g3, g4⟩ := loop_text _ _ _ _ _ _ _ hinv h
  have hb : builder_text b = .ok rest := by
    unfold builder_text
    rw [forest_text_shape b.nodes t' b.p_head _ g1 (by rw [g2]; simp), g2, g4]
    simp [texts_of]
  refine ⟨?_, rest, hb⟩
  rw [hb]
  unfold payload_text
  simp only [chain_tags, List.map_nil] at g3
  exact g3.symm

/-- Witness of C5: the payload `<b><v Alice>foo</b>bar`. -/
theorem C5_text_kept_up_to_stray_end_tag_witness :
    text_of_payload "<b><v Alice>foo</b>bar".toList
      = payload_text "<b><v Alice>foo</b>bar".toList :=
  (C5_text_kept_up_to_stray_end_tag "<b><v Alice>foo</b>bar".toList _ rfl).1

/-! ### Rendering: which cues are shown -/

theorem join_lines_cons (s : List text_segment_t) (ss : List (List text_segment_t))
    (hs : s ≠ []) :
    join_lines (s :: ss) =
      if join_lines ss = [] then s else s ++ [text_segment_t.mk ['\n'] none] ++ join_lines ss := by
  simp only [join_lines, if_neg hs]

theorem join_lines_cons_cons (a s : List text_segment_t) (ss : List (List text_segment_t))
    (ha : a ≠ []) (hs : s ≠ []) :
    join_lines (a :: s :: ss) = join_lines ((a ++ [text_segment_t.mk ['\n'] none] ++ s) :: ss) := by
  have h2 : a ++ [text_segment_t.mk ['\n'] none] ++ s ≠ [] := by simp
  rw [join_lines_cons a _ ha, join_lines_cons s _ hs, join_lines_cons _ ss h2]
  by_cases h : join_lines ss = []
  · simp [h, hs]
  · simp [h]

theorem RenderRegions_cues_join (X : Externals) (pts : Int) (p_cues : List cue_ptr)
    (hv : cue_ptr.invalid ∉ p_cues) (acc : List text_segment_t) :
    RenderRegions_cues X pts p_cues acc =
      match cues_segments X (active_cues pts p_cues) with
      | .error e => .error e
      | .ok ss => .ok (join_lines (acc :: ss)) := by
  induction p_cues generalizing acc with
  | nil =>
    simp only [RenderRegions_cues, active_cues, cues_segments, join_lines]
    split <;> simp_all
  | cons s rest ih =>
    have hv' : cue_ptr.invalid ∉ rest := fun h => hv (List.mem_cons_of_mem _ h)
    cases s with
    | null => simp only [RenderRegions_cues, active_cues]; exact ih hv' acc
    | invalid => exact absurd (List.mem_cons_self _ _) hv
    | live c =>
      by_cases hact : c.i_start ≤ pts ∧ pts < c.i_stop
      · have hn : ¬ (c.i_start > pts ∨ c.i_stop ≤ pts) := by omega
        simp only [RenderRegions_cues, active_cues, if_neg hn, if_pos hact, cues_segments]
        cases hc : ConvertCueToSegments X c with
        | error e => rfl
        | ok p_new =>
          simp only []
          by_cases hp : p_new = []
          · subst hp
            simp only [ne_eq, not_true_eq_false, if_false]
            rw [ih hv' acc]
            cases cues_segments X (active_cues pts rest) with
            | error e => rfl
            | ok ss =>
              simp only [join_lines, if_true]
          · rw [if_pos hp, ih hv']
            cases cues_segments X (active_cues pts rest) with
            | error e => rfl
            | ok ss =>
              simp only []
              by_cases ha : acc = []
              · subst ha
                simp only [ne_eq, not_true_eq_false, if_false, List.nil_append]
                simp only [join_lines, if_true]
              · rw [if_pos ha, join_lines_cons_cons acc p_new ss ha hp]
      · have hn : (c.i_start > pts ∨ c.i_stop ≤ pts) := by omega
        simp only [RenderRegions_cues, active_cues, if_pos hn, if_neg hact]
        exact ih hv' acc

theorem active_cues_mem (pts : Int) (p_cues : List cue_ptr) (c : webvtt_dom_cue_t) :
    c ∈ active_cues pts p_cues ↔
      cue_ptr.live c ∈ p_cues ∧ c.i_start ≤ pts ∧ pts < c.i_stop := by
  induction p_cues with
  | nil => simp [active_cues]
  | cons s rest ih =>
    cases s with
    | null => simp [active_cues, ih]
    | invalid => simp [active_cues, ih]
    | live d =>
      by_cases hact : d.i_start ≤ pts ∧ pts < d.i_stop
      · simp only [active_cues, if_pos hact, List.mem_cons, ih, cue_ptr.live.injEq]
        constructor
        · rintro (rfl | h)
          · exact ⟨Or.inl rfl, hact⟩
          · exact ⟨Or.inr h.1, h.2⟩
        · rintro ⟨rfl | h, h2⟩
          · exact Or.inl rfl
          · exact Or.inr ⟨h, h2⟩
      · simp only [active_cues, if_neg hact, List.mem_cons, ih, cue_ptr.live.injEq]
        constructor
        · rintro h
          exact ⟨Or.inr h.1, h.2⟩
        · rintro ⟨rfl | h, h2⟩
          · exact absurd h2 hact
          · exact ⟨h, h2⟩

theorem RenderRegions_cues_spec (X : Externals) (pts : Int) (p_region : webvtt_region_t)
    (hv : cue_ptr.invalid ∉ p_region.p_cues) :
    RenderRegions_cues X pts p_region.p_cues [] = region_segments X pts p_region := by
  rw [RenderRegions_cues_join X pts _ hv, region_segments]
  cases cues_segments X (active_cues pts p_region.p_cues) with
  | error e => rfl
  | ok ss => simp only [join_lines, if_true]

theorem RenderRegions_loop_none (X : Externals) (pts : Int)
    (rs : List (Bool × webvtt_region_t)) (acc : List subpicture_updater_sys_region_t)
    (h : ∀ r ∈ rs, RenderRegions_cues X pts r.2.p_cues [] = .ok []) :
    RenderRegions_loop X pts rs acc = .ok acc := by
  induction rs generalizing acc with
  | nil => rfl
  | cons r rest ih =>
    obtain ⟨d, r⟩ := r
    have h1 := h (d, r) (List.mem_cons_self _ _)
    simp only [RenderRegions_loop, h1, if_true]
    exact ih acc (fun r hr => h r (List.mem_cons_of_mem _ hr))

theorem RenderRegions_loop_grows (X : Externals) (pts : Int)
    (rs : List (Bool × webvtt_region_t)) (acc out : List subpicture_updater_sys_region_t)
    (h : RenderRegions_loop X pts rs acc = .ok out) :
    acc.length ≤ out.length ∧
      (out.length = acc.length → ∀ r ∈ rs, RenderRegions_cues X pts r.2.p_cues [] = .ok []) := by
  induction rs generalizing acc with
  | nil =>
    simp only [RenderRegions_loop, Except.ok.injEq] at h
    subst h
    exact ⟨le_refl _, fun _ r hr => absurd hr (List.not_mem_nil r)⟩
  | cons r rest ih =>
    obtain ⟨d, r⟩ := r
    simp only [RenderRegions_loop] at h
    cases hc : RenderRegions_cues X pts r.p_cues [] with
    | error e => rw [hc] at h; exact absurd h (by simp)
    | ok segs =>
      rw [hc] at h
      by_cases hs : segs = []
      · subst hs
        simp only [if_true] at h
        obtain ⟨h1, h2⟩ := ih acc h
        refine ⟨h1, fun hl q hq => ?_⟩
        rcases List.mem_cons.1 hq with rfl | hq
        · exact hc
        · exact h2 hl q hq
      · simp only [if_neg hs] at h
        obtain ⟨h1, -⟩ := ih _ h
        simp only [List.length_append, List.length_singleton] at h1
        exact ⟨by omega, fun hl => by omega⟩

/-- C11. In a decoder state whose slots are null or live, `RenderRegions` at
`pts` gives each region the segments of the cues with `start ≤ pts < stop`, in
slot order and joined by newline segments: a cue is among those that are
converted if and only if it is stored in the region and `start ≤ pts < stop`.
No subpicture is queued if and only if every region, default one included, has
no segment. -/
theorem C11_render_half_open_interval (X : Externals) (p_sys : decoder_sys_t)
    (pts i_stop : Int) (hv : slots_valid p_sys) :
    (∀ r ∈ p_sys.regions :: p_sys.named,
      RenderRegions_cues X pts r.p_cues [] = region_segments X pts r ∧
      ∀ c, c ∈ active_cues pts r.p_cues ↔
        cue_ptr.live c ∈ r.p_cues ∧ c.i_start ≤ pts ∧ pts < c.i_stop) ∧
    (RenderRegions X p_sys pts i_stop = .ok none ↔
      ∀ r ∈ p_sys.regions :: p_sys.named, region_segments X pts r = .ok []) := by
  have hspec : ∀ r ∈ p_sys.regions :: p_sys.named,
      RenderRegions_cues X pts r.p_cues [] = region_segments X pts r :=
    fun r hr => RenderRegions_cues_spec X pts r (hv r hr)
  have hall : (∀ q ∈ (true, p_sys.regions) :: p_sys.named.map (fun r => (false, r)),
        RenderRegions_cues X pts q.2.p_cues [] = .ok []) ↔
      ∀ r ∈ p_sys.regions :: p_sys.named, region_segments X pts r = .ok [] := by
    constructor
    · intro h r hr
      rw [← hspec r hr]
      rcases List.mem_cons.1 hr with h0 | h0
      · rw [h0]
        exact h (true, p_sys.regions) (List.mem_cons_self _ _)
      · exact h (false, r) (List.mem_cons_of_mem _ (List.mem_map.2 ⟨r, h0, rfl⟩))
    · intro h q hq
      rcases List.mem_cons.1 hq with h0 | hq
      · rw [h0, hspec _ (List.mem_cons_self _ _)]
        exact h _ (List.mem_cons_self _ _)
      · obtain ⟨r, hr, rfl⟩ := List.mem_map.1 hq
        rw [hspec _ (List.mem_cons_of_mem _ hr)]
        exact h _ (List.mem_cons_of_mem _ hr)
  refine ⟨fun r hr => ⟨hspec r hr, fun c => active_cues_mem pts r.p_cues c⟩, ?_⟩
  rw [← hall]
  constructor
  · intro h
    simp only [RenderRegions] at h
    cases hl : RenderRegions_loop X pts
        ((true, p_sys.regions) :: p_sys.named.map fun r => (false, r)) [] with
    | error e => rw [hl] at h; exact absurd h (by simp)
    | ok out =>
      rw [hl] at h
      cases out with
      | nil => exact (RenderRegions_loop_grows X pts _ [] [] hl).2 rfl
      | cons a b => exact absurd h (by simp)
  · intro h
    simp only [RenderRegions, RenderRegions_loop_none X pts _ [] h]

/-- Witness of C11: a cue shown over `[0, 10)` gives nothing at `pts = 10`. -/
theorem C11_render_half_open_interval_witness :
    RenderRegions plain_externals one_cue_state 10 20 = .ok none :=
  (C11_render_half_open_interval plain_externals one_cue_state 10 20
    (by
      intro r hr
      simp only [one_cue_state, List.mem_singleton] at hr
      subst hr
      decide)).2.2
    (by
      intro r hr
      simp only [one_cue_state, List.mem_singleton] at hr
      subst hr
      rfl)

/-! ### Percentages -/

theorem parse_percent_flag (X : Externals) (psz : List Char) (value : vtt_float) :
    (parse_percent X psz value).1 = decide ((X.us_strtof psz).2 ≠ 0) := by
  simp only [parse_percent]

theorem parse_percent_value (X : Externals) (psz : List Char) (value : vtt_float) :
    (parse_percent X psz value).2 =
      if 0 ≤ (X.us_strtof psz).1 ∧ (X.us_strtof psz).1 ≤ 100 ∧
          (c_str psz)[(X.us_strtof psz).2]? = some '%' then
        to_float (to_double ((X.us_strtof psz).1 / 100))
      else value := by
  simp only [parse_percent, ge_iff_le]

/-- C12. `parse_percent` reports success on `50`, where no `%` follows the
number, and on `150%`, where the number is above 100: the flag it returns is
`psz_end != psz`, whatever the guard of the assignment decided.  In both cases
the value is left as it was (here 1) and the string does not begin with a
percentage. -/
theorem C12_parse_percent_success_without_percent :
    parse_percent decimal_externals "50".toList 1 = (true, 1) ∧
    leading_percent decimal_externals "50".toList = none ∧
    parse_percent decimal_externals "150%".toList 1 = (true, 1) ∧
    leading_percent decimal_externals "150%".toList = none := by
  decide

theorem parse_percent_tuple_spec (X : Externals) (psz : List Char) (x y : vtt_float) :
    ((parse_percent_tuple X psz x y).1 = false → (parse_percent_tuple X psz x y).2 = (x, y)) ∧
    ((parse_percent_tuple X psz x y).1 = true ↔
      ∃ a b rest psz2 rest2, leading_percent X psz = some (a, rest) ∧
        after_char ',' rest = some psz2 ∧ leading_percent X psz2 = some (b, rest2)) ∧
    ∀ a b rest psz2 rest2, leading_percent X psz = some (a, rest) →
      after_char ',' rest = some psz2 → leading_percent X psz2 = some (b, rest2) →
      parse_percent_tuple X psz x y
        = (true, to_float (to_double a), to_float (to_double b)) := by
  simp only [parse_percent_tuple, leading_percent, ge_iff_le]
  by_cases h1 : (X.us_strtof psz).2 ≠ 0 ∧ 0 ≤ (X.us_strtof psz).1 ∧ (X.us_strtof psz).1 ≤ 100 ∧
      (c_str psz)[(X.us_strtof psz).2]? = some '%'
  · rw [if_pos h1, if_pos h1]
    cases hc : after_char ',' (psz.drop (X.us_strtof psz).2) with
    | none =>
      refine ⟨fun _ => rfl, ⟨fun h => absurd h (by simp), ?_⟩, ?_⟩
      · rintro ⟨a, b, rest, q, rest2, ha, hq, -⟩
        simp only [Option.some.injEq, Prod.mk.injEq] at ha
        obtain ⟨rfl, rfl⟩ := ha
        rw [hc] at hq
        exact absurd hq (by simp)
      · intro a b rest q rest2 ha hq
        simp only [Option.some.injEq, Prod.mk.injEq] at ha
        obtain ⟨rfl, rfl⟩ := ha
        rw [hc] at hq
        exact absurd hq (by simp)
    | some psz2 =>
      simp only []
      by_cases h2 : (X.us_strtof psz2).2 ≠ 0 ∧ 0 ≤ (X.us_strtof psz2).1 ∧
          (X.us_strtof psz2).1 ≤ 100 ∧ (c_str psz2)[(X.us_strtof psz2).2]? = some '%'
      · rw [if_pos h2]
        refine ⟨by simp, ⟨fun _ => ⟨_, _, _, psz2, _, rfl, hc, by rw [if_pos h2]⟩, fun _ => rfl⟩, ?_⟩
        intro a b rest q rest2 ha hq hb
        simp only [Option.some.injEq, Prod.mk.injEq] at ha
        obtain ⟨rfl, rfl⟩ := ha
        rw [hc] at hq
        simp only [Option.some.injEq] at hq
        subst hq
        rw [if_pos h2] at hb
        simp only [Option.some.injEq, Prod.mk.injEq] at hb
        obtain ⟨rfl, rfl⟩ := hb
        rfl
      · rw [if_neg h2]
        refine ⟨fun _ => rfl, ⟨fun h => absurd h (by simp), ?_⟩, ?_⟩
        · rintro ⟨a, b, rest, q, rest2, ha, hq, hb⟩
          simp only [Option.some.injEq, Prod.mk.injEq] at ha
          obtain ⟨rfl, rfl⟩ := ha
          rw [hc] at hq
          simp only [Option.some.injEq] at hq
          subst hq
          rw [if_neg h2] at hb
          exact absurd hb (by simp)
        · intro a b rest q rest2 ha hq hb
          simp only [Option.some.injEq, Prod.mk.injEq] at ha
          obtain ⟨rfl, rfl⟩ := ha
          rw [hc] at hq
          simp only [Option.some.injEq] at hq
          subst hq
          rw [if_neg h2] at hb
          exact absurd hb (by simp)
  · rw [if_neg h1, if_neg h1]
    simp


/-- C13. `parse_percent_tuple` is all or nothing.  When it returns false the
two values are the prior ones.  It returns true if and only if the string
begins with a percentage `a`, a comma follows the `%` of `a`, and the string
after that comma begins with a percentage `b`; the values are then `a / 100`
and `b / 100` as the code computes them, each quotient rounded to `double` by
the division and to `float` by the store, which moves it by at most
`2 ^ -24 + 2 ^ -53` (`leading_percent` gives the exact quotient). -/
theorem C13_parse_percent_tuple_all_or_nothing (X : Externals) (psz : List Char)
    (x y : vtt_float) :
    ((parse_percent_tuple X psz x y).1 = false → (parse_percent_tuple X psz x y).2 = (x, y)) ∧
    ((parse_percent_tuple X psz x y).1 = true ↔
      ∃ a b rest psz2 rest2, leading_percent X psz = some (a, rest) ∧
        after_char ',' rest = some psz2 ∧ leading_percent X psz2 = some (b, rest2)) ∧
    ∀ a b rest psz2 rest2, leading_percent X psz = some (a, rest) →
      after_char ',' rest = some psz2 → leading_percent X psz2 = some (b, rest2) →
      parse_percent_tuple X psz x y = (true, to_float (to_double a), to_float (to_double b)) ∧
      |a - to_float (to_double a)| ≤ 1 / 2 ^ 24 + 1 / 2 ^ 53 ∧
      |b - to_float (to_double b)| ≤ 1 / 2 ^ 24 + 1 / 2 ^ 53 := by
  have hbound : ∀ (q : List Char) (v : vtt_float) (rest : List Char),
      leading_percent X q = some (v, rest) →
      |v - to_float (to_double v)| ≤ 1 / 2 ^ 24 + 1 / 2 ^ 53 := by
    intro q v rest hv
    simp only [leading_percent] at hv
    split_ifs at hv with hc
    simp only [Option.some.injEq, Prod.mk.injEq] at hv
    obtain ⟨rfl, -⟩ := hv
    exact (percent_quotient_bound _ (div_nonneg hc.2.1 (by norm_num))
      ((div_le_one (by norm_num)).mpr hc.2.2.1)).2.2
  obtain ⟨h1, h2, h3⟩ := parse_percent_tuple_spec X psz x y
  exact ⟨h1, h2, fun a b rest psz2 rest2 ha hq hb =>
    ⟨h3 a b rest psz2 rest2 ha hq hb, hbound _ _ _ ha, hbound _ _ _ hb⟩⟩

/-- Witness of C13: the pair `10%,90%` gives the floats nearest to one tenth and
to nine tenths, which print as 0.100000001 and 0.899999976. -/
theorem C13_parse_percent_tuple_all_or_nothing_witness :
    parse_percent_tuple decimal_externals "10%,90%".toList 0 1
      = (true, 13421773 / 134217728, 7549747 / 8388608) := by
  have h := (C13_parse_percent_tuple_all_or_nothing decimal_externals "10%,90%".toList 0 1).2.2
    (10 / 100) (90 / 100) "%,90%".toList "90%".toList "%".toList
    (by simp [leading_percent, decimal_externals, decimal_strtof, float_of_nat, read_digits, c_str]; norm_num)
    (by decide)
    (by simp [leading_percent, decimal_externals, decimal_strtof, float_of_nat, read_digits, c_str]; norm_num)
  rw [percent_10_value, percent_90_value] at h
  exact h.1

/-- C14. When the float scan answers zero with nothing consumed on the string
`%`, as `strtof` does, the settings `size:%` and `position:%` and the region
setting `width:%` overwrite their field with 0: the value has no number, yet
the guard of `parse_percent` holds since it does not ask for one. -/
theorem C14_percent_sign_alone_overwrites (X : Externals)
    (h : X.us_strtof ['%'] = (0, 0)) :
    (webvtt_cue_settings_Parse X webvtt_cue_settings_Init "size:%".toList).size = 0 ∧
    webvtt_cue_settings_Init.size = 1 ∧
    (webvtt_cue_settings_Parse X webvtt_cue_settings_Init "position:%".toList).position = 0 ∧
    webvtt_cue_settings_Init.position = -1 ∧
    (webvtt_region_Parse X webvtt_region_Init "width:%".toList).f_width = 0 ∧
    webvtt_region_Init.f_width = 1 := by
  refine ⟨?_, rfl, ?_, rfl, ?_, rfl⟩
  · simp [webvtt_cue_settings_Parse, strtok_all, split_tuple, after_char,
      webvtt_cue_settings_ParseTuple, parse_percent, h, c_str, to_float_zero, to_double_zero]
  · simp [webvtt_cue_settings_Parse, strtok_all, split_tuple, after_char,
      webvtt_cue_settings_ParseTuple, parse_percent, h, c_str, to_float_zero, to_double_zero]
  · simp [webvtt_region_Parse, strtok_all, split_tuple, after_char,
      webvtt_region_ParseTuple, parse_percent, h, c_str, to_float_zero, to_double_zero]

/-- Witness of C14: the decimal scan on `size:%`. -/
theorem C14_percent_sign_alone_overwrites_witness :
    (webvtt_cue_settings_Parse decimal_externals webvtt_cue_settings_Init
      "size:%".toList).size = 0 :=
  (C14_percent_sign_alone_overwrites decimal_externals (by decide)).1

/-! ### Region lookup -/

theorem GetByID_loop_spec (id : List Char) (l : List webvtt_region_t) (k : Nat)
    (hid : ∀ r ∈ l, r.psz_id ≠ none) :
    (∃ i, first_with_id l id i ∧ GetByID_loop id l k = .ok (some (.named (k + i)))) ∨
    ((∀ r ∈ l, r.psz_id ≠ some id) ∧ GetByID_loop id l k = .ok none) := by
  induction l generalizing k with
  | nil => exact Or.inr ⟨fun r hr => absurd hr (List.not_mem_nil r), rfl⟩
  | cons r rest ih =>
    cases hr : r.psz_id with
    | none => exact absurd hr (hid r (List.mem_cons_self _ _))
    | some rid =>
      by_cases he : id = rid
      · subst he
        refine Or.inl ⟨0, ⟨⟨r, List.getElem?_cons_zero, hr⟩, fun j _ hj => absurd hj (Nat.not_lt_zero j)⟩, ?_⟩
        simp only [GetByID_loop, hr, if_true, Nat.add_zero]
      · have hne : r.psz_id ≠ some id := by
          rw [hr]
          intro h
          exact he (Option.some.inj h).symm
        rcases ih (k + 1) (fun q hq => hid q (List.mem_cons_of_mem _ hq)) with
          ⟨i, ⟨⟨q, hq, hqid⟩, hfirst⟩, hres⟩ | ⟨hnone, hres⟩
        · refine Or.inl ⟨i + 1, ⟨⟨q, by simpa using hq, hqid⟩, ?_⟩, ?_⟩
          · intro j q' hj hq'
            cases j with
            | zero =>
              simp only [List.getElem?_cons_zero, Option.some.injEq] at hq'
              subst hq'
              exact hne
            | succ j =>
              simp only [List.getElem?_cons_succ] at hq'
              exact hfirst j q' (by omega) hq'
          · simp only [GetByID_loop, hr, if_neg he, hres]
            congr 3
            omega
        · refine Or.inr ⟨?_, ?_⟩
          · intro q hq
            rcases List.mem_cons.1 hq with h0 | h0
            · rw [h0]; exact hne
            · exact hnone q h0
          · simp only [GetByID_loop, hr, if_neg he, hres]

/-- C15. In a decoder whose named regions all have an id, region lookup does
not fail.  `webvtt_region_GetByID` gives the default region for a null id; for
an id it gives the first named region that has it, and null when no named
region has it.  `ProcessISOBMFF` then adds the cue to that first region when
there is one, and to the default region when the cue names no region or one
that does not exist. -/
theorem C15_region_resolution_never_fails (p_sys : decoder_sys_t)
    (hid : ∀ r ∈ p_sys.named, r.psz_id ≠ none) :
    webvtt_region_GetByID p_sys none = .ok (some .default) ∧
    (∀ p_cue : webvtt_dom_cue_t, p_cue.settings.psz_region = none →
      ProcessISOBMFF_add p_sys p_cue = add_to_region p_sys .default p_cue) ∧
    ∀ id : List Char,
      (∃ i, first_with_id p_sys.named id i ∧
        webvtt_region_GetByID p_sys (some id) = .ok (some (.named i)) ∧
        ∀ p_cue : webvtt_dom_cue_t, p_cue.settings.psz_region = some id →
          ProcessISOBMFF_add p_sys p_cue = add_to_region p_sys (.named i) p_cue) ∨
      ((∀ r ∈ p_sys.named, r.psz_id ≠ some id) ∧
        webvtt_region_GetByID p_sys (some id) = .ok none ∧
        ∀ p_cue : webvtt_dom_cue_t, p_cue.settings.psz_region = some id →
          ProcessISOBMFF_add p_sys p_cue = add_to_region p_sys .default p_cue) := by
  refine ⟨rfl, ?_, ?_⟩
  · intro p_cue h
    simp only [ProcessISOBMFF_add, h, webvtt_region_GetByID, Option.getD, add_to_region]
  · intro id
    rcases GetByID_loop_spec id p_sys.named 0 hid with ⟨i, hfirst, hres⟩ | ⟨hnone, hres⟩
    · rw [Nat.zero_add] at hres
      refine Or.inl ⟨i, hfirst, hres, ?_⟩
      intro p_cue h
      simp only [ProcessISOBMFF_add, h, webvtt_region_GetByID, hres, Option.getD, add_to_region]
    · refine Or.inr ⟨hnone, hres, ?_⟩
      intro p_cue h
      simp only [ProcessISOBMFF_add, h, webvtt_region_GetByID, hres, Option.getD, add_to_region]

/-- Witness of C15: lookups in a decoder with the named regions `a` and `b`. -/
theorem C15_region_resolution_never_fails_witness :
    webvtt_region_GetByID two_region_state none = .ok (some .default) ∧
    webvtt_region_GetByID two_region_state (some ['b']) = .ok (some (.named 1)) ∧
    webvtt_region_GetByID two_region_state (some ['c']) = .ok none :=
  ⟨(C15_region_resolution_never_fails two_region_state (by decide)).1, by decide, by decide⟩

/-! ### Tuple streams -/

theorem after_char_some (c : Char) (s v : List Char) :
    after_char c s = some v ↔ ∃ k, s = k ++ c :: v ∧ c ∉ k := by
  induction s with
  | nil => simp [after_char]
  | cons x xs ih =>
    by_cases hx : x = c
    · subst hx
      simp only [after_char, if_true, Option.some.injEq]
      constructor
      · rintro rfl
        exact ⟨[], rfl, List.not_mem_nil _⟩
      · rintro ⟨k, hk, hnot⟩
        cases k with
        | nil => simpa using hk
        | cons y ys =>
          simp only [List.cons_append, List.cons.injEq] at hk
          exact absurd (hk.1 ▸ List.mem_cons_self _ _) hnot
    · simp only [after_char, if_neg hx, ih]
      constructor
      · rintro ⟨k, rfl, hnot⟩
        refine ⟨x :: k, rfl, ?_⟩
        intro h
        rcases List.mem_cons.1 h with h | h
        · exact hx h.symm
        · exact hnot h
      · rintro ⟨k, hk, hnot⟩
        cases k with
        | nil =>
          simp only [List.nil_append, List.cons.injEq] at hk
          exact absurd hk.1 hx
        | cons y ys =>
          simp only [List.cons_append, List.cons.injEq] at hk
          exact ⟨ys, hk.2, fun h => hnot (List.mem_cons_of_mem _ h)⟩

theorem split_tuple_iff (psz_tuple psz_key psz_value : List Char) :
    split_tuple psz_tuple = some (psz_key, psz_value) ↔
      is_tuple psz_tuple psz_key psz_value := by
  simp only [split_tuple, is_tuple]
  cases h : after_char ':' psz_tuple with
  | none =>
    constructor
    · intro hs
      exact absurd hs (by simp)
    · rintro ⟨ht, hnot, -, -⟩
      have := (after_char_some ':' psz_tuple psz_value).2 ⟨psz_key, ht, hnot⟩
      rw [h] at this
      exact absurd this (by simp)
  | some v =>
    obtain ⟨k, hk, hnot⟩ := (after_char_some ':' psz_tuple v).1 h
    have htake : psz_tuple.take (psz_tuple.length - v.length - 1) = k := by
      subst hk
      have : (k ++ ':' :: v).length - v.length - 1 = k.length := by
        simp only [List.length_append, List.length_cons]
        omega
      rw [this, List.take_left']
      rfl
    simp only [htake]
    constructor
    · intro hs
      by_cases hc : v ≠ [] ∧ k ≠ []
      · rw [if_pos hc] at hs
        simp only [Option.some.injEq, Prod.mk.injEq] at hs
        obtain ⟨rfl, rfl⟩ := hs
        exact ⟨hk, hnot, hc.2, hc.1⟩
      · rw [if_neg hc] at hs
        exact absurd hs (by simp)
    · rintro ⟨ht, hnot2, hk2, hv2⟩
      have h2 := (after_char_some ':' psz_tuple psz_value).2 ⟨psz_key, ht, hnot2⟩
      rw [h] at h2
      simp only [Option.some.injEq] at h2
      subst h2
      have hkk : k = psz_key := by
        rw [hk] at ht
        have hl : k.length = psz_key.length := by
          have := congrArg List.length ht
          simp only [List.length_append, List.length_cons] at this
          omega
        exact List.append_inj_left ht hl
      subst hkk
      rw [if_pos ⟨hv2, hk2⟩]

theorem split_tuple_none (psz_tuple : List Char)
    (h : ¬ ∃ k v, is_tuple psz_tuple k v) : split_tuple psz_tuple = none := by
  cases hs : split_tuple psz_tuple with
  | none => rfl
  | some kv =>
    obtain ⟨k, v⟩ := kv
    exact absurd ⟨k, v, (split_tuple_iff _ _ _).1 hs⟩ h

theorem strtok_all_append (cur s1 s2 : List Char) :
    strtok_all cur (s1 ++ ' ' :: s2) = strtok_all cur s1 ++ strtok_all [] s2 := by
  induction s1 generalizing cur with
  | nil =>
    by_cases hc : cur = []
    · simp [strtok_all, hc]
    · simp [strtok_all, hc]
  | cons c cs ih =>
    by_cases hc : c = ' '
    · subst hc
      by_cases hcur : cur = []
      · simp only [List.cons_append, strtok_all, if_true, hcur, List.append_eq, ih]
      · simp only [List.cons_append, strtok_all, if_true, if_neg hcur, List.append_eq, ih]
    · simp only [List.cons_append, strtok_all, if_neg hc, List.append_eq, ih]

theorem strtok_all_token (cur tok : List Char) (h : ' ' ∉ tok) :
    strtok_all cur tok = if cur.reverse ++ tok = [] then [] else [cur.reverse ++ tok] := by
  induction tok generalizing cur with
  | nil =>
    by_cases hc : cur = []
    · simp [strtok_all, hc]
    · simp [strtok_all, hc]
  | cons c cs ih =>
    have hc : c ≠ ' ' := fun e => h (e ▸ List.mem_cons_self _ _)
    have hcs : ' ' ∉ cs := fun e => h (List.mem_cons_of_mem _ e)
    simp only [strtok_all, if_neg hc, ih (c :: cur) hcs, List.reverse_cons, List.append_assoc,
      List.singleton_append]

theorem cue_settings_Parse_append (X : Externals) (p : webvtt_cue_settings_t)
    (s1 s2 : List Char) :
    webvtt_cue_settings_Parse X p (s1 ++ ' ' :: s2) =
      webvtt_cue_settings_Parse X (webvtt_cue_settings_Parse X p s1) s2 := by
  simp only [webvtt_cue_settings_Parse, strtok_all_append, List.foldl_append]

theorem cue_settings_Parse_token (X : Externals) (p : webvtt_cue_settings_t)
    (tok : List Char) (h : ' ' ∉ tok) :
    webvtt_cue_settings_Parse X p tok =
      match split_tuple tok with
      | some (k, v) => webvtt_cue_settings_ParseTuple X p k v
      | none => p := by
  simp only [webvtt_cue_settings_Parse, strtok_all_token [] tok h, List.reverse_nil,
    List.nil_append]
  by_cases ht : tok = []
  · subst ht
    rfl
  · rw [if_neg ht]
    rfl

theorem region_Parse_append (X : Externals) (p : webvtt_region_t) (s1 s2 : List Char) :
    webvtt_region_Parse X p (s1 ++ ' ' :: s2) =
      webvtt_region_Parse X (webvtt_region_Parse X p s1) s2 := by
  simp only [webvtt_region_Parse, strtok_all_append, List.foldl_append]

theorem region_Parse_token (X : Externals) (p : webvtt_region_t)
    (tok : List Char) (h : ' ' ∉ tok) :
    webvtt_region_Parse X p tok =
      match split_tuple tok with
      | some (k, v) => webvtt_region_ParseTuple X p k v
      | none => p := by
  simp only [webvtt_region_Parse, strtok_all_token [] tok h, List.reverse_nil,
    List.nil_append]
  by_cases ht : tok = []
  · subst ht
    rfl
  · rw [if_neg ht]
    rfl

/-- C20. `webvtt_cue_settings_Parse` and `webvtt_region_Parse` treat a string
as its space-separated tokens in turn: parsing `s1`, a space, `s2` is parsing
`s1` and then `s2`.  A token is dispatched if and only if it holds a `:` whose
first occurrence is neither its first nor its last character: it then has the
effect of `ParseTuple` on the text before that `:` as key and the text after
it as value, and every other token leaves the state as it is. -/
theorem C20_tuple_dispatch (X : Externals) :
    (∀ (p : webvtt_cue_settings_t) (s1 s2 : List Char),
      webvtt_cue_settings_Parse X p (s1 ++ ' ' :: s2) =
        webvtt_cue_settings_Parse X (webvtt_cue_settings_Parse X p s1) s2) ∧
    (∀ (p : webvtt_cue_settings_t) (tok : List Char), ' ' ∉ tok →
      (∀ k v, is_tuple tok k v →
        webvtt_cue_settings_Parse X p tok = webvtt_cue_settings_ParseTuple X p k v) ∧
      ((¬ ∃ k v, is_tuple tok k v) → webvtt_cue_settings_Parse X p tok = p)) ∧
    (∀ (p : webvtt_region_t) (s1 s2 : List Char),
      webvtt_region_Parse X p (s1 ++ ' ' :: s2) =
        webvtt_region_Parse X (webvtt_region_Parse X p s1) s2) ∧
    (∀ (p : webvtt_region_t) (tok : List Char), ' ' ∉ tok →
      (∀ k v, is_tuple tok k v →
        webvtt_region_Parse X p tok = webvtt_region_ParseTuple X p k v) ∧
      ((¬ ∃ k v, is_tuple tok k v) → webvtt_region_Parse X p tok = p)) := by
  refine ⟨cue_settings_Parse_append X, ?_, region_Parse_append X, ?_⟩
  · intro p tok h
    rw [cue_settings_Parse_token X p tok h]
    refine ⟨fun k v hkv => ?_, fun hno => ?_⟩
    · rw [(split_tuple_iff tok k v).2 hkv]
    · rw [split_tuple_none tok hno]
  · intro p tok h
    rw [region_Parse_token X p tok h]
    refine ⟨fun k v hkv => ?_, fun hno => ?_⟩
    · rw [(split_tuple_iff tok k v).2 hkv]
    · rw [split_tuple_none tok hno]

/-- Witness of C20: the token `align:start` is dispatched, the token `align:`
is not. -/
theorem C20_tuple_dispatch_witness :
    webvtt_cue_settings_Parse plain_externals webvtt_cue_settings_Init "align:start".toList =
      webvtt_cue_settings_ParseTuple plain_externals webvtt_cue_settings_Init
        "align".toList "start".toList ∧
    webvtt_cue_settings_Parse plain_externals webvtt_cue_settings_Init "align:".toList =
      webvtt_cue_settings_Init :=
  ⟨((C20_tuple_dispatch plain_externals).2.1 webvtt_cue_settings_Init "align:start".toList
      (by decide)).1 "align".toList "start".toList ⟨rfl, by decide, by decide, by decide⟩,
   ((C20_tuple_dispatch plain_externals).2.1 webvtt_cue_settings_Init "align:".toList
      (by decide)).2 (by
        rintro ⟨k, v, ht, hnot, -, hv⟩
        have h := (after_char_some ':' "align:".toList v).2 ⟨k, ht, hnot⟩
        have h2 : after_char ':' "align:".toList = some [] := by decide
        rw [h2] at h
        exact hv (Option.some.inj h).symm)⟩

/-! ### Settings of cues and regions -/

theorem tuples_foldl_inv {σ : Type} (P : σ → Prop) (f : σ → List Char → List Char → σ)
    (hf : ∀ p k v, v ≠ [] → P p → P (f p k v)) (toks : List (List Char)) (p : σ)
    (hp : P p) :
    P (toks.foldl
      (fun p tok =>
        match split_tuple tok with
        | some (k, v) => f p k v
        | none => p) p) := by
  induction toks generalizing p with
  | nil => exact hp
  | cons t ts ih =>
    simp only [List.foldl_cons]
    apply ih
    cases h : split_tuple t with
    | none => exact hp
    | some kv => exact hf p kv.1 kv.2 ((split_tuple_iff t kv.1 kv.2).1 h).2.2.2 hp

theorem cue_settings_ParseTuple_positionalign (X : Externals) (p : webvtt_cue_settings_t)
    (k v : List Char) :
    (webvtt_cue_settings_ParseTuple X p k v).positionalign = p.positionalign := by
  unfold webvtt_cue_settings_ParseTuple
  repeat' split
  all_goals rfl

theorem cue_settings_Parse_positionalign (X : Externals) (p : webvtt_cue_settings_t)
    (s : List Char) :
    (webvtt_cue_settings_Parse X p s).positionalign = p.positionalign := by
  unfold webvtt_cue_settings_Parse
  exact tuples_foldl_inv (fun q => q.positionalign = p.positionalign)
    (webvtt_cue_settings_ParseTuple X)
    (fun q k v _ hq => (cue_settings_ParseTuple_positionalign X q k v).trans hq) _ p rfl

/-- C19. For a `position` value made of a text without comma (the percentage
`P%`), a comma and a word `W`, the alignment of `W` (`line-left` gives left,
`line-right` right, `center` center, any other word auto) is written into
`linealign`, and `positionalign` is left as it was.  No settings string
changes `positionalign`: parsed from fresh settings it is auto. -/
theorem C19_position_alignment_in_linealign (X : Externals) (p : webvtt_cue_settings_t)
    (P W : List Char) (hP : ',' ∉ P) :
    (webvtt_cue_settings_ParseTuple X p "position".toList (P ++ ',' :: W)).linealign =
      position_word_align W ∧
    (webvtt_cue_settings_ParseTuple X p "position".toList (P ++ ',' :: W)).positionalign =
      p.positionalign ∧
    ∀ s : List Char,
      (webvtt_cue_settings_Parse X webvtt_cue_settings_Init s).positionalign =
        WEBVTT_ALIGN_AUTO := by
  refine ⟨?_, cue_settings_ParseTuple_positionalign X p _ _,
    fun s => cue_settings_Parse_positionalign X _ s⟩
  have ha : after_char ',' (P ++ ',' :: W) = some W :=
    (after_char_some ',' _ W).2 ⟨P, rfl, hP⟩
  have e1 : ¬ ("position".toList = "vertical".toList) := by decide
  have e2 : ¬ ("position".toList = "line".toList) := by decide
  simp only [webvtt_cue_settings_ParseTuple, if_neg e1, if_neg e2, if_true, ha,
    position_word_align]
  repeat' split
  all_goals rfl

/-- Witness of C19: the value `10%,line-right`. -/
theorem C19_position_alignment_in_linealign_witness :
    (webvtt_cue_settings_ParseTuple plain_externals webvtt_cue_settings_Init
      "position".toList ("10%".toList ++ ',' :: "line-right".toList)).linealign =
      WEBVTT_ALIGN_RIGHT :=
  (C19_position_alignment_in_linealign plain_externals webvtt_cue_settings_Init
    "10%".toList "line-right".toList (by decide)).1

theorem region_ParseTuple_lines_bounds (X : Externals) (p : webvtt_region_t) (k v : List Char)
    (h : 1 ≤ p.i_lines_max_scroll ∧ p.i_lines_max_scroll ≤ 18) :
    1 ≤ (webvtt_region_ParseTuple X p k v).i_lines_max_scroll ∧
      (webvtt_region_ParseTuple X p k v).i_lines_max_scroll ≤ 18 := by
  simp only [webvtt_region_ParseTuple, gt_iff_lt]
  split_ifs
  all_goals first
    | exact h
    | (simp only [WEBVTT_REGION_LINES_COUNT]; omega)

theorem region_Parse_lines_bounds (X : Externals) (p : webvtt_region_t) (s : List Char)
    (h : 1 ≤ p.i_lines_max_scroll ∧ p.i_lines_max_scroll ≤ 18) :
    1 ≤ (webvtt_region_Parse X p s).i_lines_max_scroll ∧
      (webvtt_region_Parse X p s).i_lines_max_scroll ≤ 18 := by
  unfold webvtt_region_Parse
  exact tuples_foldl_inv (fun q => 1 ≤ q.i_lines_max_scroll ∧ q.i_lines_max_scroll ≤ 18)
    (webvtt_region_ParseTuple X) (fun q k v _ hq => region_ParseTuple_lines_bounds X q k v hq)
    _ p h

theorem region_Parse_all_lines_bounds (X : Externals) (lines : List (List Char))
    (p : webvtt_region_t) (h : 1 ≤ p.i_lines_max_scroll ∧ p.i_lines_max_scroll ≤ 18) :
    1 ≤ (webvtt_region_Parse_all X p lines).i_lines_max_scroll ∧
      (webvtt_region_Parse_all X p lines).i_lines_max_scroll ≤ 18 := by
  induction lines generalizing p with
  | nil => exact h
  | cons l ls ih =>
    simp only [webvtt_region_Parse_all, List.foldl_cons]
    exact ih _ (region_Parse_lines_bounds X p l h)

/-- C18. Whatever lines are parsed into a fresh region, its
`i_lines_max_scroll` stays between 1 and 18.  The key `lines` with a value
that `atoi` reads as `N > 0` sets it to the smaller of `N` and 18; with a
value read as zero or less, which is how `atoi` reads a text that is not a
number, the region is unchanged. -/
theorem C18_max_scroll_lines_bounds (X : Externals) :
    (∀ lines : List (List Char),
      1 ≤ (webvtt_region_Parse_all X webvtt_region_Init lines).i_lines_max_scroll ∧
      (webvtt_region_Parse_all X webvtt_region_Init lines).i_lines_max_scroll ≤ 18) ∧
    (∀ (p : webvtt_region_t) (v : List Char), 0 < X.atoi v →
      webvtt_region_ParseTuple X p "lines".toList v =
        { p with i_lines_max_scroll := (min (X.atoi v) 18).toNat }) ∧
    (∀ (p : webvtt_region_t) (v : List Char), X.atoi v ≤ 0 →
      webvtt_region_ParseTuple X p "lines".toList v = p) := by
  refine ⟨fun lines => region_Parse_all_lines_bounds X lines _ (by decide), ?_, ?_⟩
  · intro p v h
    have e1 : ¬ ("lines".toList = "id".toList) := by decide
    have e2 : ¬ ("lines".toList = "width".toList) := by decide
    have e3 : ¬ ("lines".toList = "regionanchor".toList) := by decide
    have e4 : ¬ ("lines".toList = "viewportanchor".toList) := by decide
    simp only [webvtt_region_ParseTuple, if_neg e1, if_neg e2, if_neg e3, if_neg e4, if_true,
      gt_iff_lt, if_pos h, WEBVTT_REGION_LINES_COUNT]
    rfl
  · intro p v h
    have e1 : ¬ ("lines".toList = "id".toList) := by decide
    have e2 : ¬ ("lines".toList = "width".toList) := by decide
    have e3 : ¬ ("lines".toList = "regionanchor".toList) := by decide
    have e4 : ¬ ("lines".toList = "viewportanchor".toList) := by decide
    have hn : ¬ (0 < X.atoi v) := by omega
    simp only [webvtt_region_ParseTuple, if_neg e1, if_neg e2, if_neg e3, if_neg e4, if_true,
      gt_iff_lt, if_neg hn]

/-- Witness of C18: the values `40`, `-2` and `abc` on a fresh region, whose
limit is 3. -/
theorem C18_max_scroll_lines_bounds_witness :
    (webvtt_region_ParseTuple decimal_externals webvtt_region_Init "lines".toList
      "40".toList).i_lines_max_scroll = 18 ∧
    (webvtt_region_ParseTuple decimal_externals webvtt_region_Init "lines".toList
      "-2".toList).i_lines_max_scroll = 3 ∧
    (webvtt_region_ParseTuple decimal_externals webvtt_region_Init "lines".toList
      "abc".toList).i_lines_max_scroll = 3 :=
  ⟨by rw [(C18_max_scroll_lines_bounds decimal_externals).2.1 webvtt_region_Init "40".toList
      (by decide)]; rfl,
   by rw [(C18_max_scroll_lines_bounds decimal_externals).2.2 webvtt_region_Init "-2".toList
      (by decide)]; rfl,
   by rw [(C18_max_scroll_lines_bounds decimal_externals).2.2 webvtt_region_Init "abc".toList
      (by decide)]; rfl⟩

/-! ### Header loader -/

theorem region_ParseTuple_id (X : Externals) (p : webvtt_region_t) (k v : List Char) :
    (webvtt_region_ParseTuple X p k v).psz_id =
      if k = "id".toList then some v else p.psz_id := by
  simp only [webvtt_region_ParseTuple, gt_iff_lt]
  split_ifs <;> rfl

theorem region_Parse_id (X : Externals) (p : webvtt_region_t) (psz_line : List Char) :
    (webvtt_region_Parse X p psz_line).psz_id = line_id p.psz_id psz_line := by
  unfold webvtt_region_Parse line_id
  generalize strtok_all [] psz_line = toks
  induction toks generalizing p with
  | nil => rfl
  | cons t ts ih =>
    simp only [List.foldl_cons]
    rw [ih]
    cases split_tuple t with
    | none => rfl
    | some kv => simp only [region_ParseTuple_id]

theorem handler_step_ids (X : Externals) (ctx : parser_ctx) (c : header_call) :
    store_ids (ParserHeaderHandler X ctx c.s c.b_new c.psz_line) =
      store_ids ctx ++ (committed_id (ctx.p_region.map fun r => r.psz_id) c).map some ∧
    ((ParserHeaderHandler X ctx c.s c.b_new c.psz_line).p_region.map fun r => r.psz_id) =
      declaration_after (ctx.p_region.map fun r => r.psz_id) c := by
  obtain ⟨s, b_new, psz_line⟩ := c
  obtain ⟨p_region, p_sys⟩ := ctx
  cases psz_line with
  | none =>
    cases p_region with
    | none =>
      simp [ParserHeaderHandler, ParserHeaderHandler_commit, store_ids, committed_id,
        declaration_after]
    | some r =>
      cases hr : r.psz_id with
      | none =>
        simp [ParserHeaderHandler, ParserHeaderHandler_commit, store_ids, committed_id,
          declaration_after, hr]
      | some id =>
        simp [ParserHeaderHandler, ParserHeaderHandler_commit, store_ids, committed_id,
          declaration_after, hr]
  | some line =>
    cases b_new with
    | true =>
      cases p_region with
      | none =>
        by_cases hs : s = WEBVTT_HEADER_REGION <;>
        simp [ParserHeaderHandler, ParserHeaderHandler_commit, store_ids, committed_id,
          declaration_after, hs, webvtt_region_Init]
      | some r =>
        cases hr : r.psz_id with
        | none =>
          by_cases hs : s = WEBVTT_HEADER_REGION <;>
          simp [ParserHeaderHandler, ParserHeaderHandler_commit, store_ids, committed_id,
            declaration_after, hr, hs, webvtt_region_Init]
        | some id =>
          by_cases hs : s = WEBVTT_HEADER_REGION <;>
          simp [ParserHeaderHandler, ParserHeaderHandler_commit, store_ids, committed_id,
            declaration_after, hr, hs, webvtt_region_Init]
    | false =>
      cases p_region with
      | none =>
        by_cases hs : s = WEBVTT_HEADER_REGION <;>
        simp [ParserHeaderHandler, ParserHeaderHandler_feed, store_ids, committed_id,
          declaration_after, hs]
      | some r =>
        by_cases hs : s = WEBVTT_HEADER_REGION <;>
        simp [ParserHeaderHandler, ParserHeaderHandler_feed, store_ids, committed_id,
          declaration_after, hs, region_Parse_id]

theorem handler_all_ids (X : Externals) (calls : List header_call) (ctx : parser_ctx) :
    store_ids (ParserHeaderHandler_all X ctx calls) =
      store_ids ctx ++ (declared_ids (ctx.p_region.map fun r => r.psz_id) calls).map some := by
  induction calls generalizing ctx with
  | nil => simp [ParserHeaderHandler_all, declared_ids]
  | cons c rest ih =>
    have hstep := handler_step_ids X ctx c
    have := ih (ParserHeaderHandler X ctx c.s c.b_new c.psz_line)
    simp only [ParserHeaderHandler_all, List.foldl_cons] at this ⊢
    rw [this, hstep.1, hstep.2]
    simp only [declared_ids, List.map_append, List.append_assoc]

/-- Counterexample of C16: a header whose two `REGION` blocks both declare the
id `a` leaves two named regions with the id `a`. -/
theorem C16_counterexample :
    store_ids (ParserHeaderHandler_all plain_externals parser_ctx_init twin_header) =
      [some ['a'], some ['a']] ∧
    ¬ (store_ids (ParserHeaderHandler_all plain_externals parser_ctx_init twin_header)).Nodup := by
  have h : store_ids (ParserHeaderHandler_all plain_externals parser_ctx_init twin_header) =
      [some ['a'], some ['a']] := by
    rfl
  rw [h]
  exact ⟨rfl, by decide⟩

/-- C16, amended. Whatever callbacks are made from the initial context, the ids
of the named regions are, in the order of the chain, the ids of the `REGION`
blocks that the callbacks commit with an id.  So no two named regions have the
same id if and only if no two of those blocks declare the same id: the handler
does not look at the ids already stored. -/
theorem C16_store_ids_are_declared_ids (X : Externals) (calls : List header_call) :
    store_ids (ParserHeaderHandler_all X parser_ctx_init calls) =
      (declared_ids none calls).map some ∧
    ((store_ids (ParserHeaderHandler_all X parser_ctx_init calls)).Nodup ↔
      (declared_ids none calls).Nodup) := by
  have h : store_ids (ParserHeaderHandler_all X parser_ctx_init calls) =
      (declared_ids none calls).map some := by
    rw [handler_all_ids]
    rfl
  refine ⟨h, ?_⟩
  rw [h]
  exact List.nodup_map_iff (Option.some_injective _)

theorem region_Parse_id_nonempty (X : Externals) (p : webvtt_region_t) (psz_line : List Char)
    (h : ∀ id, p.psz_id = some id → id ≠ []) :
    ∀ id, (webvtt_region_Parse X p psz_line).psz_id = some id → id ≠ [] := by
  unfold webvtt_region_Parse
  refine tuples_foldl_inv (fun q => ∀ id, q.psz_id = some id → id ≠ [])
    (webvtt_region_ParseTuple X) ?_ _ p h
  intro q k v hv hq id hid
  rw [region_ParseTuple_id] at hid
  by_cases hk : k = "id".toList
  · rw [if_pos hk] at hid
    exact (Option.some.inj hid) ▸ hv
  · rw [if_neg hk] at hid
    exact hq id hid

theorem commit_named (ctx : parser_ctx) :
    (ParserHeaderHandler_commit ctx).p_sys.named =
      match ctx.p_region with
      | some r => if r.psz_id.isSome then ctx.p_sys.named ++ [r] else ctx.p_sys.named
      | none => ctx.p_sys.named := by
  unfold ParserHeaderHandler_commit
  cases ctx.p_region with
  | none => rfl
  | some r => by_cases h : r.psz_id.isSome <;> simp [h]

theorem commit_region (ctx : parser_ctx) :
    (ParserHeaderHandler_commit ctx).p_region = none ∧
      (ParserHeaderHandler_commit ctx).p_sys.regions = ctx.p_sys.regions := by
  unfold ParserHeaderHandler_commit
  cases h : ctx.p_region with
  | none => exact ⟨h, rfl⟩
  | some r => by_cases h : r.psz_id.isSome <;> simp [h]

theorem commit_inv (ctx : parser_ctx) (h : header_inv ctx) :
    header_inv (ParserHeaderHandler_commit ctx) := by
  refine ⟨?_, fun r hr => ?_⟩
  · rw [commit_named]
    cases hp : ctx.p_region with
    | none => exact h.1
    | some r =>
      by_cases hid : r.psz_id.isSome
      · simp only [if_pos hid]
        intro q hq
        rcases List.mem_append.1 hq with hq | hq
        · exact h.1 q hq
        · rw [List.mem_singleton] at hq
          subst hq
          obtain ⟨id, hid2⟩ := Option.isSome_iff_exists.1 hid
          exact ⟨id, hid2, h.2 q hp id hid2⟩
      · simp only [if_neg hid]
        exact h.1
  · rw [(commit_region ctx).1] at hr
    exact absurd hr (by simp)

theorem feed_inv (X : Externals) (ctx : parser_ctx) (s : webvtt_header_line_e)
    (psz_line : List Char) (h : header_inv ctx) :
    header_inv (ParserHeaderHandler_feed X ctx s psz_line) := by
  unfold ParserHeaderHandler_feed
  cases hp : ctx.p_region with
  | none => exact h
  | some r =>
    by_cases hs : s = WEBVTT_HEADER_REGION
    · simp only [if_pos hs]
      refine ⟨h.1, fun q hq => ?_⟩
      simp only [Option.some.injEq] at hq
      subst hq
      exact region_Parse_id_nonempty X r psz_line (h.2 r hp)
    · simp only [if_neg hs]
      exact h

theorem feed_named (X : Externals) (ctx : parser_ctx) (s : webvtt_header_line_e)
    (psz_line : List Char) :
    (ParserHeaderHandler_feed X ctx s psz_line).p_sys = ctx.p_sys := by
  unfold ParserHeaderHandler_feed
  cases ctx.p_region with
  | none => rfl
  | some r => by_cases hs : s = WEBVTT_HEADER_REGION <;> simp [hs]

theorem handler_inv (X : Externals) (ctx : parser_ctx) (c : header_call) (h : header_inv ctx) :
    header_inv (ParserHeaderHandler X ctx c.s c.b_new c.psz_line) := by
  have hfresh : ∀ ctx' : parser_ctx, header_inv ctx' →
      header_inv { ctx' with p_region := some webvtt_region_Init } := by
    intro ctx' h'
    refine ⟨h'.1, fun r hr id hid => ?_⟩
    simp only [Option.some.injEq] at hr
    subst hr
    exact absurd hid (by simp [webvtt_region_Init])
  unfold ParserHeaderHandler
  by_cases hc : c.b_new = true ∨ c.psz_line = none
  · rw [if_pos hc]
    cases hl : c.psz_line with
    | none => exact commit_inv ctx h
    | some line =>
      simp only []
      by_cases hb : c.b_new = true
      · rw [if_pos hb]
        by_cases hs : c.s = WEBVTT_HEADER_REGION
        · rw [if_pos hs]
          exact hfresh _ (commit_inv ctx h)
        · rw [if_neg hs]
          exact commit_inv ctx h
      · rw [if_neg hb]
        exact feed_inv X _ _ _ (commit_inv ctx h)
  · rw [if_neg hc]
    cases hl : c.psz_line with
    | none => exact h
    | some line => exact feed_inv X _ _ _ h

theorem handler_grows (X : Externals) (ctx : parser_ctx) (c : header_call) :
    ctx.p_sys.named <+: (ParserHeaderHandler X ctx c.s c.b_new c.psz_line).p_sys.named := by
  have hcommit : ctx.p_sys.named <+: (ParserHeaderHandler_commit ctx).p_sys.named := by
    rw [commit_named]
    cases ctx.p_region with
    | none => exact List.prefix_refl _
    | some r =>
      by_cases hid : r.psz_id.isSome
      · simp only [if_pos hid]
        exact List.prefix_append _ _
      · simp only [if_neg hid]
        exact List.prefix_refl _
  unfold ParserHeaderHandler
  by_cases hc : c.b_new = true ∨ c.psz_line = none
  · rw [if_pos hc]
    cases hl : c.psz_line with
    | none => exact hcommit
    | some line =>
      simp only []
      by_cases hb : c.b_new = true
      · rw [if_pos hb]
        by_cases hs : c.s = WEBVTT_HEADER_REGION
        · rw [if_pos hs]
          exact hcommit
        · rw [if_neg hs]
          exact hcommit
      · rw [if_neg hb, feed_named]
        exact hcommit
  · rw [if_neg hc]
    cases hl : c.psz_line with
    | none => exact List.prefix_refl _
    | some line =>
      simp only []
      rw [feed_named]

theorem handler_all_inv (X : Externals) (calls : List header_call) (ctx : parser_ctx)
    (h : header_inv ctx) : header_inv (ParserHeaderHandler_all X ctx calls) := by
  induction calls generalizing ctx with
  | nil => exact h
  | cons c rest ih =>
    simp only [ParserHeaderHandler_all, List.foldl_cons]
    exact ih _ (handler_inv X ctx c h)

theorem handler_all_grows (X : Externals) (calls : List header_call) (ctx : parser_ctx) :
    ctx.p_sys.named <+: (ParserHeaderHandler_all X ctx calls).p_sys.named := by
  induction calls generalizing ctx with
  | nil => exact List.prefix_refl _
  | cons c rest ih =>
    simp only [ParserHeaderHandler_all, List.foldl_cons]
    exact List.IsPrefix.trans (handler_grows X ctx c) (ih _)

theorem handler_all_append (X : Externals) (calls more : List header_call) (ctx : parser_ctx) :
    ParserHeaderHandler_all X ctx (calls ++ more) =
      ParserHeaderHandler_all X (ParserHeaderHandler_all X ctx calls) more := by
  simp only [ParserHeaderHandler_all, List.foldl_append]

/-- C17. When `ParserHeaderHandler` is called with the new-block flag or the
null line while the region `r` is in progress, `r` is added at the end of the
chain of named regions if and only if it has an id, and dropped else; the
default region is untouched, and `r` is no longer in progress: the only region
in progress after the call is the fresh one that the opening of a `REGION`
block allocates.  Whatever callbacks are made from the initial context, every
named region has an id that is not empty, and the chain only grows at its end,
so the regions stand in the order of their declarations. -/
theorem C17_commit_region_in_progress (X : Externals) (ctx : parser_ctx)
    (r : webvtt_region_t) (s : webvtt_header_line_e) (b_new : Bool)
    (psz_line : Option (List Char)) (hr : ctx.p_region = some r)
    (hc : b_new = true ∨ psz_line = none) :
    (ParserHeaderHandler X ctx s b_new psz_line).p_sys.named =
      (if r.psz_id.isSome then ctx.p_sys.named ++ [r] else ctx.p_sys.named) ∧
    (ParserHeaderHandler X ctx s b_new psz_line).p_sys.regions = ctx.p_sys.regions ∧
    (ParserHeaderHandler X ctx s b_new psz_line).p_region =
      (if psz_line.isSome ∧ s = WEBVTT_HEADER_REGION then some webvtt_region_Init else none) ∧
    ∀ calls : List header_call,
      (∀ q ∈ (ParserHeaderHandler_all X parser_ctx_init calls).p_sys.named,
        ∃ id, q.psz_id = some id ∧ id ≠ []) ∧
      ∀ more : List header_call,
        (ParserHeaderHandler_all X parser_ctx_init calls).p_sys.named <+:
          (ParserHeaderHandler_all X parser_ctx_init (calls ++ more)).p_sys.named := by
  have hn := commit_named ctx
  rw [hr] at hn
  simp only [] at hn
  obtain ⟨hp, hg⟩ := commit_region ctx
  have hinit : header_inv parser_ctx_init :=
    ⟨fun q hq => absurd hq (List.not_mem_nil q), fun q hq => absurd hq (by simp [parser_ctx_init])⟩
  have hlast : ∀ calls : List header_call,
      (∀ q ∈ (ParserHeaderHandler_all X parser_ctx_init calls).p_sys.named,
        ∃ id, q.psz_id = some id ∧ id ≠ []) ∧
      ∀ more : List header_call,
        (ParserHeaderHandler_all X parser_ctx_init calls).p_sys.named <+:
          (ParserHeaderHandler_all X parser_ctx_init (calls ++ more)).p_sys.named := by
    intro calls
    refine ⟨(handler_all_inv X calls _ hinit).1, fun more => ?_⟩
    rw [handler_all_append]
    exact handler_all_grows X more _
  unfold ParserHeaderHandler
  rw [if_pos (by simpa using hc)]
  cases psz_line with
  | none => exact ⟨hn, hg, by simpa using hp, hlast⟩
  | some line =>
    have hb : b_new = true := by
      rcases hc with h | h
      · exact h
      · exact absurd h (by simp)
    simp only [hb, if_true, Option.isSome_some, true_and]
    by_cases hs : s = WEBVTT_HEADER_REGION
    · rw [if_pos hs, if_pos hs]
      exact ⟨hn, hg, rfl, hlast⟩
    · rw [if_neg hs, if_neg hs]
      exact ⟨hn, hg, hp, hlast⟩

/-- Witness of C17: a new `REGION` block opens while the region `a` is in
progress. -/
theorem C17_commit_region_in_progress_witness :
    (ParserHeaderHandler plain_externals region_in_progress WEBVTT_HEADER_REGION true
      (some "REGION".toList)).p_sys.named =
      [{ webvtt_region_Init with psz_id := some ['a'], i_lines_max_scroll := 2 }] ∧
    (ParserHeaderHandler plain_externals region_in_progress WEBVTT_HEADER_REGION true
      (some "REGION".toList)).p_region = some webvtt_region_Init :=
  ⟨(C17_commit_region_in_progress plain_externals region_in_progress _ WEBVTT_HEADER_REGION
      true (some "REGION".toList) rfl (Or.inl rfl)).1,
   (C17_commit_region_in_progress plain_externals region_in_progress _ WEBVTT_HEADER_REGION
      true (some "REGION".toList) rfl (Or.inl rfl)).2.2.1⟩

/-! ### Styles -/

theorem InheritStyles_loop_chain (nodes : List webvtt_domnode_t) (fuel : Nat) :
    ∀ (p : Option Nat) (p_style : Option text_style_t),
      InheritStyles_loop nodes fuel p p_style =
        match parent_chain nodes fuel p with
        | .error e => .error e
        | .ok chain =>
          .ok (chain.foldl (fun p_style node => InheritStyles_node node p_style) p_style) := by
  induction fuel with
  | zero => intro p p_style; rfl
  | succ f ih =>
    intro p p_style
    cases p with
    | none => rfl
    | some p =>
      simp only [InheritStyles_loop, parent_chain]
      cases hn : nodes[p]? with
      | none => rfl
      | some node =>
        simp only [ih]
        cases parent_chain nodes f node.p_parent with
        | error e => rfl
        | ok chain => rfl

theorem InheritStyles_node_flags (node : webvtt_domnode_t) (p_style : Option text_style_t) :
    style_flags (InheritStyles_node node p_style) = style_flags p_style ||| tag_flag node := by
  unfold InheritStyles_node tag_flag
  cases ht : node.psz_tag with
  | none => simp [style_flags]
  | some t =>
    simp only [Option.some.injEq]
    by_cases hb : t = ['b']
    · cases p_style <;>
        simp [hb, style_flags, text_style_Create_NO_DEFAULTS]
    · by_cases hi : t = ['i']
      · cases p_style <;>
          simp [hi, style_flags, text_style_Create_NO_DEFAULTS]
      · by_cases hu : t = ['u']
        · cases p_style <;>
            simp [hu, style_flags, text_style_Create_NO_DEFAULTS]
        · by_cases hv : t = ['v']
          · cases node.psz_attrs <;> cases p_style <;>
              simp [hv, style_flags, text_style_Create_NO_DEFAULTS]
          · simp [hb, hi, hu, hv]

theorem foldl_flags (chain : List webvtt_domnode_t) (p_style : Option text_style_t) :
    style_flags (chain.foldl (fun p_style node => InheritStyles_node node p_style) p_style) =
      chain.foldl (fun flags node => flags ||| tag_flag node) (style_flags p_style) := by
  induction chain generalizing p_style with
  | nil => rfl
  | cons n rest ih => simp only [List.foldl_cons, ih, InheritStyles_node_flags]

theorem foldl_lor (chain : List webvtt_domnode_t) (a : Nat) :
    chain.foldl (fun flags node => flags ||| tag_flag node) a =
      a ||| chain.foldl (fun flags node => flags ||| tag_flag node) 0 := by
  induction chain generalizing a with
  | nil => simp
  | cons n rest ih =>
    simp only [List.foldl_cons]
    rw [ih (a ||| tag_flag n), ih (0 ||| tag_flag n), Nat.zero_or, Nat.lor_assoc]

theorem InheritStyles_node_none (node : webvtt_domnode_t) :
    InheritStyles_node node none = none ↔ ¬ is_styling node := by
  unfold InheritStyles_node is_styling
  cases ht : node.psz_tag with
  | none => simp
  | some t =>
    simp only [Option.some.injEq]
    by_cases hb : t = ['b']
    · simp [hb]
    · by_cases hi : t = ['i']
      · simp [hi]
      · by_cases hu : t = ['u']
        · simp [hu]
        · by_cases hv : t = ['v']
          · cases node.psz_attrs <;> simp [hv]
          · simp [hb, hi, hu, hv]

theorem InheritStyles_node_some (node : webvtt_domnode_t) (style : text_style_t) :
    ∃ style', InheritStyles_node node (some style) = some style' := by
  unfold InheritStyles_node
  cases node.psz_tag with
  | none => exact ⟨_, rfl⟩
  | some t =>
    simp only []
    split_ifs
    · exact ⟨_, rfl⟩
    · exact ⟨_, rfl⟩
    · exact ⟨_, rfl⟩
    · cases node.psz_attrs <;> exact ⟨_, rfl⟩
    · exact ⟨_, rfl⟩

theorem foldl_some (chain : List webvtt_domnode_t) (style : text_style_t) :
    ∃ style', chain.foldl (fun p_style node => InheritStyles_node node p_style) (some style) =
      some style' := by
  induction chain generalizing style with
  | nil => exact ⟨_, rfl⟩
  | cons n rest ih =>
    obtain ⟨s1, h1⟩ := InheritStyles_node_some n style
    simp only [List.foldl_cons, h1]
    exact ih s1

theorem chain_style_none (chain : List webvtt_domnode_t) :
    chain_style chain = none ↔ ∀ node ∈ chain, ¬ is_styling node := by
  unfold chain_style
  induction chain with
  | nil => simp
  | cons n rest ih =>
    simp only [List.foldl_cons, List.mem_cons, forall_eq_or_imp]
    cases h : InheritStyles_node n none with
    | none =>
      rw [ih]
      have := (InheritStyles_node_none n).1 h
      exact ⟨fun hr => ⟨this, hr⟩, fun hr => hr.2⟩
    | some s =>
      obtain ⟨s', hs'⟩ := foldl_some rest s
      rw [hs']
      have hn : ¬ ¬ is_styling n := fun hc => by
        rw [(InheritStyles_node_none n).2 hc] at h
        exact absurd h (by simp)
      constructor
      · intro hc
        exact absurd hc (by simp)
      · intro hc
        exact absurd hc.1 hn

theorem land_lor_self (a b : Nat) : a &&& (a ||| b) = a := by
  apply Nat.eq_of_testBit_eq
  intro i
  simp only [Nat.testBit_land, Nat.testBit_lor]
  cases a.testBit i <;> simp

theorem chain_flags (chain : List webvtt_domnode_t) :
    style_flags (chain_style chain) =
      chain.foldl (fun flags node => flags ||| tag_flag node) 0 := by
  unfold chain_style
  rw [foldl_flags]
  rfl

/-- C22. `InheritStyles` gives the style that the nodes of the parent chain of
the node, itself first, produce in turn.  For every chain the flags of that
style are the union of the flags of the tags on it (`b` bold, `i` italic, `u`
underline), and the style is null if and only if no node of the chain is `b`,
`i`, `u` or `v` with attributes.  A node put anywhere in a chain adds its flag
to the flags and removes none of them. -/
theorem C22_inherited_flags_are_union (nodes : List webvtt_domnode_t) (p : Option Nat) :
    (InheritStyles nodes p =
      match parent_chain nodes (nodes.length + 1) p with
      | .error e => .error e
      | .ok chain => .ok (chain_style chain)) ∧
    (∀ chain : List webvtt_domnode_t,
      style_flags (chain_style chain) =
        chain.foldl (fun flags node => flags ||| tag_flag node) 0 ∧
      (chain_style chain = none ↔ ∀ node ∈ chain, ¬ is_styling node)) ∧
    ∀ (pre post : List webvtt_domnode_t) (x : webvtt_domnode_t),
      style_flags (chain_style (pre ++ x :: post)) =
        style_flags (chain_style (pre ++ post)) ||| tag_flag x ∧
      style_flags (chain_style (pre ++ post)) &&& style_flags (chain_style (pre ++ x :: post)) =
        style_flags (chain_style (pre ++ post)) := by
  refine ⟨?_, fun chain => ⟨chain_flags chain, chain_style_none chain⟩, fun pre post x => ?_⟩
  · unfold InheritStyles
    rw [InheritStyles_loop_chain]
    rfl
  · have h : style_flags (chain_style (pre ++ x :: post)) =
        style_flags (chain_style (pre ++ post)) ||| tag_flag x := by
      simp only [chain_flags, List.foldl_append, List.foldl_cons]
      rw [foldl_lor post, foldl_lor post (List.foldl _ 0 pre)]
      simp only [Nat.lor_assoc]
      congr 1
      exact Nat.lor_comm _ _
    exact ⟨h, by rw [h]; exact land_lor_self _ _⟩

/-! ### Voice color -/

theorem attrs_hash_eq (s : List Char) :
    attrs_hash s = s.foldl (fun acc c => ((acc * 8) % 2 ^ 32) ^^^
      (if c.toNat % 256 < 0x80 then c.toNat % 256 else c.toNat % 256 + 0xFFFFFF00)) 0 := by
  unfold attrs_hash
  congr 1
  funext a c
  rw [Nat.shiftLeft_eq]
  rfl

theorem foldl_congr_mem {α β : Type} (f g : α → β → α) (l : List β)
    (h : ∀ a, ∀ b ∈ l, f a b = g a b) (a : α) : l.foldl f a = l.foldl g a := by
  induction l generalizing a with
  | nil => rfl
  | cons x xs ih =>
    simp only [List.foldl_cons]
    rw [h a x (List.mem_cons_self _ _)]
    exact ih (fun a b hb => h a b (List.mem_cons_of_mem _ hb)) _

theorem voice_color_signed_seven_bit (s : List Char) (h : seven_bit s) :
    voice_color_signed s = voice_color s := by
  unfold voice_color_signed voice_color
  congr 2
  apply foldl_congr_mem
  intro a c hc
  have hlt : c.toNat < 0x80 := h c hc
  have hmod : c.toNat % 256 = c.toNat := Nat.mod_eq_of_lt (by omega)
  rw [hmod, if_pos hlt]

theorem lor_land_self (m a : Nat) : (m ||| a) &&& m = m := by
  apply Nat.eq_of_testBit_eq
  intro i
  simp only [Nat.testBit_land, Nat.testBit_lor]
  cases m.testBit i <;> simp

theorem color_bits (a : Nat) :
    ((0x7F7F7F ||| a) &&& 0xFFFFFF) &&& 0x7F7F7F = 0x7F7F7F := by
  rw [Nat.land_assoc]
  have : (0xFFFFFF : Nat) &&& 0x7F7F7F = 0x7F7F7F := by decide
  rw [this]
  exact lor_land_self _ _

theorem color_lt (a : Nat) : (0x7F7F7F ||| a) &&& 0xFFFFFF < 2 ^ 24 := by
  have := @Nat.and_le_right (0x7F7F7F ||| a) 0xFFFFFF
  omega

theorem channel_ge (color k : Nat) (hk : k = 0 ∨ k = 8 ∨ k = 16)
    (h : color &&& 0x7F7F7F = 0x7F7F7F) : 0x7F ≤ (color >>> k) &&& 0xFF := by
  have hbit : ∀ j, (0x7F7F7F : Nat).testBit j = true → color.testBit j = true := by
    intro j hj
    have := congrArg (fun n => Nat.testBit n j) h
    simp only [Nat.testBit_land, hj, Bool.and_true] at this
    exact this
  have hsub : ((color >>> k) &&& 0xFF) &&& 0x7F = 0x7F := by
    apply Nat.eq_of_testBit_eq
    intro i
    simp only [Nat.testBit_land, Nat.testBit_shiftRight]
    by_cases hi : i < 7
    · have h7 : (0x7F : Nat).testBit i = true := by
        interval_cases i <;> decide
      have hF : (0xFF : Nat).testBit i = true := by
        interval_cases i <;> decide
      have hm : (0x7F7F7F : Nat).testBit (k + i) = true := by
        rcases hk with rfl | rfl | rfl <;> interval_cases i <;> decide
      rw [h7, hF, hbit _ hm]
      rfl
    · have h7 : (0x7F : Nat).testBit i = false :=
        Nat.testBit_lt_two_pow (by
          calc (0x7F : Nat) < 2 ^ 7 := by decide
            _ ≤ 2 ^ i := Nat.pow_le_pow_right (by decide) (by omega))
      rw [h7]
      simp
  calc 0x7F = ((color >>> k) &&& 0xFF) &&& 0x7F := hsub.symm
    _ ≤ (color >>> k) &&& 0xFF := Nat.and_le_left

theorem InheritStyles_node_color (node : webvtt_domnode_t) (style : text_style_t)
    (h : ¬ (node.psz_tag = some ['v'] ∧ node.psz_attrs ≠ none)) :
    ∃ style', InheritStyles_node node (some style) = some style' ∧
      style'.i_font_color = style.i_font_color := by
  unfold InheritStyles_node
  cases ht : node.psz_tag with
  | none => exact ⟨_, rfl, rfl⟩
  | some t =>
    simp only []
    split_ifs with h1 h2 h3 h4
    · exact ⟨_, rfl, rfl⟩
    · exact ⟨_, rfl, rfl⟩
    · exact ⟨_, rfl, rfl⟩
    · cases ha : node.psz_attrs with
      | none => exact ⟨_, rfl, rfl⟩
      | some a =>
        rw [ht, ha, h4] at h
        exact absurd ⟨rfl, by simp⟩ h
    · exact ⟨_, rfl, rfl⟩

theorem foldl_color (chain : List webvtt_domnode_t) (style : text_style_t)
    (h : ∀ n ∈ chain, ¬ (n.psz_tag = some ['v'] ∧ n.psz_attrs ≠ none)) :
    ∃ style', chain.foldl (fun p_style node => InheritStyles_node node p_style) (some style) =
      some style' ∧ style'.i_font_color = style.i_font_color := by
  induction chain generalizing style with
  | nil => exact ⟨_, rfl, rfl⟩
  | cons n rest ih =>
    obtain ⟨s1, h1, hc1⟩ := InheritStyles_node_color n style (h n (List.mem_cons_self _ _))
    obtain ⟨s2, h2, hc2⟩ := ih s1 (fun m hm => h m (List.mem_cons_of_mem _ hm))
    simp only [List.foldl_cons, h1]
    exact ⟨s2, h2, hc2.trans hc1⟩

/-- Counterexample of C23: the `v` element whose attribute string is a blank and
the byte 0xE9.  The byte is a negative `char`: it enters the fold as `0xFFFFFFE9`,
and the color is `0xFFFFFF`, on the node and in the segment made of the
payload, where the formula with the byte itself gives `0x7F7FFF`. -/
theorem C23_counterexample :
    (InheritStyles_node voice_node_E9 none).map (fun style => style.i_font_color)
      = some 0xFFFFFF ∧
    voice_color [' ', Char.ofNat 0xE9] = 0x7F7FFF ∧
    (segments_of_payload plain_externals
        ("<v ".toList ++ [Char.ofNat 0xE9] ++ ">x</v>".toList)).map
      (fun segments => segments.map fun seg => seg.style.map fun style => style.i_font_color)
      = .ok [some 0xFFFFFF] ∧
    (InheritStyles_node voice_node_E9 none).map (fun style => style.i_font_color)
      ≠ some (voice_color [' ', Char.ofNat 0xE9]) := by
  refine ⟨by decide, by decide, by decide, by decide⟩

/-- C23, amended. A `v` node with the attribute string `s` sets the font color
of the style to `(0x7F7F7F OR acc) AND 0xFFFFFF`, `acc` being folded from 0 over
the bytes of `s` by `acc = (acc << 3) XOR b` on 32 bits, where `b` is the byte
as a signed `char` converted to `unsigned`, and marks the color as set.  When
every byte of `s` is below 0x80 this is the color of the formula with the byte
itself.  The color is below `2 ^ 24`, has every bit of `0x7F7F7F` set, and each
of its three 8-bit channels is at least `0x7F`.  It is the color of the style
of any chain in which no `v` with attributes stands above that node. -/
theorem C23_voice_font_color_signed_char (node : webvtt_domnode_t)
    (p_style : Option text_style_t) (s : List Char)
    (htag : node.psz_tag = some ['v']) (hattrs : node.psz_attrs = some s) :
    (∃ style, InheritStyles_node node p_style = some style ∧
      style.i_font_color = voice_color_signed s ∧
      style.i_features &&& STYLE_HAS_FONT_COLOR = STYLE_HAS_FONT_COLOR) ∧
    (seven_bit s → voice_color_signed s = voice_color s) ∧
    voice_color_signed s < 2 ^ 24 ∧
    voice_color_signed s &&& 0x7F7F7F = 0x7F7F7F ∧
    0x7F ≤ voice_color_signed s &&& 0xFF ∧
    0x7F ≤ (voice_color_signed s >>> 8) &&& 0xFF ∧
    0x7F ≤ (voice_color_signed s >>> 16) &&& 0xFF ∧
    ∀ above below : List webvtt_domnode_t,
      (∀ n ∈ above, ¬ (n.psz_tag = some ['v'] ∧ n.psz_attrs ≠ none)) →
      ∃ style, chain_style (below ++ node :: above) = some style ∧
        style.i_font_color = voice_color_signed s := by
  have hb : voice_color_signed s &&& 0x7F7F7F = 0x7F7F7F := color_bits _
  have hnode : ∀ p_style : Option text_style_t,
      ∃ style, InheritStyles_node node p_style = some style ∧
        style.i_font_color = voice_color_signed s ∧
        style.i_features &&& STYLE_HAS_FONT_COLOR = STYLE_HAS_FONT_COLOR := by
    intro p_style
    have e1 : ¬ (['v'] = ['b']) := by decide
    have e2 : ¬ (['v'] = ['i']) := by decide
    have e3 : ¬ (['v'] = ['u']) := by decide
    simp only [InheritStyles_node, htag, hattrs, if_neg e1, if_neg e2, if_neg e3, if_true]
    refine ⟨_, rfl, ?_, ?_⟩
    · simp only [voice_color_signed, attrs_hash_eq]
    · simp only []
      rw [Nat.lor_comm]
      exact lor_land_self _ _
  refine ⟨hnode p_style, voice_color_signed_seven_bit s, color_lt _, hb, ?_,
    channel_ge _ 8 (Or.inr (Or.inl rfl)) hb, channel_ge _ 16 (Or.inr (Or.inr rfl)) hb, ?_⟩
  rotate_left
  · intro above below habove
    obtain ⟨s1, h1, hc1, -⟩ := hnode (chain_style below)
    obtain ⟨s2, h2, hc2⟩ := foldl_color above s1 habove
    refine ⟨s2, ?_, hc2.trans hc1⟩
    simp only [chain_style, List.foldl_append, List.foldl_cons] at h1 ⊢
    rw [h1, h2]
  · have := channel_ge _ 0 (Or.inl rfl) hb
    simpa using this

/-- Witness of C23: the `v` element whose attribute string is a blank and the
byte 0xE9; its color is that of the amended formula and keeps every bit of
`0x7F7F7F`. -/
theorem C23_voice_font_color_signed_char_witness :
    (∃ style, InheritStyles_node voice_node_E9 none = some style ∧
      style.i_font_color = voice_color_signed [' ', Char.ofNat 0xE9] ∧
      style.i_features &&& STYLE_HAS_FONT_COLOR = STYLE_HAS_FONT_COLOR) ∧
    voice_color_signed [' ', Char.ofNat 0xE9] &&& 0x7F7F7F = 0x7F7F7F :=
  ⟨(C23_voice_font_color_signed_char voice_node_E9 none [' ', Char.ofNat 0xE9] rfl rfl).1,
   (C23_voice_font_color_signed_char voice_node_E9 none [' ', Char.ofNat 0xE9] rfl rfl).2.2.2.1⟩

/-! ### Segments in document order -/

theorem InheritStyles_loop_total (nodes : List webvtt_domnode_t) (hp : parents_older nodes) :
    ∀ (i fuel : Nat) (p_style : Option text_style_t), i < nodes.length → i + 2 ≤ fuel →
      ∃ s, InheritStyles_loop nodes fuel (some i) p_style = .ok s := by
  intro i
  induction i using Nat.strong_induction_on with
  | _ i ih =>
    intro fuel p_style hi hf
    obtain ⟨f, rfl⟩ : ∃ f, fuel = f + 1 := ⟨fuel - 1, by omega⟩
    have hnode : nodes[i]? = some nodes[i] := List.getElem?_eq_getElem hi
    simp only [InheritStyles_loop, hnode]
    cases hpar : (nodes[i]).p_parent with
    | none =>
      obtain ⟨g, rfl⟩ : ∃ g, f = g + 1 := ⟨f - 1, by omega⟩
      exact ⟨_, rfl⟩
    | some j =>
      have hj := hp i _ j hnode hpar
      exact ih j hj f _ (by omega) (by omega)

theorem InheritStyles_total (nodes : List webvtt_domnode_t) (hp : parents_older nodes)
    (i : Nat) (hi : i < nodes.length) :
    InheritStyles nodes (some i) = .ok (style_of nodes i) := by
  obtain ⟨s, hs⟩ := InheritStyles_loop_total nodes hp i (nodes.length + 1) none hi (by omega)
  unfold style_of InheritStyles
  rw [hs]

theorem Convert_own (X : Externals) (nodes : List webvtt_domnode_t) (hp : parents_older nodes)
    (i : Nat) (node : webvtt_domnode_t) (h : nodes[i]? = some node) :
    ConvertNodesToSegments_own X nodes i node = .ok (segment_of X nodes i).toList := by
  have hi : i < nodes.length := by
    rcases Nat.lt_or_ge i nodes.length with hlt | hge
    · exact hlt
    · rw [List.getElem?_eq_none hge] at h
      exact absurd h (by simp)
  unfold ConvertNodesToSegments_own segment_of
  cases ht : node.psz_text with
  | none => simp only [h, ht, Option.toList]
  | some text => simp only [h, ht, InheritStyles_total nodes hp i hi, Option.toList]

theorem Convert_loop_shape (X : Externals) (nodes : List webvtt_domnode_t)
    (hp : parents_older nodes) :
    ∀ (t : dom_shape) (p : Option Nat) (fuel : Nat), represents nodes p t →
      (shape_ids t).length < fuel →
      ConvertNodesToSegments_loop X nodes fuel p =
        .ok ((shape_ids t).filterMap (segment_of X nodes)) := by
  intro t
  induction t with
  | nil =>
    intro p fuel hr hf
    have := represents_nil _ _ hr
    subst this
    cases fuel with
    | zero => omega
    | succ f => rfl
  | node i c n ihc ihn =>
    intro p fuel hr hf
    obtain ⟨hpi, nd, hnode, hrc, hrn⟩ := represents_node _ _ _ _ _ hr
    subst hpi
    simp only [shape_ids, List.length_cons, List.length_append] at hf
    cases fuel with
    | zero => omega
    | succ f =>
      simp only [ConvertNodesToSegments_loop, hnode, Convert_own X nodes hp i nd hnode,
        ihc nd.p_child f hrc (by omega), ihn nd.p_next f hrn (by omega), shape_ids,
        List.filterMap_cons, List.filterMap_append]
      cases segment_of X nodes i <;> simp

theorem shape_ids_lt (nodes : List webvtt_domnode_t) :
    ∀ (t : dom_shape) (p : Option Nat), represents nodes p t →
      ∀ i ∈ shape_ids t, i < nodes.length := by
  intro t
  induction t with
  | nil => intro p _ i hi; simp [shape_ids] at hi
  | node j c n ihc ihn =>
    intro p hr i hi
    obtain ⟨-, nd, hnode, hrc, hrn⟩ := represents_node _ _ _ _ _ hr
    simp only [shape_ids, List.mem_cons, List.mem_append] at hi
    rcases hi with rfl | hi | hi
    · rcases Nat.lt_or_ge i nodes.length with hlt | hge
      · exact hlt
      · rw [List.getElem?_eq_none hge] at hnode
        exact absurd hnode (by simp)
    · exact ihc _ hrc i hi
    · exact ihn _ hrn i hi

theorem nodup_length_le (l : List Nat) (n : Nat) (hn : l.Nodup) (hl : ∀ i ∈ l, i < n) :
    l.length ≤ n := by
  have h1 : l.toFinset ⊆ Finset.range n := by
    intro i hi
    rw [List.mem_toFinset] at hi
    exact Finset.mem_range.2 (hl i hi)
  have h2 := Finset.card_le_card h1
  rw [List.toFinset_card_of_nodup hn, Finset.card_range] at h2
  exact h2

/-- C21. For a store whose links from `p` draw the forest `t`, and whose
`p_parent` links go to older nodes, `ConvertNodesToSegments` returns, given
enough rounds, the segments of the text nodes of `t` in document order (each
node, then its children, then its next siblings): one segment for each node
that has a text, carrying that text once decoded and the inherited style, and
none for an element.  `ConvertCueToSegments` gives the same list for a cue
that holds the forest, when no node is reached twice. -/
theorem C21_segments_in_document_order (X : Externals) (nodes : List webvtt_domnode_t)
    (p : Option Nat) (t : dom_shape) (fuel : Nat)
    (hr : represents nodes p t) (hp : parents_older nodes)
    (hf : (shape_ids t).length < fuel) :
    ConvertNodesToSegments_loop X nodes fuel p =
      .ok ((shape_ids t).filterMap (segment_of X nodes)) ∧
    ((shape_ids t).filterMap (segment_of X nodes)).map (fun s => s.psz_text) =
      (shape_ids t).filterMap
        (fun i => (nodes[i]?.bind fun node => node.psz_text).map X.vlc_xml_decode) ∧
    ∀ p_cue : webvtt_dom_cue_t, p_cue.nodes = nodes → p_cue.p_nodes = p →
      (shape_ids t).Nodup →
      ConvertCueToSegments X p_cue = .ok ((shape_ids t).filterMap (segment_of X nodes)) := by
  refine ⟨Convert_loop_shape X nodes hp t p fuel hr hf, ?_, ?_⟩
  · rw [List.map_filterMap]
    congr 1
    funext i
    unfold segment_of
    cases hn : nodes[i]? with
    | none => rfl
    | some node =>
      cases ht : node.psz_text with
      | none => simp only [ht, Option.bind, Option.map]
      | some text => simp only [ht, Option.bind, Option.map]
  · intro p_cue hn hpn hnd
    unfold ConvertCueToSegments
    rw [hn, hpn]
    exact Convert_loop_shape X nodes hp t p _ hr
      (Nat.lt_succ_of_le (nodup_length_le _ _ hnd (shape_ids_lt nodes t p hr)))

/-- Witness of C21: the forest of `Hello <b>world</b>` gives the texts `Hello `
and `world`, in that order. -/
theorem C21_segments_in_document_order_witness :
    ConvertNodesToSegments_loop plain_externals
        (simple_nodes "Hello ".toList "world".toList) 4 (some 0) =
      .ok ((shape_ids simple_shape).filterMap
        (segment_of plain_externals (simple_nodes "Hello ".toList "world".toList))) ∧
    ((shape_ids simple_shape).filterMap
        (segment_of plain_externals (simple_nodes "Hello ".toList "world".toList))).map
      (fun s => s.psz_text) = ["Hello ".toList, "world".toList] :=
  ⟨(C21_segments_in_document_order plain_externals
      (simple_nodes "Hello ".toList "world".toList) (some 0) simple_shape 4
      (by simp [represents, simple_shape, simple_nodes])
      (by
        intro i node j hi hj
        match i with
        | 0 => simp [simple_nodes, webvtt_domnode_New] at hi; subst hi; simp at hj
        | 1 => simp [simple_nodes, webvtt_domnode_New] at hi; subst hi; simp at hj
        | 2 => simp [simple_nodes, webvtt_domnode_New] at hi; subst hi; simp at hj; omega
        | k + 3 => simp [simple_nodes] at hi)
      (by decide)).1,
   by rfl⟩

/-! ### Line count of a built cue -/

theorem texts_set (nodes : List webvtt_domnode_t) (i : Nat) (owner owner' : webvtt_domnode_t)
    (ho : nodes[i]? = some owner) (ht : owner'.psz_text = owner.psz_text) :
    ((nodes.set i owner').map fun node => node.psz_text) =
      nodes.map fun node => node.psz_text := by
  rw [List.map_set]
  apply List.ext_getElem?
  intro k
  by_cases hk : k = i
  · subst hk
    have hlt : k < nodes.length := by
      rcases Nat.lt_or_ge k nodes.length with h | h
      · exact h
      · rw [List.getElem?_eq_none h] at ho
        exact absurd ho (by simp)
    rw [List.getElem?_set_self (by simpa using hlt), List.getElem?_map, ho, ht]
    rfl
  · rw [List.getElem?_set_ne (fun h => hk h.symm)]

theorem link_new_has_text (st st' : dom_builder) (node : webvtt_domnode_t)
    (h : link_new st node = .ok st') :
    has_text st'.nodes = (has_text st.nodes || node.psz_text.isSome) ∧
      st'.i_lines = st.i_lines := by
  unfold link_new at h
  split at h
  · simp only [Except.ok.injEq] at h
    subst h
    simp [has_text]
  · split at h
    · rename_i i _ _ owner ho
      simp only [Except.ok.injEq] at h
      subst h
      have e := texts_set st.nodes i owner { owner with p_next := some st.nodes.length } ho rfl
      simp only [has_text, List.map_append, List.any_append]
      rw [e]
      simp
    · simp at h
  · split at h
    · rename_i i _ _ owner ho
      simp only [Except.ok.injEq] at h
      subst h
      have e := texts_set st.nodes i owner { owner with p_child := some st.nodes.length } ho rfl
      simp only [has_text, List.map_append, List.any_append]
      rw [e]
      simp
    · simp at h

theorem lines_add_inv (i_lines : Nat) (text : List Char) (h : i_lines ≤ 1) :
    lines_add i_lines text = .ok 1 := by
  rw [lines_add_eq]
  have : i_lines = 0 ∨ i_lines = 1 := by omega
  rcases this with rfl | rfl <;> simp [UINT_RANGE]

theorem lines_inv_le (st : dom_builder) (h : lines_inv st) : st.i_lines ≤ 1 := by
  unfold lines_inv at h
  rw [h]
  split <;> omega

theorem CreateDomNodes_text_lines (st st' : dom_builder) (psz_text psz_tag : List Char)
    (hinv : lines_inv st) (h : CreateDomNodes_text st psz_text psz_tag = .ok st') :
    lines_inv st' := by
  unfold CreateDomNodes_text at h
  split at h
  · simp only [bind_eq_ok, pure_eq_ok] at h
    obtain ⟨text, -, n, hn, st1, hst1, h⟩ := h
    subst h
    rw [lines_add_inv _ _ (lines_inv_le st hinv)] at hn
    simp only [Except.ok.injEq] at hn
    obtain ⟨g, -⟩ := link_new_has_text _ _ _ hst1
    simp only [lines_inv, g, ← hn]
    simp
  · simp only [pure_eq_ok] at h
    exact h ▸ hinv

theorem CreateDomNodes_open_lines (st st' : dom_builder) (psz_tag psz_taglast : List Char)
    (hinv : lines_inv st) (h : CreateDomNodes_open st psz_tag psz_taglast = .ok st') :
    lines_inv st' := by
  unfold CreateDomNodes_open at h
  simp only [bind_eq_ok, pure_eq_ok] at h
  obtain ⟨⟨psz_name, psz_attrs⟩, -, tag, -, attrs, -, st1, hst1, h⟩ := h
  subst h
  obtain ⟨g1, g2⟩ := link_new_has_text _ _ _ hst1
  unfold lines_inv at hinv ⊢
  simp only [g1, g2, hinv]
  simp [webvtt_domnode_New]

theorem CreateDomNodes_close_lines (st st' : dom_builder) (p_parent : Nat)
    (psz_tag : List Char) (hinv : lines_inv st)
    (h : CreateDomNodes_close st p_parent psz_tag = .ok st') : lines_inv st' := by
  unfold CreateDomNodes_close at h
  simp only [bind_eq_ok, pure_eq_ok] at h
  obtain ⟨⟨psz_name, psz_attrs⟩, -, tagname, -, parent, -, found, -, start, -, pp, -, h⟩ := h
  subst h
  exact hinv

theorem CreateDomNodes_loop_lines (fuel : Nat) :
    ∀ (st st' : dom_builder) (psz_text : List Char), lines_inv st →
      CreateDomNodes_loop fuel st psz_text = .ok st' → lines_inv st' := by
  induction fuel with
  | zero => intro st st' t _ h; simp [CreateDomNodes_loop] at h
  | succ n ih =>
    intro st st' t hinv h
    simp only [CreateDomNodes_loop] at h
    split at h
    · simp at h
    · split at h
      · simp only [Except.ok.injEq] at h
        exact h ▸ hinv
      · split at h
        · simp at h
        · rename_i psz_tag psz_taglast hfind
          split at h
          · simp at h
          · rename_i st1 hst1
            have hinv1 := CreateDomNodes_text_lines _ _ _ _ hinv hst1
            split at h
            · simp at h
            · split at h
              · simp at h
              · rename_i st2 hst2
                exact ih _ _ _ (CreateDomNodes_open_lines _ _ _ _ hinv1 hst2) h
            · split at h
              · split at h
                · simp at h
                · rename_i st2 hst2
                  exact ih _ _ _ (CreateDomNodes_close_lines _ _ _ _ hinv1 hst2) h
              · simp only [Except.ok.injEq] at h
                exact h ▸ hinv1
        · split at h
          · simp at h
          · rename_i text htext
            split at h
            · simp at h
            · rename_i n hn
              split at h
              · simp at h
              · rename_i st1 hst1
                simp only [Except.ok.injEq] at h
                subst h
                rw [lines_add_inv _ _ (lines_inv_le st hinv)] at hn
                simp only [Except.ok.injEq] at hn
                obtain ⟨g, -⟩ := link_new_has_text _ _ _ hst1
                simp only [lines_inv, g, ← hn]
                simp

/-- C29. When `CreateDomNodes` returns for a payload, the line count it gives
is 1 if the store has a text node and 0 otherwise: it is at most 1, whatever
newlines the payload has.  The cue that `ProcessCue` makes of that payload has
this count, so in a region that scrolls at least one line the test
`i_lines > i_lines_max_scroll` of the first loop of `webvtt_region_AddCue`
fails at once and the loop returns the cue as it is. -/
theorem C29_built_cue_has_at_most_one_line (psz : List Char) (b : dom_builder)
    (h : CreateDomNodes psz = .ok b) :
    b.i_lines = (if has_text b.nodes then 1 else 0) ∧
    b.i_lines ≤ 1 ∧
    ∀ (p_cue : webvtt_dom_cue_t) (p_region : webvtt_region_t) (fuel : Nat),
      p_cue.p_nodes = none → 1 ≤ p_region.i_lines_max_scroll →
      ProcessCue psz p_cue = .ok (cue_with p_cue b) ∧
      ¬ ((cue_with p_cue b).i_lines > p_region.i_lines_max_scroll) ∧
      AddCue_fit_cue p_region (fuel + 1) (cue_with p_cue b) = .ok (some (cue_with p_cue b)) := by
  have hinv : lines_inv b := by
    unfold CreateDomNodes at h
    exact CreateDomNodes_loop_lines _ _ _ _ (by simp [lines_inv, has_text]) h
  have hle := lines_inv_le b hinv
  refine ⟨hinv, hle, ?_⟩
  intro p_cue p_region fuel hnone hmax
  have hnot : ¬ ((cue_with p_cue b).i_lines > p_region.i_lines_max_scroll) := by
    simp only [cue_with]
    omega
  refine ⟨?_, hnot, ?_⟩
  · simp only [ProcessCue, hnone, Option.isSome_none, Bool.false_eq_true, if_false, h, cue_with]
  · simp only [AddCue_fit_cue, if_neg hnot]

/-- Witness of C29: the payload `a\nb\nc`, of three lines, in a region of one
line. -/
theorem C29_built_cue_has_at_most_one_line_witness :
    three_line_builder.i_lines ≤ 1 ∧
    AddCue_fit_cue (scroll_region 1) 2 (cue_with (webvtt_dom_cue_New 0 10) three_line_builder) =
      .ok (some (cue_with (webvtt_dom_cue_New 0 10) three_line_builder)) :=
  ⟨(C29_built_cue_has_at_most_one_line "a\nb\nc".toList three_line_builder (by decide)).2.1,
   ((C29_built_cue_has_at_most_one_line "a\nb\nc".toList three_line_builder (by decide)).2.2
      (webvtt_dom_cue_New 0 10) (scroll_region 1) 1 rfl (by decide)).2.2⟩

/-! ### The empty tag, a nested newline and the oldest slot -/

/-- C24. On the payloads `<>` and `a<>` the builder reads past the terminator:
`FindNextTag` reports `<>` as a tag and `SplitTag` starts its scan after the
`>`, where only the terminator is left.  On `a<>bc d` the scan stops inside
the text, at the blank, so the attribute copy gets the length `psz_taglast -
psz_attrs = -3`, which is huge as a `size_t`, and copies ` d`. -/
theorem C24_empty_tag_reads_past_terminator :
    CreateDomNodes "<>".toList = .error .out_of_bounds ∧
    CreateDomNodes "a<>".toList = .error .out_of_bounds ∧
    SplitTag (c_str "<>".toList) = .error .out_of_bounds ∧
    SplitTag (c_str "<>bc d".toList) = .ok (c_str ">bc d".toList, c_str " d".toList) ∧
    ptr_diff (c_str ">bc d".toList) (c_str " d".toList) = -3 ∧
    (CreateDomNodes "a<>bc d".toList).map (fun b => b.nodes.map fun n => n.psz_attrs) =
      .ok [none, some " d".toList, none] := by
  decide

/-- C25. `FindNextTag` reports the 2-character `<>` as a tag, alone or inside a
text, and it is not an end tag; `</>` and a `<` without `>` give no tag. -/
theorem C25_empty_tag_is_reported :
    FindNextTag (c_str "<>".toList) = .ok (some (c_str "<>".toList, c_str ">".toList)) ∧
    FindNextTag (c_str "a<>b".toList) = .ok (some (c_str "<>b".toList, c_str ">b".toList)) ∧
    IsEndTag (c_str "<>".toList) = .ok false ∧
    FindNextTag (c_str "</>".toList) = .ok none ∧
    FindNextTag (c_str "<b".toList) = .ok none := by
  decide

/-- A cue made by hand: the forest of `<b>x\ny</b>` with a line count of 2, which
the builder does not give.  Its text, in document order, has a newline, but
the loop of `webvtt_dom_cue_Reduced` visits the top-level nodes only, finds
none and the cue is deleted. -/
theorem Reduced_nested_newline :
    nested_newline_cue.i_lines = 2 ∧
    forest_text nested_newline_cue.nodes 3 nested_newline_cue.p_nodes = .ok ['x', '\n', 'y'] ∧
    webvtt_dom_cue_Reduced nested_newline_cue = .ok none := by
  decide

theorem Reduced_one_line (c : webvtt_dom_cue_t) (h : c.i_lines ≤ 1) :
    webvtt_dom_cue_Reduced c = .ok none := by
  simp only [webvtt_dom_cue_Reduced, if_pos h]

/-- C27. After eighteen cues of one line the slots of a region of 18 lines are
all occupied.  `webvtt_region_Reduce` then deletes the cue of slot 0 and leaves
the other slots as they are, but slot 0 keeps its pointer, which points to no
cue any more: the `webvtt_region_CountLines` that follows reads through it. -/
theorem C27_reduce_leaves_dangling_slot :
    (AddCue_all (scroll_region 18) ((List.range 18).map fun i => one_line_cue i)).map
      (fun r => r.p_cues) = .ok full_slots ∧
    full_slots.head? = some (.live (one_line_cue 0)) ∧
    (webvtt_region_Reduce full_region).map (fun r => r.p_cues.head?) = .ok (some .invalid) ∧
    (webvtt_region_Reduce full_region).map (fun r => r.p_cues.tail) = .ok full_slots.tail ∧
    (match webvtt_region_Reduce full_region with
      | .ok r => webvtt_region_CountLines r
      | .error e => .error e) = .error .bad_pointer := by
  decide

/-! ### Order of the slots -/

theorem Reduced_loop_key (fuel : Nat) :
    ∀ (c : webvtt_dom_cue_t) (p : Option Nat) (c' : webvtt_dom_cue_t),
      Reduced_loop fuel c p = .ok (some c') → cue_key c' = cue_key c := by
  induction fuel with
  | zero => intro c p c' h; simp [Reduced_loop] at h
  | succ n ih =>
    intro c p c' h
    cases p with
    | none => simp [Reduced_loop] at h
    | some i =>
      simp only [Reduced_loop] at h
      split at h
      · simp at h
      · rename_i node hnode
        split at h
        · exact ih _ _ _ h
        · rename_i text htext
          split at h
          · simp at h
          · split at h
            · simp at h
            · split at h
              · simp at h
              · simp only [Except.ok.injEq, Option.some.injEq] at h
                subst h
                rfl
          · have := ih _ _ _ h
            simpa [cue_key] using this

theorem Reduced_key (c c' : webvtt_dom_cue_t)
    (h : webvtt_dom_cue_Reduced c = .ok (some c')) : cue_key c' = cue_key c := by
  unfold webvtt_dom_cue_Reduced at h
  split at h
  · simp at h
  · exact Reduced_loop_key _ _ _ _ h

theorem AddCue_fit_cue_key (r : webvtt_region_t) (fuel : Nat) :
    ∀ (c c' : webvtt_dom_cue_t), AddCue_fit_cue r fuel c = .ok (some c') →
      cue_key c' = cue_key c := by
  induction fuel with
  | zero => intro c c' h; simp [AddCue_fit_cue] at h
  | succ n ih =>
    intro c c' h
    simp only [AddCue_fit_cue] at h
    split at h
    · split at h
      · simp at h
      · simp at h
      · rename_i c1 hc1
        exact (ih _ _ h).trans (Reduced_key _ _ hc1)
    · simp only [Except.ok.injEq, Option.some.injEq] at h
      exact h ▸ rfl

theorem Reduce_first_block (k : Nat) (cs : List webvtt_dom_cue_t) :
    ∀ l', Reduce_first (List.replicate k .null ++ cs.map .live) = .ok l' →
      ∃ (k' : Nat) (cs' : List webvtt_dom_cue_t), k' + cs'.length = k + cs.length ∧
        l' = List.replicate k' .null ++ cs'.map .live ∧
        (cs'.map cue_key).Sublist (cs.map cue_key) := by
  induction k with
  | zero =>
    intro l' h
    cases cs with
    | nil =>
      simp only [List.replicate, List.map_nil, List.append_nil, Reduce_first,
        Except.ok.injEq] at h
      exact ⟨0, [], rfl, by simp [← h], List.Sublist.refl _⟩
    | cons c0 rest =>
      simp only [List.replicate, List.map_cons, List.nil_append, Reduce_first] at h
      split at h
      · simp only [Except.ok.injEq] at h
        refine ⟨1, rest, by simp; omega, by simp [← h, List.replicate], ?_⟩
        simp only [List.map_cons]
        exact List.Sublist.cons _ (List.Sublist.refl _)
      · rename_i c1 hc1
        simp only [Except.ok.injEq] at h
        refine ⟨0, c1 :: rest, by simp, by simp [← h], ?_⟩
        simp only [List.map_cons, Reduced_key _ _ hc1]
        exact List.Sublist.refl _
      · simp at h
  | succ k ih =>
    intro l' h
    simp only [List.replicate_succ, List.cons_append, Reduce_first] at h
    split at h
    · rename_i r hr
      simp only [Except.ok.injEq] at h
      obtain ⟨k', cs', hlen, hl, hsub⟩ := ih r hr
      refine ⟨k' + 1, cs', by omega, ?_, hsub⟩
      rw [← h, hl, List.replicate_succ, List.cons_append]
    · simp at h

theorem Reduce_block (r r1 : webvtt_region_t) (cs : List webvtt_dom_cue_t)
    (hb : slots_block r.p_cues cs) (h : webvtt_region_Reduce r = .ok r1) :
    r1.p_cues.head? = some .invalid ∨
      ∃ cs1, slots_block r1.p_cues cs1 ∧ (cs1.map cue_key).Sublist (cs.map cue_key) := by
  obtain ⟨k, hk, hp⟩ := hb
  unfold webvtt_region_Reduce at h
  cases k with
  | zero =>
    cases cs with
    | nil => simp at hk
    | cons c0 rest =>
      simp only [hp, List.replicate, List.nil_append, List.map_cons, Except.ok.injEq] at h
      left
      rw [← h]
      rfl
  | succ k =>
    rw [hp, List.replicate_succ, List.cons_append] at h
    simp only [] at h
    split at h
    · rename_i l' hl'
      simp only [Except.ok.injEq] at h
      have hl2 : Reduce_first (List.replicate (k + 1) .null ++ cs.map .live) = .ok l' := by
        rw [List.replicate_succ, List.cons_append]
        exact hl'
      obtain ⟨k', cs', hlen, hl, hsub⟩ := Reduce_first_block (k + 1) cs l' hl2
      right
      refine ⟨cs', ⟨k', by omega, ?_⟩, hsub⟩
      rw [← h]
      exact hl
    · simp at h

theorem fit_region_invalid (c : webvtt_dom_cue_t) (fuel : Nat) (r r2 : webvtt_region_t)
    (hi : r.p_cues.head? = some .invalid) : AddCue_fit_region c fuel r ≠ .ok r2 := by
  intro h
  cases fuel with
  | zero => simp [AddCue_fit_region] at h
  | succ f =>
    cases hp : r.p_cues with
    | nil => rw [hp] at hi; simp at hi
    | cons x rest =>
      rw [hp] at hi
      simp only [List.head?_cons, Option.some.injEq] at hi
      subst hi
      simp [AddCue_fit_region, webvtt_region_CountLines, hp, CountLines_loop] at h

theorem AddCue_fit_region_block (c : webvtt_dom_cue_t) (fuel : Nat) :
    ∀ (r r2 : webvtt_region_t) (cs : List webvtt_dom_cue_t), slots_block r.p_cues cs →
      AddCue_fit_region c fuel r = .ok r2 →
      ∃ cs2, slots_block r2.p_cues cs2 ∧ (cs2.map cue_key).Sublist (cs.map cue_key) := by
  induction fuel with
  | zero => intro r r2 cs _ h; simp [AddCue_fit_region] at h
  | succ f ih =>
    intro r r2 cs hb h
    simp only [AddCue_fit_region] at h
    split at h
    · simp at h
    · split at h
      · split at h
        · simp at h
        · rename_i r1 hr1
          rcases Reduce_block r r1 cs hb hr1 with hinv | ⟨cs1, hb1, hsub1⟩
          · exact absurd h (fit_region_invalid c f r1 r2 hinv)
          · obtain ⟨cs2, hb2, hsub2⟩ := ih r1 r2 cs1 hb1 h
            exact ⟨cs2, hb2, hsub2.trans hsub1⟩
      · simp only [Except.ok.injEq] at h
        exact ⟨cs, h ▸ hb, List.Sublist.refl _⟩

theorem set_last (l : List cue_ptr) (a b : cue_ptr) :
    (l ++ [a]).set l.length b = l ++ [b] := by
  induction l with
  | nil => rfl
  | cons x xs ih => simp only [List.cons_append, List.length_cons, List.set_cons_succ, ih]

theorem ScrollUp_store_block (r r3 : webvtt_region_t) (c : webvtt_dom_cue_t)
    (cs : List webvtt_dom_cue_t) (hb : slots_block r.p_cues cs)
    (h : webvtt_region_ScrollUp r = .ok r3) :
    ∃ cs', slots_block (store_last r3 c).p_cues (cs' ++ [c]) ∧
      (cs'.map cue_key).Sublist (cs.map cue_key) := by
  obtain ⟨k, hk, hp⟩ := hb
  unfold webvtt_region_ScrollUp at h
  cases k with
  | zero =>
    cases cs with
    | nil => simp at hk
    | cons c0 rest =>
      simp only [hp, List.replicate, List.nil_append, List.map_cons, Except.ok.injEq] at h
      have hlen : (rest.map cue_ptr.live).length = 17 := by
        simp only [List.length_map]
        simp only [List.length_cons] at hk
        omega
      refine ⟨rest, ⟨0, by simp at hk ⊢; omega, ?_⟩, ?_⟩
      · rw [← h]
        simp only [store_last, WEBVTT_REGION_LINES_COUNT]
        rw [List.take_of_length_le (by omega)]
        have := set_last (rest.map cue_ptr.live) .null (.live c)
        rw [hlen] at this
        rw [this]
        simp
      · simp only [List.map_cons]
        exact List.Sublist.cons _ (List.Sublist.refl _)
  | succ k =>
    rw [hp, List.replicate_succ, List.cons_append] at h
    simp only [Except.ok.injEq] at h
    have hlen : (List.replicate k cue_ptr.null ++ cs.map cue_ptr.live).length = 17 := by
      simp only [List.length_append, List.length_replicate, List.length_map]
      omega
    refine ⟨cs, ⟨k, by simp; omega, ?_⟩, List.Sublist.refl _⟩
    rw [← h]
    simp only [store_last, WEBVTT_REGION_LINES_COUNT]
    rw [List.take_of_length_le (by omega)]
    have := set_last (List.replicate k cue_ptr.null ++ cs.map cue_ptr.live) .null (.live c)
    rw [hlen] at this
    rw [this]
    simp

theorem block_valid (p_cues : List cue_ptr) (cs : List webvtt_dom_cue_t)
    (hb : slots_block p_cues cs) :
    p_cues.length = 18 ∧ ∀ p ∈ p_cues, p ≠ cue_ptr.invalid := by
  obtain ⟨k, hk, hp⟩ := hb
  subst hp
  refine ⟨by simp; omega, ?_⟩
  intro p hp
  rcases List.mem_append.1 hp with hp | hp
  · rw [(List.mem_replicate.1 hp).2]
    simp
  · obtain ⟨c, -, rfl⟩ := List.mem_map.1 hp
    simp

theorem AddCue_block (r r' : webvtt_region_t) (c : webvtt_dom_cue_t)
    (cs : List webvtt_dom_cue_t) (hb : slots_block r.p_cues cs)
    (h : webvtt_region_AddCue r c = .ok r') :
    (r' = r ∧ r.b_scroll_up = true ∧ AddCue_fit_cue r (c.i_lines + 1) c = .ok none) ∨
    ∃ (cs' : List webvtt_dom_cue_t) (c' : webvtt_dom_cue_t),
      slots_block r'.p_cues (cs' ++ [c']) ∧ cue_key c' = cue_key c ∧
      (cs'.map cue_key).Sublist (cs.map cue_key) := by
  by_cases hs : r.b_scroll_up = false
  · obtain ⟨hlen, hv⟩ := block_valid _ _ hb
    rw [AddCue_no_scroll r c hs hlen hv] at h
    simp only [Except.ok.injEq] at h
    right
    refine ⟨[], c, ⟨17, rfl, ?_⟩, rfl, List.nil_sublist _⟩
    rw [← h]
    rfl
  · have hs' : r.b_scroll_up = true := by simpa using hs
    simp only [webvtt_region_AddCue, hs', Bool.true_eq_false, if_false] at h
    split at h
    · simp at h
    · rename_i hnone
      simp only [Except.ok.injEq] at h
      exact Or.inl ⟨h.symm, hs', hnone⟩
    · rename_i c1 hc1
      right
      split at h
      · simp at h
      · rename_i r2 hr2
        split at h
        · simp at h
        · rename_i r3 hr3
          simp only [Except.ok.injEq] at h
          subst h
          obtain ⟨cs2, hb2, hsub2⟩ := AddCue_fit_region_block c1 _ r r2 cs hb hr2
          obtain ⟨cs3, hb3, hsub3⟩ := ScrollUp_store_block r2 r3 c1 cs2 hb2 hr3
          exact ⟨cs3, c1, hb3, AddCue_fit_cue_key _ _ _ _ hc1, hsub3.trans hsub2⟩

theorem AddCue_all_block :
    ∀ (ins done : List webvtt_dom_cue_t) (r r' : webvtt_region_t)
      (cs : List webvtt_dom_cue_t), slots_block r.p_cues cs →
      (cs.map cue_key).Sublist (done.map cue_key) → AddCue_all r ins = .ok r' →
      ∃ cs', slots_block r'.p_cues cs' ∧
        (cs'.map cue_key).Sublist ((done ++ ins).map cue_key) := by
  intro ins
  induction ins with
  | nil =>
    intro done r r' cs hb hsub h
    simp only [AddCue_all, Except.ok.injEq] at h
    exact ⟨cs, h ▸ hb, by simpa using hsub⟩
  | cons c rest ih =>
    intro done r r' cs hb hsub h
    simp only [AddCue_all] at h
    split at h
    · rename_i r1 hr1
      have hstep : ∃ cs1, slots_block r1.p_cues cs1 ∧
          (cs1.map cue_key).Sublist ((done ++ [c]).map cue_key) := by
        rcases AddCue_block r r1 c cs hb hr1 with ⟨heq, -, -⟩ | ⟨cs', c', hb', hkey, hsub'⟩
        · refine ⟨cs, heq ▸ hb, ?_⟩
          rw [List.map_append]
          exact hsub.trans (List.sublist_append_left _ _)
        · refine ⟨cs' ++ [c'], hb', ?_⟩
          simp only [List.map_append, List.map_cons, List.map_nil, hkey]
          exact List.Sublist.append (hsub'.trans hsub) (List.Sublist.refl _)
      obtain ⟨cs1, hb1, hsub1⟩ := hstep
      obtain ⟨cs2, hb2, hsub2⟩ := ih (done ++ [c]) r1 r' cs1 hb1 hsub1 h
      exact ⟨cs2, hb2, by simpa using hsub2⟩
    · simp at h

theorem AddCue_all_append (r : webvtt_region_t) (init : List webvtt_dom_cue_t)
    (c : webvtt_dom_cue_t) :
    AddCue_all r (init ++ [c]) =
      match AddCue_all r init with
      | .ok r1 => webvtt_region_AddCue r1 c
      | .error e => .error e := by
  induction init generalizing r with
  | nil =>
    simp only [List.nil_append, AddCue_all]
    cases webvtt_region_AddCue r c <;> rfl
  | cons x xs ih =>
    simp only [List.cons_append, AddCue_all]
    cases webvtt_region_AddCue r x with
    | error e => rfl
    | ok r1 => exact ih r1

/-- After any sequence of `webvtt_region_AddCue` calls that
return, made on a region whose slots were empty, the slots are empty slots
followed by cues, so the occupied slots are one block ending at slot 17, and
these cues are, in insertion order, some of the inserted ones (a cue is
known by its id and times, which a reduction keeps).  After the last call
either slot 17 holds the cue just inserted, or that call has deleted the cue in
its first loop and left the region as it was. -/
theorem AddCue_all_slots_in_order (r0 r : webvtt_region_t)
    (ins : List webvtt_dom_cue_t) (hempty : r0.p_cues = List.replicate 18 .null)
    (h : AddCue_all r0 ins = .ok r) :
    (∃ cs, slots_block r.p_cues cs ∧ (cs.map cue_key).Sublist (ins.map cue_key)) ∧
    ∀ (init : List webvtt_dom_cue_t) (c : webvtt_dom_cue_t), ins = init ++ [c] →
      (∃ c', r.p_cues[17]? = some (.live c') ∧ cue_key c' = cue_key c) ∨
      (∃ r1, AddCue_all r0 init = .ok r1 ∧ r = r1 ∧ r1.b_scroll_up = true ∧
        AddCue_fit_cue r1 (c.i_lines + 1) c = .ok none) := by
  have hb0 : slots_block r0.p_cues [] := ⟨18, rfl, by simp [hempty]⟩
  refine ⟨?_, ?_⟩
  · obtain ⟨cs, hb, hsub⟩ := AddCue_all_block ins [] r0 r [] hb0 (List.Sublist.refl _) h
    exact ⟨cs, hb, by simpa using hsub⟩
  · intro init c hins
    subst hins
    rw [AddCue_all_append] at h
    cases hinit : AddCue_all r0 init with
    | error e => rw [hinit] at h; exact absurd h (by simp)
    | ok r1 =>
      rw [hinit] at h
      simp only [] at h
      obtain ⟨cs1, hb1, -⟩ :=
        AddCue_all_block init [] r0 r1 [] hb0 (List.Sublist.refl _) hinit
      rcases AddCue_block r1 r c cs1 hb1 h with ⟨heq, hs, hnone⟩ | ⟨cs', c', hb', hkey, -⟩
      · exact Or.inr ⟨r1, rfl, heq, hs, hnone⟩
      · left
        refine ⟨c', ?_, hkey⟩
        obtain ⟨k, hk, hp⟩ := hb'
        have hlen : (List.replicate k cue_ptr.null ++ cs'.map cue_ptr.live).length = 17 := by
          simp only [List.length_append, List.length_replicate, List.length_map,
            List.length_singleton] at hk ⊢
          omega
        rw [hp, List.map_append, ← List.append_assoc,
          List.getElem?_append_right (by omega), hlen]
        rfl

/-- C28 (evaluation at the failing input). In an empty scrolling region of 18
lines, after each of the first eighteen insertions of a one-line cue the slots
are empty slots followed by the cues inserted so far, in insertion order, the
last one in slot 17.  At the nineteenth insertion `webvtt_region_Reduce`
deletes the cue of slot 0 and leaves its pointer in the slot: the slots are not
a block of cues any more, and the call goes on to read the deleted cue instead
of ending with the nineteenth cue in slot 17. -/
theorem C28_nineteenth_call_breaks_order :
    (∀ n < 19,
      (AddCue_all (scroll_region 18) ((List.range n).map fun i => one_line_cue i)).map
        (fun r => r.p_cues)
      = .ok (List.replicate (18 - n) .null ++ (List.range n).map fun i => .live (one_line_cue i))) ∧
    (webvtt_region_Reduce full_region).map (fun r => r.p_cues)
      = .ok (.invalid :: (List.range 17).map fun i => .live (one_line_cue (i + 1))) ∧
    (AddCue_all (scroll_region 18) ((List.range 19).map fun i => one_line_cue i)).map
      (fun r => r.p_cues[17]?) = .error .bad_pointer := by
  refine ⟨by decide, by decide, by decide⟩

/-! ### Segments of a built forest -/

theorem link_new_parents (st st1 : dom_builder) (new : webvtt_domnode_t)
    (hinv : builder_parents st) (hpar : new.p_parent = st.p_parent)
    (h : link_new st new = .ok st1) :
    parents_older st1.nodes ∧ st1.nodes.length = st.nodes.length + 1 ∧
      st1.p_parent = st.p_parent := by
  obtain ⟨hnodes, -, hp, -⟩ := link_new_eq st st1 new h
  have hlen : st1.nodes.length = st.nodes.length + 1 := by
    rw [hnodes, List.length_append, slot_write_length]
    rfl
  refine ⟨?_, hlen, hp⟩
  intro i node j hi hj
  have hi_lt : i < st1.nodes.length := (List.getElem?_eq_some.1 hi).1
  by_cases hlast : i = st.nodes.length
  · subst hlast
    rw [hnodes, added_new] at hi
    simp only [Option.some.injEq] at hi
    subst hi
    rw [hpar] at hj
    exact hinv.2 j hj
  · have hlt : i < st.nodes.length := by omega
    obtain ⟨nd', hnd', -, -, hparent⟩ :=
      added_fields st.nodes new st.nodes[i] st.pp_append i (List.getElem?_eq_getElem hlt)
    rw [hnodes, hnd'] at hi
    simp only [Option.some.injEq] at hi
    subst hi
    rw [hparent] at hj
    exact hinv.1 i _ j (List.getElem?_eq_getElem hlt) hj

theorem getParentByTag_loop_lt (nodes : List webvtt_domnode_t) (psz_tag : Option (List Char))
    (fuel : Nat) :
    ∀ (p : Option Nat) (q : Nat), getParentByTag_loop nodes psz_tag fuel p = .ok (some q) →
      q < nodes.length := by
  induction fuel with
  | zero => intro p q h; simp [getParentByTag_loop] at h
  | succ n ih =>
    intro p q h
    cases p with
    | none => simp [getParentByTag_loop] at h
    | some i =>
      simp only [getParentByTag_loop] at h
      split at h
      · simp at h
      · rename_i node hnode
        split at h
        · simp only [Except.ok.injEq, Option.some.injEq] at h
          subst h
          exact (List.getElem?_eq_some.1 hnode).1
        · exact ih _ _ h

theorem CreateDomNodes_text_parents (st st' : dom_builder) (psz_text psz_tag : List Char)
    (hinv : builder_parents st) (h : CreateDomNodes_text st psz_text psz_tag = .ok st') :
    builder_parents st' := by
  unfold CreateDomNodes_text at h
  split at h
  · simp only [bind_eq_ok, pure_eq_ok] at h
    obtain ⟨text, -, n, -, st1, hst1, h⟩ := h
    subst h
    obtain ⟨g1, g2, g3⟩ := link_new_parents _ _ _ hinv rfl hst1
    refine ⟨g1, fun j hj => ?_⟩
    simp only at hj
    rw [g3] at hj
    have := hinv.2 j hj
    simp only
    omega
  · simp only [pure_eq_ok] at h
    exact h ▸ hinv

theorem CreateDomNodes_open_parents (st st' : dom_builder) (psz_tag psz_taglast : List Char)
    (hinv : builder_parents st) (h : CreateDomNodes_open st psz_tag psz_taglast = .ok st') :
    builder_parents st' := by
  unfold CreateDomNodes_open at h
  simp only [bind_eq_ok, pure_eq_ok] at h
  obtain ⟨⟨psz_name, psz_attrs⟩, -, tag, -, attrs, -, st1, hst1, h⟩ := h
  subst h
  obtain ⟨g1, g2, g3⟩ := link_new_parents _ _ _ hinv rfl hst1
  refine ⟨g1, fun j hj => ?_⟩
  simp only [Option.some.injEq] at hj
  simp only
  omega

theorem CreateDomNodes_close_parents (st st' : dom_builder) (p_parent : Nat)
    (psz_tag : List Char) (hinv : builder_parents st)
    (h : CreateDomNodes_close st p_parent psz_tag = .ok st') : builder_parents st' := by
  unfold CreateDomNodes_close at h
  simp only [bind_eq_ok, pure_eq_ok] at h
  obtain ⟨⟨psz_name, psz_attrs⟩, -, tagname, -, parent, -, found, hfound, start, -, pp, -, h⟩ := h
  subst h
  refine ⟨hinv.1, fun j hj => ?_⟩
  simp only at hj
  rw [hj] at hfound
  exact getParentByTag_loop_lt _ _ _ _ _ hfound

theorem CreateDomNodes_loop_parents (fuel : Nat) :
    ∀ (st st' : dom_builder) (psz_text : List Char), builder_parents st →
      CreateDomNodes_loop fuel st psz_text = .ok st' → parents_older st'.nodes := by
  induction fuel with
  | zero => intro st st' t _ h; simp [CreateDomNodes_loop] at h
  | succ n ih =>
    intro st st' t hinv h
    simp only [CreateDomNodes_loop] at h
    split at h
    · simp at h
    · split at h
      · simp only [Except.ok.injEq] at h
        exact h ▸ hinv.1
      · split at h
        · simp at h
        · rename_i psz_tag psz_taglast hfind
          split at h
          · simp at h
          · rename_i st1 hst1
            have hinv1 := CreateDomNodes_text_parents _ _ _ _ hinv hst1
            split at h
            · simp at h
            · split at h
              · simp at h
              · rename_i st2 hst2
                exact ih _ _ _ (CreateDomNodes_open_parents _ _ _ _ hinv1 hst2) h
            · split at h
              · split at h
                · simp at h
                · rename_i st2 hst2
                  exact ih _ _ _ (CreateDomNodes_close_parents _ _ _ _ hinv1 hst2) h
              · simp only [Except.ok.injEq] at h
                exact h ▸ hinv1.1
        · split at h
          · simp at h
          · split at h
            · simp at h
            · split at h
              · simp at h
              · rename_i st1 hst1
                simp only [Except.ok.injEq] at h
                subst h
                exact (link_new_parents _ _ _ hinv rfl hst1).1

theorem order_inv_init :
    order_inv { nodes := [], p_head := none, pp_append := .head, p_parent := none, i_lines := 0 }
      .nil 0 [] := by
  simp [order_inv, represents, shape_ids, shape_slot, shape_depth, chain_linked, chain_levels]

/-- The forest that `CreateDomNodes` returns for a payload has the shape and the
parent links that the conversion to segments needs: its segments are those of
its text nodes in the order in which the nodes were made. -/
theorem CreateDomNodes_segments (X : Externals) (psz : List Char) (b : dom_builder)
    (h : CreateDomNodes psz = .ok b) :
    parents_older b.nodes ∧
    (∃ t, represents b.nodes b.p_head t ∧ shape_ids t = List.range b.nodes.length) ∧
    ConvertNodesToSegments_loop X b.nodes (b.nodes.length + 1) b.p_head =
      .ok ((List.range b.nodes.length).filterMap (segment_of X b.nodes)) := by
  unfold CreateDomNodes at h
  have hp : parents_older b.nodes :=
    CreateDomNodes_loop_parents _ _ _ _
      ⟨fun i node j hi _ => absurd hi (by simp), fun j hj => absurd hj (by simp)⟩ h
  obtain ⟨t, rest, hrep, hids, -, -⟩ := loop_text _ _ _ _ _ _ _ order_inv_init h
  refine ⟨hp, ⟨t, hrep, hids⟩, ?_⟩
  rw [← hids]
  exact Convert_loop_shape X b.nodes hp t b.p_head _ hrep (by rw [hids]; simp)

/-! ### Insertion with the first slot free -/

theorem CountLines_loop_block (k : Nat) (cs : List webvtt_dom_cue_t) :
    ∀ acc, ∃ n, CountLines_loop (List.replicate k .null ++ cs.map .live) acc = .ok n := by
  induction k with
  | zero =>
    induction cs with
    | nil => intro acc; exact ⟨acc, rfl⟩
    | cons c cs ih =>
      intro acc
      obtain ⟨n, hn⟩ := ih ((acc + c.i_lines) % UINT_RANGE)
      refine ⟨n, ?_⟩
      simpa [CountLines_loop] using hn
  | succ j ih =>
    intro acc
    obtain ⟨n, hn⟩ := ih acc
    refine ⟨n, ?_⟩
    simpa [CountLines_loop, List.replicate_succ] using hn

theorem Reduce_first_built (k : Nat) (c1 : webvtt_dom_cue_t) (cs : List webvtt_dom_cue_t)
    (h1 : c1.i_lines ≤ 1) :
    Reduce_first (List.replicate k .null ++ (c1 :: cs).map .live)
      = .ok (List.replicate (k + 1) .null ++ cs.map .live) := by
  induction k with
  | zero =>
    simp [Reduce_first, Reduced_one_line c1 h1]
  | succ j ih =>
    simp only [List.replicate_succ, List.cons_append, Reduce_first, List.append_eq]
    rw [ih]
    rfl

theorem lines_sum_block (k : Nat) (cs : List webvtt_dom_cue_t) :
    lines_sum (List.replicate k .null ++ cs.map .live) = (cs.map fun c => c.i_lines).sum := by
  induction k with
  | zero =>
    induction cs with
    | nil => rfl
    | cons c cs ih => simpa [lines_sum] using ih
  | succ j ih => simpa [lines_sum, List.replicate_succ] using ih

theorem AddCue_fit_region_total (c : webvtt_dom_cue_t) (hc : c.i_lines ≤ 1) (fuel : Nat) :
    ∀ (r : webvtt_region_t) (k : Nat) (cs : List webvtt_dom_cue_t),
      r.p_cues = List.replicate k .null ++ cs.map .live → 1 ≤ k →
      (∀ c0 ∈ cs, c0.i_lines ≤ 1) → cs.length < fuel → 1 ≤ r.i_lines_max_scroll →
      ∃ (k' : Nat) (cs' : List webvtt_dom_cue_t),
        AddCue_fit_region c fuel r
          = .ok { r with p_cues := List.replicate k' .null ++ cs'.map .live } ∧
        1 ≤ k' ∧ k' + cs'.length = k + cs.length := by
  induction fuel with
  | zero => intro r k cs _ _ _ hf; omega
  | succ f ih =>
    intro r k cs hb hk hcs hf hmax
    obtain ⟨n, hn⟩ := CountLines_loop_block k cs 0
    have hn' : webvtt_region_CountLines r = .ok n := by
      simp only [webvtt_region_CountLines, hb, hn]
    simp only [AddCue_fit_region, hn']
    by_cases hgt : (n + c.i_lines) % UINT_RANGE > r.i_lines_max_scroll
    · rw [if_pos hgt]
      cases cs with
      | nil =>
        exfalso
        have h0 : n = 0 := by
          have := CountLines_loop_eq _ 0 n (by decide) hn
          rw [lines_sum_block] at this
          simpa using this
        subst h0
        have : (0 + c.i_lines) % UINT_RANGE ≤ 1 := by
          rw [Nat.zero_add, Nat.mod_eq_of_lt (by simp only [UINT_RANGE]; omega)]
          exact hc
        omega
      | cons c1 cs1 =>
        have h1 : c1.i_lines ≤ 1 := hcs c1 (List.mem_cons_self _ _)
        obtain ⟨j, rfl⟩ : ∃ j, k = j + 1 := ⟨k - 1, by omega⟩
        have hred : webvtt_region_Reduce r
            = .ok { r with p_cues := List.replicate (j + 1 + 1) .null ++ cs1.map .live } := by
          have hform : r.p_cues = .null :: (List.replicate j .null ++ (c1 :: cs1).map .live) := by
            rw [hb, List.replicate_succ, List.cons_append]
          simp only [webvtt_region_Reduce, hform]
          have := Reduce_first_built (j + 1) c1 cs1 h1
          rw [List.replicate_succ, List.cons_append] at this
          rw [this]
        rw [hred]
        obtain ⟨k', cs', hfit, hk', hlen'⟩ :=
          ih { r with p_cues := List.replicate (j + 1 + 1) .null ++ cs1.map .live }
            (j + 1 + 1) cs1 rfl (by omega)
            (fun c0 h0 => hcs c0 (List.mem_cons_of_mem _ h0))
            (by simp only [List.length_cons] at hf; omega) hmax
        refine ⟨k', cs', hfit, hk', ?_⟩
        simp only [List.length_cons]
        omega
    · rw [if_neg hgt]
      refine ⟨k, cs, ?_, hk, rfl⟩
      rw [← hb]

theorem slots_weight_block (k : Nat) (cs : List webvtt_dom_cue_t) :
    cs.length ≤ slots_weight (List.replicate k .null ++ cs.map .live) := by
  induction k with
  | zero =>
    induction cs with
    | nil => simp [slots_weight]
    | cons c cs ih =>
      simp only [List.replicate_zero, List.nil_append, List.map_cons, slots_weight,
        List.length_cons] at ih ⊢
      omega
  | succ j ih => simpa [slots_weight, List.replicate_succ] using ih

/-- In a scrolling region whose slot 0 is free and whose cues, like the new one,
have at most one line, `webvtt_region_AddCue` returns: the oldest cues are
deleted through `webvtt_dom_cue_Reduced` until the new cue fits, the new cue is
stored in slot 17, and the lines of the region are within what it scrolls. -/
theorem AddCue_first_slot_free (r : webvtt_region_t) (c : webvtt_dom_cue_t) (k : Nat)
    (cs : List webvtt_dom_cue_t) (hs : r.b_scroll_up = true)
    (hmax : 1 ≤ r.i_lines_max_scroll)
    (hb : r.p_cues = List.replicate k .null ++ cs.map .live) (hk : 1 ≤ k)
    (hlen : k + cs.length = 18) (hcs : ∀ c0 ∈ cs, c0.i_lines ≤ 1) (hc : c.i_lines ≤ 1) :
    ∃ r', webvtt_region_AddCue r c = .ok r' ∧ r'.p_cues[17]? = some (.live c) ∧
      lines_sum r'.p_cues ≤ r.i_lines_max_scroll := by
  have hfitc : AddCue_fit_cue r (c.i_lines + 1) c = .ok (some c) := by
    simp only [AddCue_fit_cue]
    rw [if_neg (by omega)]
  have hw := slots_weight_block k cs
  rw [← hb] at hw
  obtain ⟨k', cs', hfit, hk', -⟩ :=
    AddCue_fit_region_total c hc (slots_weight r.p_cues + 2) r k cs hb hk hcs (by omega) hmax
  obtain ⟨j, rfl⟩ : ∃ j, k' = j + 1 := ⟨k' - 1, by omega⟩
  have hex : ∃ r', webvtt_region_AddCue r c = .ok r' := by
    simp only [webvtt_region_AddCue, hs, Bool.true_eq_false, if_false, hfitc, hfit,
      webvtt_region_ScrollUp, List.replicate_succ, List.cons_append]
    exact ⟨_, rfl⟩
  obtain ⟨r', hr'⟩ := hex
  have hlen18 : r.p_cues.length = 18 := by
    rw [hb]
    simp only [List.length_append, List.length_replicate, List.length_map]
    exact hlen
  have hslots : ∀ c0, cue_ptr.live c0 ∈ r.p_cues → c0.i_lines ≤ 1 := by
    intro c0 h0
    rw [hb, List.mem_append] at h0
    rcases h0 with h0 | h0
    · have := List.eq_of_mem_replicate h0
      exact absurd this (by simp)
    · rw [List.mem_map] at h0
      obtain ⟨c1, hc1, he⟩ := h0
      simp only [cue_ptr.live.injEq] at he
      subst he
      exact hcs c1 hc1
  exact ⟨r', hr', AddCue_line_budget_built r r' c hs hlen18 hmax hc hslots hr'⟩

end SubsVtt
